import Mathlib

/-!
tackgo: tack records and pin processing.

A shallow embedding of `structures/tack.go` (the 166-byte tack record and `Sign`) and of
`tack/processing.go` (`ProcessStore`), followed by theorems about them.

Conventions.
* Go `byte`, `uint8` and `uint32` values are natural numbers; where Go
  arithmetic can wrap, the reduction modulo `2^32` (or `2^8`) is written out.
* A Go byte slice is a `List Nat`; a buffer is a list whose entries are all
  below 256 (`IsBytes`).
* A Go call either returns or panics: `ProcessStore` yields
  `Except Panic (Status × Option Error × PinStore)`, the store component being
  the store as the call left it.
* The hash and the signer of the Go library are parameters of `Tack.Sign`.
-/

namespace Tackgo

/-! ## structures/tack.go -/

def TACK_LENGTH : Nat := 166
def PUBKEY_LENGTH : Nat := 64
def HASH_LENGTH : Nat := 32
def SIG_LENGTH : Nat := 64

/-- The struct `Tack` of `structures/tack.go`. -/
structure Tack where
  PublicKey : List Nat
  MinGeneration : Nat
  Generation : Nat
  Expiration : Nat
  TargetHash : List Nat
  Signature : List Nat
deriving DecidableEq, Repr

/-- Every entry of the buffer is a byte. -/
def IsBytes (b : List Nat) : Prop := ∀ x ∈ b, x < 256

instance (b : List Nat) : Decidable (IsBytes b) := by
  unfold IsBytes; infer_instance

/-- The Go slice expression `b[lo:hi]` (for `lo ≤ hi ≤ len(b)`). -/
def slice (b : List Nat) (lo hi : Nat) : List Nat := (b.take hi).drop lo

/-- The Go index expression `b[i]` on a buffer known to be long enough. -/
def byteAt (b : List Nat) (i : Nat) : Nat := b.getD i 0

/-- The error of `NewTackFromBytes`: `"Tack is the wrong size: %d"`. -/
inductive ParseError where
  | wrongSize (len : Nat)
deriving DecidableEq, Repr

/-- The value of `uint32(x) << k`. -/
def shl32 (x k : Nat) : Nat := (x <<< k) % 2 ^ 32

def NewTackFromBytes (b : List Nat) : Except ParseError Tack :=
  if b.length ≠ TACK_LENGTH then
    .error (.wrongSize b.length)
  else
    .ok
      { PublicKey := slice b 0 PUBKEY_LENGTH
        MinGeneration := byteAt b 64
        Generation := byteAt b 65
        Expiration :=
          shl32 (byteAt b 66) 24 ||| shl32 (byteAt b 67) 16 ||| shl32 (byteAt b 68) 8
            ||| byteAt b 69
        TargetHash := slice b 70 (70 + HASH_LENGTH)
        Signature := slice b 102 (102 + SIG_LENGTH) }

/-- The four bytes `binary.Write(buf, binary.BigEndian, v)` appends for a `uint32`. -/
def bigEndian32 (v : Nat) : List Nat :=
  [(v >>> 24) % 256, (v >>> 16) % 256, (v >>> 8) % 256, v % 256]

def Tack.serializePreSig (t : Tack) : List Nat :=
  t.PublicKey ++ [t.MinGeneration] ++ [t.Generation] ++ bigEndian32 t.Expiration ++ t.TargetHash

def Tack.Serialize (t : Tack) : List Nat :=
  t.serializePreSig ++ t.Signature

/-! ## tack/processing.go -/

inductive Status where
  | UNPINNED
  | ACCEPTED
  | REJECTED
deriving DecidableEq, Repr

/-- The non-nil values of the `error` result of `ProcessStore`. -/
inductive Error where
  | RevokedError
deriving DecidableEq, Repr

/-- The two ways a call of `ProcessStore` can panic: an index outside an array or
slice, and `panic("ASSERT: only 2 pins allowed in pair")`. -/
inductive Panic where
  | indexOutOfRange
  | assertTwoPins
deriving DecidableEq, Repr

/-- Modelled from the spec: the struct `Pin` (its declaration is not among the
sources; `processing.go` builds it as `Pin{initialTime, endTime, fingerprint}`). -/
structure Pin where
  initialTime : Nat
  endTime : Nat
  fingerprint : String
deriving DecidableEq, Repr

/-- Modelled from the spec: the `PinStore` interface (its declaration and its
backend are not among the sources). The state is a map from key fingerprint to
the recorded minimum generation, a map from hostname to pin pair, and the
pin-activation flag. -/
structure PinStore where
  minGenerations : String → Option Nat
  pinPairs : String → List Pin
  pinActivation : Bool

/-- `GetMinGeneration(fingerprint) -> (value, found)`. -/
def PinStore.GetMinGeneration (store : PinStore) (fingerprint : String) : Option Nat :=
  store.minGenerations fingerprint

/-- `SetMinGeneration(fingerprint, value)`. -/
def PinStore.SetMinGeneration (store : PinStore) (fingerprint : String) (value : Nat) :
    PinStore :=
  { store with
    minGenerations := fun k => if k = fingerprint then some value else store.minGenerations k }

/-- `GetPinPair(hostname)`. -/
def PinStore.GetPinPair (store : PinStore) (name : String) : List Pin :=
  store.pinPairs name

/-- `SetPinPair(hostname, pins)`. -/
def PinStore.SetPinPair (store : PinStore) (name : String) (pins : List Pin) : PinStore :=
  { store with pinPairs := fun k => if k = name then pins else store.pinPairs k }

/-- `GetPinActivation()`. -/
def PinStore.GetPinActivation (store : PinStore) : Bool :=
  store.pinActivation

/-- Modelled from the spec: the `TackExtension` type (its declaration is not among
the sources): the presented tacks, the list `GetKeyFingerprints()` returns, and
the external predicate `IsActive(index)`. -/
structure TackExtension where
  Tacks : List Tack
  KeyFingerprints : List String
  Active : Nat → Bool

def TackExtension.GetKeyFingerprints (tackExt : TackExtension) : List String :=
  tackExt.KeyFingerprints

def TackExtension.IsActive (tackExt : TackExtension) (t : Nat) : Bool :=
  tackExt.Active t

/-- A Go array `[2]bool`. -/
structure Flags where
  b0 : Bool
  b1 : Bool
deriving DecidableEq, Repr

/-- The zero value `[2]bool{}`. -/
def Flags.zero : Flags := ⟨false, false⟩

/-- Reading `a[i]`: panics when `i` is not 0 or 1. -/
def Flags.get (a : Flags) : Nat → Except Panic Bool
  | 0 => .ok a.b0
  | 1 => .ok a.b1
  | _ => .error .indexOutOfRange

/-- The assignment `a[i] = v`: panics when `i` is not 0 or 1. -/
def Flags.set (a : Flags) (i : Nat) (v : Bool) : Except Panic Flags :=
  match i with
  | 0 => .ok { a with b0 := v }
  | 1 => .ok { a with b1 := v }
  | _ => .error .indexOutOfRange

/-- The `uint32` sum `a + b`. -/
def add32 (a b : Nat) : Nat := (a + b) % 2 ^ 32

/-- The `uint32` difference `a - b` (for `b < 2^32`). -/
def sub32 (a b : Nat) : Nat := (a + 2 ^ 32 - b) % 2 ^ 32

/-- The local variables of `ProcessStore` that the second loop writes. -/
structure Locals where
  status : Status
  tackMatchesPin : Flags
  pinIsActive : Flags
  pinMatchesTack : Flags
  pinMatchesActiveTack : Flags
deriving DecidableEq, Repr

/-- The locals at function entry: `status` is the zero value `UNPINNED`. -/
def Locals.init : Locals :=
  ⟨.UNPINNED, Flags.zero, Flags.zero, Flags.zero, Flags.zero⟩

/-- Lines 19-28: the loop over the tacks that checks generations. The tacks still
to visit start at index `t`. The boolean is true when the loop left through
`return status, RevokedError{}`. -/
def checkGenerations (tackFingerprints : List String) :
    List Tack → Nat → PinStore → Except Panic (PinStore × Bool)
  | [], _, store => .ok (store, false)
  | tack :: rest, t, store =>
    match tackFingerprints[t]? with
    | none => .error .indexOutOfRange
    | some fp =>
      match store.GetMinGeneration fp with
      | some minGeneration =>
        if tack.Generation < minGeneration then
          .ok (store, true)
        else if tack.MinGeneration > minGeneration then
          checkGenerations tackFingerprints rest (t + 1)
            (store.SetMinGeneration fp tack.MinGeneration)
        else
          checkGenerations tackFingerprints rest (t + 1) store
      | none => checkGenerations tackFingerprints rest (t + 1) store

/-- Lines 35-41: the inner loop over the tacks for the pin at index `p`. -/
def matchTacks (tackFingerprints : List String) (isActive : Nat → Bool) (pin : Pin) (p : Nat) :
    List Tack → Nat → Locals → Except Panic Locals
  | [], _, l => .ok l
  | _ :: rest, t, l =>
    match tackFingerprints[t]? with
    | none => .error .indexOutOfRange
    | some fp =>
      if pin.fingerprint = fp then
        match l.pinMatchesTack.set p true with
        | .error e => .error e
        | .ok pmt =>
          match l.pinMatchesActiveTack.set p (isActive t) with
          | .error e => .error e
          | .ok pmat =>
            match l.tackMatchesPin.set t true with
            | .error e => .error e
            | .ok tmp =>
              matchTacks tackFingerprints isActive pin p rest (t + 1)
                { l with pinMatchesTack := pmt, pinMatchesActiveTack := pmat,
                         tackMatchesPin := tmp }
      else
        matchTacks tackFingerprints isActive pin p rest (t + 1) l

/-- Lines 31-48: the loop over the stored pins that determines the status. The pins
still to visit start at index `p`. The result `none` is the early
`return REJECTED, nil`. -/
def determineStatus (tackFingerprints : List String) (isActive : Nat → Bool) (tacks : List Tack)
    (currentTime : Nat) : List Pin → Nat → Locals → Except Panic (Option Locals)
  | [], _, l => .ok (some l)
  | pin :: rest, p, l =>
    match (if pin.endTime > currentTime then l.pinIsActive.set p true else .ok l.pinIsActive) with
    | .error e => .error e
    | .ok pia =>
      match matchTacks tackFingerprints isActive pin p tacks 0 { l with pinIsActive := pia } with
      | .error e => .error e
      | .ok l1 =>
        match l1.pinIsActive.get p with
        | .error e => .error e
        | .ok active =>
          if active then
            match l1.pinMatchesTack.get p with
            | .error e => .error e
            | .ok matched =>
              if !matched then
                .ok none
              else
                determineStatus tackFingerprints isActive tacks currentTime rest (p + 1)
                  { l1 with status := .ACCEPTED }
          else
            determineStatus tackFingerprints isActive tacks currentTime rest (p + 1) l1

/-- Lines 60-69: the end time the rebuilt pin gets. -/
def newEndTime (currentTime : Nat) (pin : Pin) (matchesActiveTack : Bool) : Nat :=
  if matchesActiveTack && decide (currentTime > pin.initialTime) then
    let endTime := sub32 (add32 currentTime (sub32 currentTime pin.initialTime)) 1
    if endTime > add32 currentTime (30 * 24 * 60) then add32 currentTime (30 * 24 * 60)
    else endTime
  else
    pin.endTime

/-- Lines 56-76: the loop that deletes unmatched pins and extends matched ones. -/
def rebuildPins (currentTime : Nat) (l : Locals) :
    List Pin → Nat → List Pin → Bool → Except Panic (List Pin × Bool)
  | [], _, newPins, madeChanges => .ok (newPins, madeChanges)
  | pin :: rest, p, newPins, madeChanges =>
    match l.pinMatchesTack.get p with
    | .error e => .error e
    | .ok matched =>
      if !matched then
        rebuildPins currentTime l rest (p + 1) newPins true
      else
        match l.pinMatchesActiveTack.get p with
        | .error e => .error e
        | .ok pmat =>
          let endTime := newEndTime currentTime pin pmat
          let madeChanges1 :=
            if pmat && decide (currentTime > pin.initialTime) && decide (endTime ≠ pin.endTime)
            then true else madeChanges
          if newPins.length > 1 then
            .error .assertTwoPins
          else
            rebuildPins currentTime l rest (p + 1)
              (newPins ++ [⟨pin.initialTime, endTime, pin.fingerprint⟩]) madeChanges1

/-- Lines 79-88: the loop that adds a pending pin for every active tack that
matched no pin. -/
def addNewPins (tackFingerprints : List String) (isActive : Nat → Bool) (currentTime : Nat)
    (l : Locals) :
    List Tack → Nat → PinStore → List Pin → Bool → Except Panic (PinStore × List Pin × Bool)
  | [], _, store, newPins, madeChanges => .ok (store, newPins, madeChanges)
  | tack :: rest, t, store, newPins, madeChanges =>
    if isActive t then
      match l.tackMatchesPin.get t with
      | .error e => .error e
      | .ok matched =>
        if !matched then
          match tackFingerprints[t]? with
          | none => .error .indexOutOfRange
          | some fp =>
            if newPins.length > 1 then
              .error .assertTwoPins
            else
              addNewPins tackFingerprints isActive currentTime l rest (t + 1)
                (store.SetMinGeneration fp tack.MinGeneration)
                (newPins ++ [⟨currentTime, 0, fp⟩]) true
        else
          addNewPins tackFingerprints isActive currentTime l rest (t + 1) store newPins
            madeChanges
    else
      addNewPins tackFingerprints isActive currentTime l rest (t + 1) store newPins madeChanges

/-- Lines 51-93: pin activation, run on the locals the second loop left. -/
def activatePins (store : PinStore) (tackExt : TackExtension) (name : String)
    (currentTime : Nat) (l : Locals) : Except Panic PinStore :=
  if store.GetPinActivation then
    match rebuildPins currentTime l (store.GetPinPair name) 0 [] false with
    | .error e => .error e
    | .ok (newPins, madeChanges) =>
      match addNewPins tackExt.GetKeyFingerprints tackExt.IsActive currentTime l
          tackExt.Tacks 0 store newPins madeChanges with
      | .error e => .error e
      | .ok (store1, newPins1, madeChanges1) =>
        if madeChanges1 then .ok (store1.SetPinPair name newPins1) else .ok store1
  else
    .ok store

/-- The function `ProcessStore`. The result is the pair `(status, err)` together with
the store as the call left it, or the panic that ended the call. -/
def ProcessStore (store : PinStore) (tackExt : TackExtension) (name : String)
    (currentTime : Nat) : Except Panic (Status × Option Error × PinStore) :=
  match checkGenerations tackExt.GetKeyFingerprints tackExt.Tacks 0 store with
  | .error e => .error e
  | .ok (store1, true) => .ok (Locals.init.status, some .RevokedError, store1)
  | .ok (store1, false) =>
    match determineStatus tackExt.GetKeyFingerprints tackExt.IsActive tackExt.Tacks currentTime
        (store1.GetPinPair name) 0 Locals.init with
    | .error e => .error e
    | .ok none => .ok (.REJECTED, none, store1)
    | .ok (some l) =>
      match activatePins store1 tackExt name currentTime l with
      | .error e => .error e
      | .ok store2 => .ok (l.status, none, store2)

/-- Whether the first loop of `ProcessStore` left through `return status, RevokedError{}`. -/
def revokedInPhase1 (store : PinStore) (tackExt : TackExtension) : Bool :=
  match checkGenerations tackExt.GetKeyFingerprints tackExt.Tacks 0 store with
  | .ok (_, true) => true
  | _ => false

/-- One call of `ProcessStore` in a sequence of calls; the caller may switch the
pin-activation flag of the store before the call. -/
structure Call where
  activation : Bool
  tackExt : TackExtension
  name : String
  currentTime : Nat

/-- The store after a sequence of `ProcessStore` calls, or the first panic. -/
def runCalls : PinStore → List Call → Except Panic PinStore
  | store, [] => .ok store
  | store, c :: rest =>
    match ProcessStore { store with pinActivation := c.activation } c.tackExt c.name
        c.currentTime with
    | .error e => .error e
    | .ok (_, _, store1) => runCalls store1 rest

/-- A tack with the given generation counters and empty key, hash and signature, for
the examples: `ProcessStore` reads only `Generation` and `MinGeneration`. -/
def mkTack (generation minGeneration : Nat) : Tack :=
  ⟨[], minGeneration, generation, 0, [], []⟩

/-- The flags of the pins at index `p` and beyond are still unset: the invariant of the
status loop before it visits the pin at index `p`. -/
def FreshFrom (l : Locals) (p : Nat) : Prop :=
  ∀ q, p ≤ q → l.pinIsActive.get q ≠ .ok true ∧ l.pinMatchesTack.get q ≠ .ok true ∧
    l.pinMatchesActiveTack.get q ≠ .ok true

/-- A store with pin activation on, no recorded minimum generation, and the given pin
pair for every hostname. -/
def storeWithPins (pins : List Pin) : PinStore :=
  ⟨fun _ => none, fun _ => pins, true⟩

/-- Two tacks, with key fingerprints `"F"` and `"G"`, both reported active. -/
def tacksFG : TackExtension :=
  ⟨[mkTack 1 0, mkTack 1 0], ["F", "G"], fun _ => true⟩

/-! ## structures/tack.go: signing -/

/-- The loop behind `bigIntBytes`: the base-256 digits of `n`, most significant first,
put before `acc`; `fuel` bounds the number of digits. -/
def bigIntBytesAux : Nat → Nat → List Nat → List Nat
  | 0, _, acc => acc
  | fuel + 1, n, acc =>
    if n = 0 then acc else bigIntBytesAux fuel (n / 256) (n % 256 :: acc)

/-- The method `(*big.Int).Bytes()` of the Go library `math/big` for a non-negative
integer: its big-endian bytes without leading zero byte (none for 0). -/
def bigIntBytes (n : Nat) : List Nat := bigIntBytesAux n n []

/-- The Go statement `copy(dst[lo:hi], src)` on a slice `dst` with `lo ≤ hi ≤ len(dst)`:
the first `min (hi - lo) (len src)` elements of `src` overwrite `dst` from index `lo`. -/
def copyAt (dst : List Nat) (lo hi : Nat) (src : List Nat) : List Nat :=
  dst.take lo ++ src.take (hi - lo) ++ dst.drop (lo + min (hi - lo) src.length)

/-- The bytes of the string `"tack_sig"`. -/
def tackSigTag : List Nat := [116, 97, 99, 107, 95, 115, 105, 103]

/-- The method `hashForSig`; `sha256` stands for the hash of the Go library. -/
def Tack.hashForSig (sha256 : List Nat → List Nat) (t : Tack) : List Nat :=
  sha256 (tackSigTag ++ t.serializePreSig)

/-- How a call of `Sign` ends: a slice bound out of range, the error of the signer
returned, or `nil` returned; with the tack as the call left it. -/
inductive SignResult where
  | panicked
  | failed (t : Tack)
  | signed (t : Tack)
deriving DecidableEq, Repr

/-- The method `Sign`. `X` and `Y` are `privKey.X` and `privKey.Y`; `sha256` stands for
the hash of the Go library and `ecdsaSign digest` for `ecdsa.Sign(rand.Reader, privKey,
digest)`, which returns `r` and `s` or an error (`none`). The slice expressions panic when
a bound is negative or beyond the length of the buffer. -/
def Tack.Sign (sha256 : List Nat → List Nat) (ecdsaSign : List Nat → Option (Nat × Nat))
    (X Y : Nat) (t : Tack) : SignResult :=
  let xBytes := bigIntBytes X
  let yBytes := bigIntBytes Y
  if xBytes.length > PUBKEY_LENGTH / 2 ∨ t.PublicKey.length < PUBKEY_LENGTH / 2 then
    .panicked
  else
    let pk1 := copyAt t.PublicKey (PUBKEY_LENGTH / 2 - xBytes.length) (PUBKEY_LENGTH / 2) xBytes
    if yBytes.length > PUBKEY_LENGTH / 2
        ∨ pk1.length < PUBKEY_LENGTH / 2 + (PUBKEY_LENGTH / 2 - yBytes.length) then
      .panicked
    else
      let pk2 := copyAt pk1 (PUBKEY_LENGTH / 2 + (PUBKEY_LENGTH / 2 - yBytes.length))
        pk1.length yBytes
      let t1 : Tack := { t with PublicKey := pk2 }
      match ecdsaSign (t1.hashForSig sha256) with
      | none => .failed t1
      | some (r, s) =>
        let rBytes := bigIntBytes r
        let sBytes := bigIntBytes s
        if rBytes.length > SIG_LENGTH / 2 ∨ t1.Signature.length < SIG_LENGTH / 2 then
          .panicked
        else
          let sig1 := copyAt t1.Signature (SIG_LENGTH / 2 - rBytes.length) (SIG_LENGTH / 2)
            rBytes
          if sBytes.length > SIG_LENGTH / 2
              ∨ sig1.length < SIG_LENGTH / 2 + (SIG_LENGTH / 2 - sBytes.length) then
            .panicked
          else
            .signed { t1 with
              Signature := copyAt sig1 (SIG_LENGTH / 2 + (SIG_LENGTH / 2 - sBytes.length))
                sig1.length sBytes }

/-- The public coordinates of the P-256 key with private scalar 379; `p256X379` is below
`2^248`. -/
def p256X379 : Nat :=
  150648118917499357041517299508400176508249743050667881623588564208998400010

def p256Y379 : Nat :=
  84717705411573186131289082852425264859825270454499335430265137682489917325202

/-- A tack whose key and signature buffers hold 64 bytes `0xff`. -/
def staleTack : Tack :=
  ⟨List.replicate 64 255, 0, 0, 0, List.replicate 32 0, List.replicate 64 255⟩

/-! ## Theorems: the tack record -/

theorem or_bytes_eq_sum (a b c d : Nat) (hb : b < 256) (hc : c < 256)
    (hd : d < 256) :
    a * 2 ^ 24 ||| b * 2 ^ 16 ||| c * 2 ^ 8 ||| d = a * 2 ^ 24 + b * 2 ^ 16 + c * 2 ^ 8 + d := by
  have h1 : a * 2 ^ 24 ||| b * 2 ^ 16 = a * 2 ^ 24 + b * 2 ^ 16 := by
    have h := Nat.mul_add_lt_is_or (i := 24) (b := b * 2 ^ 16) (by omega) a
    rw [Nat.mul_comm (2 ^ 24) a] at h
    exact h.symm
  have h2 : (a * 2 ^ 24 + b * 2 ^ 16) ||| c * 2 ^ 8 = a * 2 ^ 24 + b * 2 ^ 16 + c * 2 ^ 8 := by
    have h := Nat.mul_add_lt_is_or (i := 16) (b := c * 2 ^ 8) (by omega) (a * 2 ^ 8 + b)
    have e : 2 ^ 16 * (a * 2 ^ 8 + b) = a * 2 ^ 24 + b * 2 ^ 16 := by ring
    rw [e] at h
    exact h.symm
  have h3 : (a * 2 ^ 24 + b * 2 ^ 16 + c * 2 ^ 8) ||| d
      = a * 2 ^ 24 + b * 2 ^ 16 + c * 2 ^ 8 + d := by
    have h := Nat.mul_add_lt_is_or (i := 8) (b := d) (by omega) (a * 2 ^ 16 + b * 2 ^ 8 + c)
    have e : 2 ^ 8 * (a * 2 ^ 16 + b * 2 ^ 8 + c) = a * 2 ^ 24 + b * 2 ^ 16 + c * 2 ^ 8 := by ring
    rw [e] at h
    exact h.symm
  rw [h1, h2, h3]

theorem expiration_eq_sum (a b c d : Nat) (ha : a < 256) (hb : b < 256) (hc : c < 256)
    (hd : d < 256) :
    shl32 a 24 ||| shl32 b 16 ||| shl32 c 8 ||| d = a * 2 ^ 24 + b * 2 ^ 16 + c * 2 ^ 8 + d := by
  unfold shl32
  rw [Nat.shiftLeft_eq, Nat.shiftLeft_eq, Nat.shiftLeft_eq,
    Nat.mod_eq_of_lt (by omega : a * 2 ^ 24 < 2 ^ 32),
    Nat.mod_eq_of_lt (by omega : b * 2 ^ 16 < 2 ^ 32),
    Nat.mod_eq_of_lt (by omega : c * 2 ^ 8 < 2 ^ 32)]
  exact or_bytes_eq_sum a b c d hb hc hd

theorem bigEndian32_sum (a b c d : Nat) (ha : a < 256) (hb : b < 256) (hc : c < 256)
    (hd : d < 256) :
    bigEndian32 (a * 2 ^ 24 + b * 2 ^ 16 + c * 2 ^ 8 + d) = [a, b, c, d] := by
  unfold bigEndian32
  simp only [Nat.shiftRight_eq_div_pow]
  have e1 : (a * 2 ^ 24 + b * 2 ^ 16 + c * 2 ^ 8 + d) / 2 ^ 24 % 256 = a := by omega
  have e2 : (a * 2 ^ 24 + b * 2 ^ 16 + c * 2 ^ 8 + d) / 2 ^ 16 % 256 = b := by omega
  have e3 : (a * 2 ^ 24 + b * 2 ^ 16 + c * 2 ^ 8 + d) / 2 ^ 8 % 256 = c := by omega
  have e4 : (a * 2 ^ 24 + b * 2 ^ 16 + c * 2 ^ 8 + d) % 256 = d := by omega
  rw [e1, e2, e3, e4]

theorem byteAt_eq (b : List Nat) (i : Nat) (h : i < b.length) : byteAt b i = b[i] := by
  simp [byteAt, List.getD_eq_getElem?_getD, List.getElem?_eq_getElem h]

theorem byteAt_lt (b : List Nat) (hb : IsBytes b) (i : Nat) : byteAt b i < 256 := by
  unfold byteAt
  rw [List.getD_eq_getElem?_getD]
  by_cases h : i < b.length
  · rw [List.getElem?_eq_getElem h]
    exact hb _ (List.getElem_mem h)
  · rw [List.getElem?_eq_none (by omega)]
    simp

/-- A buffer of 166 bytes is the concatenation of its six fields. -/
theorem buffer_split (b : List Nat) (hlen : b.length = 166) :
    slice b 0 PUBKEY_LENGTH ++ [byteAt b 64] ++ [byteAt b 65]
      ++ [byteAt b 66, byteAt b 67, byteAt b 68, byteAt b 69]
      ++ slice b 70 (70 + HASH_LENGTH) ++ slice b 102 (102 + SIG_LENGTH) = b := by
  have h1 : slice b 0 PUBKEY_LENGTH = b.take 64 := by simp [slice, PUBKEY_LENGTH]
  have h2 : slice b 70 (70 + HASH_LENGTH) = (b.drop 70).take 32 := by
    simp [slice, HASH_LENGTH, List.drop_take]
  have h3 : slice b 102 (102 + SIG_LENGTH) = (b.drop 70).drop 32 := by
    simp [slice, SIG_LENGTH, List.take_of_length_le (Nat.le_of_eq hlen)]
  have h4 : b.drop 64 = byteAt b 64 :: byteAt b 65 :: byteAt b 66 :: byteAt b 67
      :: byteAt b 68 :: byteAt b 69 :: b.drop 70 := by
    rw [byteAt_eq b 64 (by omega), byteAt_eq b 65 (by omega), byteAt_eq b 66 (by omega),
      byteAt_eq b 67 (by omega), byteAt_eq b 68 (by omega), byteAt_eq b 69 (by omega)]
    rw [List.drop_eq_getElem_cons (by omega : 64 < b.length),
      List.drop_eq_getElem_cons (by omega : 65 < b.length),
      List.drop_eq_getElem_cons (by omega : 66 < b.length),
      List.drop_eq_getElem_cons (by omega : 67 < b.length),
      List.drop_eq_getElem_cons (by omega : 68 < b.length),
      List.drop_eq_getElem_cons (by omega : 69 < b.length)]
  rw [h1, h2, h3]
  calc b.take 64 ++ [byteAt b 64] ++ [byteAt b 65]
        ++ [byteAt b 66, byteAt b 67, byteAt b 68, byteAt b 69]
        ++ (b.drop 70).take 32 ++ (b.drop 70).drop 32
      = b.take 64 ++ (byteAt b 64 :: byteAt b 65 :: byteAt b 66 :: byteAt b 67
          :: byteAt b 68 :: byteAt b 69 :: ((b.drop 70).take 32 ++ (b.drop 70).drop 32)) := by
        simp
    _ = b.take 64 ++ b.drop 64 := by rw [List.take_append_drop, h4]
    _ = b := List.take_append_drop 64 b

theorem NewTackFromBytes_ok (b : List Nat) (hlen : b.length = 166) :
    NewTackFromBytes b = .ok
      { PublicKey := slice b 0 PUBKEY_LENGTH
        MinGeneration := byteAt b 64
        Generation := byteAt b 65
        Expiration :=
          shl32 (byteAt b 66) 24 ||| shl32 (byteAt b 67) 16 ||| shl32 (byteAt b 68) 8
            ||| byteAt b 69
        TargetHash := slice b 70 (70 + HASH_LENGTH)
        Signature := slice b 102 (102 + SIG_LENGTH) } := by
  simp [NewTackFromBytes, TACK_LENGTH, hlen]

/-! ## Theorems: the generation check (first loop) -/

@[simp] theorem GetMinGeneration_Set (store : PinStore) (fp k : String) (v : Nat) :
    (store.SetMinGeneration fp v).GetMinGeneration k
      = if k = fp then some v else store.GetMinGeneration k := rfl

@[simp] theorem pinPairs_SetMinGeneration (store : PinStore) (fp : String) (v : Nat) :
    (store.SetMinGeneration fp v).pinPairs = store.pinPairs := rfl

@[simp] theorem pinActivation_SetMinGeneration (store : PinStore) (fp : String) (v : Nat) :
    (store.SetMinGeneration fp v).pinActivation = store.pinActivation := rfl

/-- The first loop never touches pin pairs or the activation flag. -/
theorem checkGenerations_frame (fps : List String) :
    ∀ (tacks : List Tack) (t : Nat) (store store1 : PinStore) (r : Bool),
      checkGenerations fps tacks t store = .ok (store1, r) →
      store1.pinPairs = store.pinPairs ∧ store1.pinActivation = store.pinActivation := by
  intro tacks
  induction tacks with
  | nil =>
    intro t store store1 r h
    simp only [checkGenerations, Except.ok.injEq, Prod.mk.injEq] at h
    rw [← h.1]; exact ⟨rfl, rfl⟩
  | cons tack rest ih =>
    intro t store store1 r h
    unfold checkGenerations at h
    split at h
    · cases h
    · split at h
      · split_ifs at h
        · simp only [Except.ok.injEq, Prod.mk.injEq] at h
          rw [← h.1]; exact ⟨rfl, rfl⟩
        · have := ih _ _ _ _ h
          simpa using this
        · exact ih _ _ _ _ h
      · exact ih _ _ _ _ h

/-- The first loop only raises recorded minimum generations. -/
theorem checkGenerations_mono (fps : List String) :
    ∀ (tacks : List Tack) (t : Nat) (store store1 : PinStore) (r : Bool),
      checkGenerations fps tacks t store = .ok (store1, r) →
      ∀ fp m, store.GetMinGeneration fp = some m →
        ∃ m1, store1.GetMinGeneration fp = some m1 ∧ m ≤ m1 := by
  intro tacks
  induction tacks with
  | nil =>
    intro t store store1 r h fp m hm
    simp only [checkGenerations, Except.ok.injEq, Prod.mk.injEq] at h
    rw [← h.1]; exact ⟨m, hm, le_refl m⟩
  | cons tack rest ih =>
    intro t store store1 r h fp m hm
    unfold checkGenerations at h
    split at h
    · cases h
    · rename_i fp0 hfp0
      split at h
      · rename_i m0 hm0
        split_ifs at h with h1 h2
        · simp only [Except.ok.injEq, Prod.mk.injEq] at h
          rw [← h.1]; exact ⟨m, hm, le_refl m⟩
        · by_cases hk : fp = fp0
          · subst hk
            rw [hm] at hm0
            cases hm0
            obtain ⟨m1, hm1, hle⟩ := ih _ _ _ _ h fp tack.MinGeneration (by simp)
            exact ⟨m1, hm1, by omega⟩
          · exact ih _ _ _ _ h fp m (by simp [hk, hm])
        · exact ih _ _ _ _ h fp m hm
      · exact ih _ _ _ _ h fp m hm

/-- A tack below the recorded minimum generation of its key ends the first loop with
the revocation return, wherever it stands among the presented tacks. -/
theorem checkGenerations_revoked (fps : List String) :
    ∀ (tacks : List Tack) (t : Nat) (store : PinStore) (i : Nat) (tack : Tack) (fp : String)
      (m : Nat),
      tacks[i]? = some tack → fps[t + i]? = some fp → store.GetMinGeneration fp = some m →
      tack.Generation < m →
      ∃ store1, checkGenerations fps tacks t store = .ok (store1, true) := by
  intro tacks
  induction tacks with
  | nil => intro t store i tack fp m h; simp at h
  | cons tack0 rest ih =>
    intro t store i tack fp m hi hfp hm hlt
    cases i with
    | zero =>
      simp only [List.getElem?_cons_zero, Option.some.injEq] at hi
      subst hi
      simp only [Nat.add_zero] at hfp
      unfold checkGenerations
      simp only [hfp, hm, hlt, if_true]
      exact ⟨store, rfl⟩
    | succ j =>
      simp only [List.getElem?_cons_succ] at hi
      have hlen : t < fps.length := by
        have := (List.getElem?_eq_some_iff.mp hfp).1
        omega
      have hfp1 : fps[t + 1 + j]? = some fp := by
        rw [← hfp]; congr 1; omega
      unfold checkGenerations
      rw [List.getElem?_eq_getElem hlen]
      simp only []
      cases hm0 : store.GetMinGeneration fps[t] with
      | none => exact ih (t + 1) store j tack fp m hi hfp1 hm hlt
      | some m0 =>
        simp only []
        split_ifs with h1 h2
        · exact ⟨store, rfl⟩
        · have hmono : ∃ m1, (store.SetMinGeneration fps[t] tack0.MinGeneration).GetMinGeneration fp
              = some m1 ∧ m ≤ m1 := by
            by_cases hk : fp = fps[t]
            · rw [hk] at hm
              rw [hm] at hm0
              cases hm0
              exact ⟨tack0.MinGeneration, by simp [hk], by omega⟩
            · exact ⟨m, by simp [hk, hm], le_refl m⟩
          obtain ⟨m1, hm1, hle⟩ := hmono
          exact ih (t + 1) _ j tack fp m1 hi hfp1 hm1 (by omega)
        · exact ih (t + 1) store j tack fp m hi hfp1 hm hlt

/-! ## Theorems: the flag arrays and the matching loop -/

theorem Flags.get_set_same {a a1 : Flags} {p : Nat} {v : Bool} (h : a.set p v = .ok a1) :
    a1.get p = .ok v := by
  match p, h with
  | 0, h => simp only [Flags.set, Except.ok.injEq] at h; subst h; rfl
  | 1, h => simp only [Flags.set, Except.ok.injEq] at h; subst h; rfl
  | _ + 2, h => simp [Flags.set] at h

theorem Flags.get_set_other {a a1 : Flags} {p q : Nat} {v : Bool} (h : a.set p v = .ok a1)
    (hq : q ≠ p) : a1.get q = a.get q := by
  match p, q, h, hq with
  | 0, 0, _, hq => exact absurd rfl hq
  | 0, 1, h, _ => simp only [Flags.set, Except.ok.injEq] at h; subst h; rfl
  | 0, _ + 2, h, _ => rfl
  | 1, 0, h, _ => simp only [Flags.set, Except.ok.injEq] at h; subst h; rfl
  | 1, 1, _, hq => exact absurd rfl hq
  | 1, _ + 2, h, _ => rfl
  | _ + 2, _, h, _ => simp [Flags.set] at h

theorem Flags.set_ok (a : Flags) {p : Nat} (v : Bool) (hp : p < 2) : ∃ a1, a.set p v = .ok a1 := by
  match p, hp with
  | 0, _ => exact ⟨_, rfl⟩
  | 1, _ => exact ⟨_, rfl⟩

theorem Flags.get_ok (a : Flags) {p : Nat} (hp : p < 2) : ∃ v, a.get p = .ok v := by
  match p, hp with
  | 0, _ => exact ⟨_, rfl⟩
  | 1, _ => exact ⟨_, rfl⟩

theorem Flags.lt_of_get {a : Flags} {p : Nat} {v : Bool} (h : a.get p = .ok v) : p < 2 := by
  match p, h with
  | 0, _ => omega
  | 1, _ => omega
  | _ + 2, h => simp [Flags.get] at h

/-- One step of the matching loop, as an equation. -/
theorem matchTacks_cons (fps : List String) (act : Nat → Bool) (pin : Pin) (p : Nat)
    (x : Tack) (rest : List Tack) (t : Nat) (l l1 : Locals)
    (h : matchTacks fps act pin p (x :: rest) t l = .ok l1) :
    ∃ fp, fps[t]? = some fp ∧
      ((pin.fingerprint ≠ fp ∧ matchTacks fps act pin p rest (t + 1) l = .ok l1) ∨
       (pin.fingerprint = fp ∧ ∃ pmt pmat tmp, l.pinMatchesTack.set p true = .ok pmt ∧
          l.pinMatchesActiveTack.set p (act t) = .ok pmat ∧
          l.tackMatchesPin.set t true = .ok tmp ∧
          matchTacks fps act pin p rest (t + 1)
            { l with pinMatchesTack := pmt, pinMatchesActiveTack := pmat, tackMatchesPin := tmp }
            = .ok l1)) := by
  unfold matchTacks at h
  split at h
  · cases h
  · rename_i fp hfp
    refine ⟨fp, hfp, ?_⟩
    split_ifs at h with hm
    · right
      refine ⟨hm, ?_⟩
      split at h
      · cases h
      · rename_i pmt hpmt
        split at h
        · cases h
        · rename_i pmat hpmat
          split at h
          · cases h
          · rename_i tmp htmp
            exact ⟨pmt, pmat, tmp, hpmt, hpmat, htmp, h⟩
    · exact Or.inl ⟨hm, h⟩

/-- The matching loop for the pin at index `p` leaves the status, the activity flags
and the flags of the other pins alone. -/
theorem matchTacks_frame (fps : List String) (act : Nat → Bool) (pin : Pin) (p : Nat) :
    ∀ (tacks : List Tack) (t : Nat) (l l1 : Locals),
      matchTacks fps act pin p tacks t l = .ok l1 →
      l1.status = l.status ∧ l1.pinIsActive = l.pinIsActive ∧
      ∀ q, q ≠ p → l1.pinMatchesTack.get q = l.pinMatchesTack.get q ∧
        l1.pinMatchesActiveTack.get q = l.pinMatchesActiveTack.get q := by
  intro tacks
  induction tacks with
  | nil =>
    intro t l l1 h
    simp only [matchTacks, Except.ok.injEq] at h
    subst h
    exact ⟨rfl, rfl, fun q _ => ⟨rfl, rfl⟩⟩
  | cons x rest ih =>
    intro t l l1 h
    obtain ⟨fp, _, h | ⟨_, pmt, pmat, tmp, h1, h2, _, h⟩⟩ := matchTacks_cons _ _ _ _ _ _ _ _ _ h
    · exact ih _ _ _ h.2
    · obtain ⟨e1, e2, e3⟩ := ih _ _ _ h
      refine ⟨e1, e2, fun q hq => ?_⟩
      obtain ⟨e4, e5⟩ := e3 q hq
      exact ⟨e4.trans (Flags.get_set_other h1 hq), e5.trans (Flags.get_set_other h2 hq)⟩

/-- When no presented tack carries the fingerprint of the pin, the matching loop
changes nothing. -/
theorem matchTacks_no_match (fps : List String) (act : Nat → Bool) (pin : Pin) (p : Nat) :
    ∀ (tacks : List Tack) (t : Nat) (l l1 : Locals),
      matchTacks fps act pin p tacks t l = .ok l1 →
      (∀ i, i < tacks.length → fps[t + i]? ≠ some pin.fingerprint) → l1 = l := by
  intro tacks
  induction tacks with
  | nil =>
    intro t l l1 h _
    simp only [matchTacks, Except.ok.injEq] at h
    exact h.symm
  | cons x rest ih =>
    intro t l l1 h hno
    obtain ⟨fp, hfp, h | ⟨hm, _⟩⟩ := matchTacks_cons _ _ _ _ _ _ _ _ _ h
    · refine ih _ _ _ h.2 (fun i hi => ?_)
      have := hno (i + 1) (by simp; omega)
      rwa [show t + (i + 1) = t + 1 + i by omega] at this
    · have := hno 0 (by simp)
      rw [Nat.add_zero, hfp, hm] at this
      exact absurd rfl this

/-- A pin already recorded as matched stays so. -/
theorem matchTacks_keeps_match (fps : List String) (act : Nat → Bool) (pin : Pin) (p : Nat) :
    ∀ (tacks : List Tack) (t : Nat) (l l1 : Locals),
      matchTacks fps act pin p tacks t l = .ok l1 →
      l.pinMatchesTack.get p = .ok true → l1.pinMatchesTack.get p = .ok true := by
  intro tacks
  induction tacks with
  | nil =>
    intro t l l1 h hp
    simp only [matchTacks, Except.ok.injEq] at h
    subst h; exact hp
  | cons x rest ih =>
    intro t l l1 h hp
    obtain ⟨fp, _, h | ⟨_, pmt, pmat, tmp, h1, _, _, h⟩⟩ := matchTacks_cons _ _ _ _ _ _ _ _ _ h
    · exact ih _ _ _ h.2 hp
    · exact ih _ _ _ h (Flags.get_set_same h1)

/-- A pin whose fingerprint is that of a presented tack is recorded as matched. -/
theorem matchTacks_match (fps : List String) (act : Nat → Bool) (pin : Pin) (p : Nat) :
    ∀ (tacks : List Tack) (t : Nat) (l l1 : Locals) (i : Nat),
      matchTacks fps act pin p tacks t l = .ok l1 →
      i < tacks.length → fps[t + i]? = some pin.fingerprint →
      l1.pinMatchesTack.get p = .ok true := by
  intro tacks
  induction tacks with
  | nil => intro t l l1 i _ hi; simp at hi
  | cons x rest ih =>
    intro t l l1 i h hi hfpi
    obtain ⟨fp, hfp, h | ⟨_, pmt, pmat, tmp, h1, _, _, h⟩⟩ := matchTacks_cons _ _ _ _ _ _ _ _ _ h
    · cases i with
      | zero =>
        rw [Nat.add_zero, hfp] at hfpi
        simp only [Option.some.injEq] at hfpi
        exact absurd hfpi.symm h.1
      | succ j =>
        refine ih (t + 1) l l1 j h.2 (by simpa using hi) ?_
        rwa [show t + 1 + j = t + (j + 1) by omega]
    · exact matchTacks_keeps_match _ _ _ _ _ _ _ _ h (Flags.get_set_same h1)

/-- The recorded match is a real one: a pin recorded as matched after the loop was so
before it, or some presented tack carries its fingerprint. -/
theorem matchTacks_match_inv (fps : List String) (act : Nat → Bool) (pin : Pin) (p : Nat) :
    ∀ (tacks : List Tack) (t : Nat) (l l1 : Locals),
      matchTacks fps act pin p tacks t l = .ok l1 →
      l1.pinMatchesTack.get p = .ok true →
      l.pinMatchesTack.get p = .ok true ∨
        ∃ i, i < tacks.length ∧ fps[t + i]? = some pin.fingerprint := by
  intro tacks
  induction tacks with
  | nil =>
    intro t l l1 h hp
    simp only [matchTacks, Except.ok.injEq] at h
    subst h; exact Or.inl hp
  | cons x rest ih =>
    intro t l l1 h hp
    obtain ⟨fp, hfp, h | ⟨hm, _⟩⟩ := matchTacks_cons _ _ _ _ _ _ _ _ _ h
    · rcases ih _ _ _ h.2 hp with h0 | ⟨i, hi, hfpi⟩
      · exact Or.inl h0
      · refine Or.inr ⟨i + 1, by simpa using hi, ?_⟩
        rwa [show t + (i + 1) = t + 1 + i by omega]
    · exact Or.inr ⟨0, by simp, by rw [Nat.add_zero, hfp, hm]⟩

/-- When exactly one presented tack carries the fingerprint of the pin, the loop
records for the pin what `IsActive` says of that tack. -/
theorem matchTacks_unique (fps : List String) (act : Nat → Bool) (pin : Pin) (p : Nat) :
    ∀ (tacks : List Tack) (t : Nat) (l l1 : Locals) (i : Nat),
      matchTacks fps act pin p tacks t l = .ok l1 →
      i < tacks.length → fps[t + i]? = some pin.fingerprint →
      (∀ j, j < tacks.length → fps[t + j]? = some pin.fingerprint → j = i) →
      l1.pinMatchesActiveTack.get p = .ok (act (t + i)) := by
  intro tacks
  induction tacks with
  | nil => intro t l l1 i _ hi; simp at hi
  | cons x rest ih =>
    intro t l l1 i h hi hfpi huniq
    obtain ⟨fp, hfp, h | ⟨hm, pmt, pmat, tmp, _, h2, _, h⟩⟩ :=
      matchTacks_cons _ _ _ _ _ _ _ _ _ h
    · cases i with
      | zero =>
        rw [Nat.add_zero, hfp] at hfpi
        simp only [Option.some.injEq] at hfpi
        exact absurd hfpi.symm h.1
      | succ j =>
        rw [show t + (j + 1) = t + 1 + j by omega]
        refine ih (t + 1) l l1 j h.2 (by simpa using hi) ?_ ?_
        · rwa [show t + 1 + j = t + (j + 1) by omega]
        · intro k hk hfk
          have := huniq (k + 1) (by simpa using hk)
            (by rwa [show t + (k + 1) = t + 1 + k by omega])
          omega
    · have hi0 : i = 0 := (huniq 0 (by simp) (by rw [Nat.add_zero, hfp, hm])).symm
      subst hi0
      have hl1 := matchTacks_no_match _ _ _ _ _ _ _ _ h (fun k hk hfk => by
        have := huniq (k + 1) (by simpa using hk)
          (by rwa [show t + (k + 1) = t + 1 + k by omega])
        omega)
      subst hl1
      exact Flags.get_set_same h2

/-! ## Theorems: the status loop -/

/-- One step of the status loop, as an equation: either the early `REJECTED` return,
or the rest of the loop run on the locals the step leaves. -/
theorem determineStatus_cons (fps : List String) (act : Nat → Bool) (tacks : List Tack)
    (now : Nat) (pin : Pin) (rest : List Pin) (p : Nat) (l : Locals) (r : Option Locals)
    (h : determineStatus fps act tacks now (pin :: rest) p l = .ok r) :
    ∃ pia l1 active, p < 2 ∧
      (if pin.endTime > now then l.pinIsActive.set p true else .ok l.pinIsActive) = .ok pia ∧
      matchTacks fps act pin p tacks 0 { l with pinIsActive := pia } = .ok l1 ∧
      l1.pinIsActive.get p = .ok active ∧
      ((active = true ∧ l1.pinMatchesTack.get p = .ok false ∧ r = none) ∨
       (active = true ∧ l1.pinMatchesTack.get p = .ok true ∧
          determineStatus fps act tacks now rest (p + 1) { l1 with status := .ACCEPTED } = .ok r) ∨
       (active = false ∧ determineStatus fps act tacks now rest (p + 1) l1 = .ok r)) := by
  unfold determineStatus at h
  split at h
  · cases h
  · rename_i pia hpia
    split at h
    · cases h
    · rename_i l1 hl1
      split at h
      · cases h
      · rename_i active hactive
        refine ⟨pia, l1, active, Flags.lt_of_get hactive, hpia, hl1, hactive, ?_⟩
        split_ifs at h with ha
        · split at h
          · cases h
          · rename_i matched hmatched
            cases matched with
            | false =>
              simp only [Bool.not_false, if_true, Except.ok.injEq] at h
              exact Or.inl ⟨ha, hmatched, h.symm⟩
            | true =>
              simp only [Bool.not_true, Bool.false_eq_true, if_false] at h
              exact Or.inr (Or.inl ⟨ha, hmatched, h⟩)
        · exact Or.inr (Or.inr ⟨by simpa using ha, h⟩)

/-- The status loop never sets the status to `REJECTED` in the locals. -/
theorem determineStatus_status (fps : List String) (act : Nat → Bool) (tacks : List Tack)
    (now : Nat) :
    ∀ (pins : List Pin) (p : Nat) (l l1 : Locals),
      determineStatus fps act tacks now pins p l = .ok (some l1) →
      l1.status = l.status ∨ l1.status = .ACCEPTED := by
  intro pins
  induction pins with
  | nil =>
    intro p l l1 h
    simp only [determineStatus, Except.ok.injEq, Option.some.injEq] at h
    subst h; exact Or.inl rfl
  | cons pin rest ih =>
    intro p l l1 h
    obtain ⟨pia, l2, active, _, _, hm, _, hc | hc | hc⟩ := determineStatus_cons _ _ _ _ _ _ _ _ _ h
    · cases hc.2.2
    · rcases ih _ _ _ hc.2.2 with e | e
      · exact Or.inr e
      · exact Or.inr e
    · rcases ih _ _ _ hc.2 with e | e
      · exact Or.inl (e.trans (matchTacks_frame _ _ _ _ _ _ _ _ hm).1)
      · exact Or.inr e

theorem FreshFrom_init : FreshFrom Locals.init 0 := by
  intro q _
  match q with
  | 0 => simp [Locals.init, Flags.zero, Flags.get]
  | 1 => simp [Locals.init, Flags.zero, Flags.get]
  | _ + 2 => simp [Flags.get]

/-- What one step of the status loop does to the flags, given the invariant. -/
theorem determineStatus_step (fps : List String) (act : Nat → Bool) (tacks : List Tack)
    (now : Nat) (pin : Pin) (p : Nat) (l l1 : Locals) (pia : Flags) (active : Bool)
    (hfresh : FreshFrom l p)
    (hpia : (if pin.endTime > now then l.pinIsActive.set p true else .ok l.pinIsActive) = .ok pia)
    (hm : matchTacks fps act pin p tacks 0 { l with pinIsActive := pia } = .ok l1)
    (hact : l1.pinIsActive.get p = .ok active) :
    (active = true ↔ pin.endTime > now) ∧
    (l1.pinMatchesTack.get p = .ok true ↔
      ∃ i, i < tacks.length ∧ fps[i]? = some pin.fingerprint) ∧
    FreshFrom l1 (p + 1) ∧
    (∀ s, FreshFrom { l1 with status := s } (p + 1)) ∧
    ∀ q, q < p → l1.pinMatchesTack.get q = l.pinMatchesTack.get q ∧
      l1.pinMatchesActiveTack.get q = l.pinMatchesActiveTack.get q := by
  obtain ⟨_, e2, e3⟩ := matchTacks_frame _ _ _ _ _ _ _ _ hm
  simp only [] at e2
  have hfr : FreshFrom l1 (p + 1) := by
    intro q hq
    have hqp : q ≠ p := by omega
    obtain ⟨f1, f2, f3⟩ := hfresh q (by omega)
    obtain ⟨e4, e5⟩ := e3 q hqp
    refine ⟨?_, ?_, ?_⟩
    · rw [e2]
      by_cases hgt : pin.endTime > now
      · rw [if_pos hgt] at hpia
        rw [Flags.get_set_other hpia hqp]; exact f1
      · rw [if_neg hgt] at hpia
        simp only [Except.ok.injEq] at hpia
        rw [← hpia]; exact f1
    · rw [e4]; exact f2
    · rw [e5]; exact f3
  refine ⟨?_, ?_, hfr, fun s => hfr, fun q hq => e3 q (by omega)⟩
  · rw [e2] at hact
    by_cases hgt : pin.endTime > now
    · rw [if_pos hgt] at hpia
      rw [Flags.get_set_same hpia] at hact
      simp only [Except.ok.injEq] at hact
      simp [← hact, hgt]
    · rw [if_neg hgt] at hpia
      simp only [Except.ok.injEq] at hpia
      rw [← hpia] at hact
      have := (hfresh p (le_refl p)).1
      rw [hact] at this
      cases active with
      | true => exact absurd rfl this
      | false => simp [hgt]
  · constructor
    · intro h
      rcases matchTacks_match_inv _ _ _ _ _ _ _ _ hm h with h0 | ⟨i, hi, hfp⟩
      · exact absurd h0 (hfresh p (le_refl p)).2.1
      · exact ⟨i, hi, by simpa using hfp⟩
    · rintro ⟨i, hi, hfp⟩
      exact matchTacks_match _ _ _ _ _ _ _ _ i hm hi (by simpa using hfp)

/-- The early `REJECTED` return happens only at a pin with `endTime > currentTime`
whose fingerprint no presented tack carries. -/
theorem determineStatus_rejected (fps : List String) (act : Nat → Bool) (tacks : List Tack)
    (now : Nat) :
    ∀ (pins : List Pin) (p : Nat) (l : Locals), FreshFrom l p →
      determineStatus fps act tacks now pins p l = .ok none →
      ∃ pin ∈ pins, pin.endTime > now ∧
        ¬ ∃ i, i < tacks.length ∧ fps[i]? = some pin.fingerprint := by
  intro pins
  induction pins with
  | nil => intro p l _ h; simp [determineStatus] at h
  | cons pin rest ih =>
    intro p l hfresh h
    obtain ⟨pia, l1, active, _, hpia, hm, hact, hc⟩ :=
      determineStatus_cons _ _ _ _ _ _ _ _ _ h
    obtain ⟨s1, s2, s3, s4, _⟩ := determineStatus_step _ _ _ _ _ _ _ _ _ _ hfresh hpia hm hact
    rcases hc with hc | hc | hc
    · refine ⟨pin, List.mem_cons_self _ _, s1.mp hc.1, fun hex => ?_⟩
      have := s2.mpr hex
      rw [hc.2.1] at this
      simp at this
    · obtain ⟨q, hq, h1, h2⟩ := ih _ _ (s4 _) hc.2.2
      exact ⟨q, List.mem_cons_of_mem _ hq, h1, h2⟩
    · obtain ⟨q, hq, h1, h2⟩ := ih _ _ s3 hc.2
      exact ⟨q, List.mem_cons_of_mem _ hq, h1, h2⟩

/-- When the status loop runs to its end, every pin with `endTime > currentTime` has the
fingerprint of a presented tack, and the status is `ACCEPTED` exactly when there is
such a pin (otherwise it is what it was). -/
theorem determineStatus_completed (fps : List String) (act : Nat → Bool) (tacks : List Tack)
    (now : Nat) :
    ∀ (pins : List Pin) (p : Nat) (l l1 : Locals), FreshFrom l p →
      determineStatus fps act tacks now pins p l = .ok (some l1) →
      (∀ pin ∈ pins, pin.endTime > now →
        ∃ i, i < tacks.length ∧ fps[i]? = some pin.fingerprint) ∧
      ((∃ pin ∈ pins, pin.endTime > now) → l1.status = .ACCEPTED) ∧
      ((∀ pin ∈ pins, ¬ pin.endTime > now) → l1.status = l.status) := by
  intro pins
  induction pins with
  | nil =>
    intro p l l1 _ h
    simp only [determineStatus, Except.ok.injEq, Option.some.injEq] at h
    subst h
    simp
  | cons pin rest ih =>
    intro p l l1 hfresh h
    obtain ⟨pia, l2, active, _, hpia, hm, hact, hc⟩ :=
      determineStatus_cons _ _ _ _ _ _ _ _ _ h
    obtain ⟨s1, s2, s3, s4, _⟩ := determineStatus_step _ _ _ _ _ _ _ _ _ _ hfresh hpia hm hact
    rcases hc with hc | hc | hc
    · cases hc.2.2
    · obtain ⟨i1, i2, i3⟩ := ih _ _ _ (s4 _) hc.2.2
      refine ⟨?_, ?_, ?_⟩
      · intro q hq hgt
        rcases List.mem_cons.mp hq with rfl | hq
        · exact s2.mp hc.2.1
        · exact i1 q hq hgt
      · intro _
        rcases determineStatus_status _ _ _ _ _ _ _ _ hc.2.2 with e | e
        · exact e
        · exact e
      · intro hall
        exact absurd (s1.mp hc.1) (hall pin (List.mem_cons_self _ _))
    · obtain ⟨i1, i2, i3⟩ := ih _ _ _ s3 hc.2
      have hna : ¬ pin.endTime > now := fun hgt => by
        have := s1.mpr hgt
        rw [hc.1] at this
        cases this
      refine ⟨?_, ?_, ?_⟩
      · intro q hq hgt
        rcases List.mem_cons.mp hq with rfl | hq
        · exact absurd hgt hna
        · exact i1 q hq hgt
      · rintro ⟨q, hq, hgt⟩
        rcases List.mem_cons.mp hq with rfl | hq
        · exact absurd hgt hna
        · exact i2 ⟨q, hq, hgt⟩
      · intro hall
        rw [i3 (fun q hq => hall q (List.mem_cons_of_mem _ hq))]
        exact (matchTacks_frame _ _ _ _ _ _ _ _ hm).1

/-- With the index in range and a fingerprint for every tack, the matching loop does
not panic. -/
theorem matchTacks_ok (fps : List String) (act : Nat → Bool) (pin : Pin) (p : Nat) (hp : p < 2) :
    ∀ (tacks : List Tack) (t : Nat) (l : Locals),
      t + tacks.length ≤ 2 → t + tacks.length ≤ fps.length →
      ∃ l1, matchTacks fps act pin p tacks t l = .ok l1 := by
  intro tacks
  induction tacks with
  | nil => intro t l _ _; exact ⟨l, rfl⟩
  | cons x rest ih =>
    intro t l h2 hf
    simp only [List.length_cons] at h2 hf
    unfold matchTacks
    rw [List.getElem?_eq_getElem (by omega : t < fps.length)]
    simp only []
    split_ifs with hm
    · obtain ⟨pmt, h1⟩ := Flags.set_ok l.pinMatchesTack true hp
      obtain ⟨pmat, h2⟩ := Flags.set_ok l.pinMatchesActiveTack (act t) hp
      obtain ⟨tmp, h3⟩ := Flags.set_ok l.tackMatchesPin true (by omega : t < 2)
      rw [h1, h2, h3]
      exact ih _ _ (by omega) (by omega)
    · exact ih _ _ (by omega) (by omega)

/-- With at most two pins, at most two tacks and a fingerprint for every tack, the
status loop does not panic. -/
theorem determineStatus_ok (fps : List String) (act : Nat → Bool) (tacks : List Tack)
    (now : Nat) (ht : tacks.length ≤ 2) (hf : tacks.length ≤ fps.length) :
    ∀ (pins : List Pin) (p : Nat) (l : Locals), p + pins.length ≤ 2 →
      ∃ r, determineStatus fps act tacks now pins p l = .ok r := by
  intro pins
  induction pins with
  | nil => intro p l _; exact ⟨some l, rfl⟩
  | cons pin rest ih =>
    intro p l hp
    simp only [List.length_cons] at hp
    have hp2 : p < 2 := by omega
    unfold determineStatus
    have hpia : ∃ pia, (if pin.endTime > now then l.pinIsActive.set p true
        else .ok l.pinIsActive) = .ok pia := by
      split_ifs
      · exact Flags.set_ok _ _ hp2
      · exact ⟨_, rfl⟩
    obtain ⟨pia, hpia⟩ := hpia
    rw [hpia]
    simp only []
    obtain ⟨l1, hl1⟩ := matchTacks_ok fps act pin p hp2 tacks 0 { l with pinIsActive := pia }
      (by omega) (by omega)
    rw [hl1]
    simp only []
    obtain ⟨active, ha⟩ := Flags.get_ok l1.pinIsActive hp2
    obtain ⟨matched, hmt⟩ := Flags.get_ok l1.pinMatchesTack hp2
    rw [ha]
    simp only []
    split_ifs
    · rw [hmt]
      simp only []
      split_ifs
      · exact ⟨none, rfl⟩
      · exact ih _ _ (by omega)
    · exact ih _ _ (by omega)

/-- The status loop leaves the match flags of the pins it has already visited alone. -/
theorem determineStatus_frame (fps : List String) (act : Nat → Bool) (tacks : List Tack)
    (now : Nat) :
    ∀ (pins : List Pin) (p : Nat) (l l1 : Locals), FreshFrom l p →
      determineStatus fps act tacks now pins p l = .ok (some l1) →
      ∀ q, q < p → l1.pinMatchesTack.get q = l.pinMatchesTack.get q ∧
        l1.pinMatchesActiveTack.get q = l.pinMatchesActiveTack.get q := by
  intro pins
  induction pins with
  | nil =>
    intro p l l1 _ h
    simp only [determineStatus, Except.ok.injEq, Option.some.injEq] at h
    subst h
    exact fun q _ => ⟨rfl, rfl⟩
  | cons pin rest ih =>
    intro p l l1 hfresh h q hq
    obtain ⟨pia, l2, active, _, hpia, hm, hact, hc⟩ :=
      determineStatus_cons _ _ _ _ _ _ _ _ _ h
    obtain ⟨_, _, s3, s4, s5⟩ := determineStatus_step _ _ _ _ _ _ _ _ _ _ hfresh hpia hm hact
    obtain ⟨e1, e2⟩ := s5 q hq
    rcases hc with hc | hc | hc
    · cases hc.2.2
    · obtain ⟨e3, e4⟩ := ih _ _ _ (s4 _) hc.2.2 q (by omega)
      exact ⟨e3.trans e1, e4.trans e2⟩
    · obtain ⟨e3, e4⟩ := ih _ _ _ s3 hc.2 q (by omega)
      exact ⟨e3.trans e1, e4.trans e2⟩

/-- The flags the status loop leaves for the pin at position `i`: it is recorded as
matched exactly when a presented tack carries its fingerprint, and when exactly one
does, the active-match flag is what `IsActive` says of that tack. -/
theorem determineStatus_flags (fps : List String) (act : Nat → Bool) (tacks : List Tack)
    (now : Nat) :
    ∀ (pins : List Pin) (p : Nat) (l l1 : Locals), FreshFrom l p →
      determineStatus fps act tacks now pins p l = .ok (some l1) →
      ∀ i pin, pins[i]? = some pin →
        (l1.pinMatchesTack.get (p + i) = .ok true ↔
          ∃ j, j < tacks.length ∧ fps[j]? = some pin.fingerprint) ∧
        ∀ j, j < tacks.length → fps[j]? = some pin.fingerprint →
          (∀ k, k < tacks.length → fps[k]? = some pin.fingerprint → k = j) →
          l1.pinMatchesActiveTack.get (p + i) = .ok (act j) := by
  intro pins
  induction pins with
  | nil => intro p l l1 _ _ i pin hi; simp at hi
  | cons pin0 rest ih =>
    intro p l l1 hfresh h i pin hi
    obtain ⟨pia, l2, active, _, hpia, hm, hact, hc⟩ :=
      determineStatus_cons _ _ _ _ _ _ _ _ _ h
    obtain ⟨_, s2, s3, s4, _⟩ := determineStatus_step _ _ _ _ _ _ _ _ _ _ hfresh hpia hm hact
    have hrest : ∃ l3, FreshFrom l3 (p + 1) ∧
        determineStatus fps act tacks now rest (p + 1) l3 = .ok (some l1) ∧
        l3.pinMatchesTack = l2.pinMatchesTack ∧
        l3.pinMatchesActiveTack = l2.pinMatchesActiveTack := by
      rcases hc with hc | hc | hc
      · cases hc.2.2
      · exact ⟨_, s4 _, hc.2.2, rfl, rfl⟩
      · exact ⟨_, s3, hc.2, rfl, rfl⟩
    obtain ⟨l3, hf3, hd3, e1, e2⟩ := hrest
    cases i with
    | zero =>
      simp only [List.getElem?_cons_zero, Option.some.injEq] at hi
      subst hi
      obtain ⟨f1, f2⟩ := determineStatus_frame _ _ _ _ _ _ _ _ hf3 hd3 p (by omega)
      rw [Nat.add_zero, f1, f2, e1, e2]
      refine ⟨s2, fun j hj hfp huniq => ?_⟩
      have := matchTacks_unique _ _ _ _ _ _ _ _ j hm hj (by simpa using hfp)
        (fun k hk hfk => huniq k hk (by simpa using hfk))
      simpa using this
    | succ k =>
      simp only [List.getElem?_cons_succ] at hi
      rw [show p + (k + 1) = p + 1 + k by omega]
      exact ih _ _ _ hf3 hd3 k pin hi

/-! ## Theorems: pin activation -/

/-- One step of the rebuilding loop, as an equation. -/
theorem rebuildPins_cons (now : Nat) (l : Locals) (pin : Pin) (rest : List Pin) (p : Nat)
    (acc : List Pin) (mc : Bool) (r : List Pin × Bool)
    (h : rebuildPins now l (pin :: rest) p acc mc = .ok r) :
    (l.pinMatchesTack.get p = .ok false ∧ rebuildPins now l rest (p + 1) acc true = .ok r) ∨
    (l.pinMatchesTack.get p = .ok true ∧ ∃ pmat, l.pinMatchesActiveTack.get p = .ok pmat ∧
      acc.length ≤ 1 ∧
      rebuildPins now l rest (p + 1)
        (acc ++ [⟨pin.initialTime, newEndTime now pin pmat, pin.fingerprint⟩])
        (if pmat && decide (now > pin.initialTime)
            && decide (newEndTime now pin pmat ≠ pin.endTime) then true else mc) = .ok r) := by
  unfold rebuildPins at h
  split at h
  · cases h
  · rename_i matched hmatched
    cases matched with
    | false =>
      simp only [Bool.not_false, if_true] at h
      exact Or.inl ⟨hmatched, h⟩
    | true =>
      simp only [Bool.not_true, Bool.false_eq_true, if_false] at h
      split at h
      · cases h
      · rename_i pmat hpmat
        split_ifs at h with hlen hc
        · exact Or.inr ⟨hmatched, pmat, hpmat, by omega, by rw [if_pos hc]; exact h⟩
        · exact Or.inr ⟨hmatched, pmat, hpmat, by omega, by rw [if_neg hc]; exact h⟩

/-- The rebuilding loop keeps the pins already collected and never collects more than
two. -/
theorem rebuildPins_acc (now : Nat) (l : Locals) :
    ∀ (pins : List Pin) (p : Nat) (acc : List Pin) (mc : Bool) (np : List Pin) (mc1 : Bool),
      rebuildPins now l pins p acc mc = .ok (np, mc1) →
      (∀ x ∈ acc, x ∈ np) ∧ (acc.length ≤ 2 → np.length ≤ 2) ∧
      (mc1 = false → mc = false ∧ np = acc ++ pins) := by
  intro pins
  induction pins with
  | nil =>
    intro p acc mc np mc1 h
    simp only [rebuildPins, Except.ok.injEq, Prod.mk.injEq] at h
    obtain ⟨rfl, rfl⟩ := h
    simp
  | cons pin rest ih =>
    intro p acc mc np mc1 h
    rcases rebuildPins_cons _ _ _ _ _ _ _ _ h with ⟨_, h⟩ | ⟨_, pmat, _, hlen, h⟩
    · obtain ⟨i1, i2, i3⟩ := ih _ _ _ _ _ h
      refine ⟨i1, i2, fun hmc => ?_⟩
      have := (i3 hmc).1
      cases this
    · obtain ⟨i1, i2, i3⟩ := ih _ _ _ _ _ h
      refine ⟨fun x hx => i1 x (List.mem_append_left _ hx),
        fun _ => i2 (by simp; omega), fun hmc => ?_⟩
      obtain ⟨j1, j2⟩ := i3 hmc
      split_ifs at j1 with hc
      refine ⟨j1, ?_⟩
      rw [j2]
      have hend : newEndTime now pin pmat = pin.endTime := by
        by_cases hx : (pmat && decide (now > pin.initialTime)) = true
        · simpa [hx] using hc
        · simp only [newEndTime, hx, if_false]
          rfl
      rw [hend]
      simp

/-- A stored pin that the status loop recorded as matched is kept by the rebuilding
loop, with the end time `newEndTime` gives it. -/
theorem rebuildPins_mem (now : Nat) (l : Locals) :
    ∀ (pins : List Pin) (p : Nat) (acc : List Pin) (mc : Bool) (np : List Pin) (mc1 : Bool),
      rebuildPins now l pins p acc mc = .ok (np, mc1) →
      ∀ i pin b, pins[i]? = some pin → l.pinMatchesTack.get (p + i) = .ok true →
        l.pinMatchesActiveTack.get (p + i) = .ok b →
        (⟨pin.initialTime, newEndTime now pin b, pin.fingerprint⟩ : Pin) ∈ np := by
  intro pins
  induction pins with
  | nil => intro p acc mc np mc1 _ i pin b hi; simp at hi
  | cons pin0 rest ih =>
    intro p acc mc np mc1 h i pin b hi hm ha
    cases i with
    | zero =>
      simp only [List.getElem?_cons_zero, Option.some.injEq] at hi
      subst hi
      rw [Nat.add_zero] at hm ha
      rcases rebuildPins_cons _ _ _ _ _ _ _ _ h with ⟨h0, _⟩ | ⟨_, pmat, hp, _, h⟩
      · rw [hm] at h0; simp at h0
      · rw [ha] at hp
        simp only [Except.ok.injEq] at hp
        subst hp
        exact (rebuildPins_acc _ _ _ _ _ _ _ _ h).1 _ (by simp)
    | succ k =>
      simp only [List.getElem?_cons_succ] at hi
      rw [show p + (k + 1) = p + 1 + k by omega] at hm ha
      rcases rebuildPins_cons _ _ _ _ _ _ _ _ h with ⟨_, h⟩ | ⟨_, pmat, _, _, h⟩
      · exact ih _ _ _ _ _ h k pin b hi hm ha
      · exact ih _ _ _ _ _ h k pin b hi hm ha

/-- One step of the loop that adds pending pins, as an equation. -/
theorem addNewPins_cons (fps : List String) (act : Nat → Bool) (now : Nat) (l : Locals)
    (tack : Tack) (rest : List Tack) (t : Nat) (store : PinStore) (acc : List Pin) (mc : Bool)
    (r : PinStore × List Pin × Bool)
    (h : addNewPins fps act now l (tack :: rest) t store acc mc = .ok r) :
    (addNewPins fps act now l rest (t + 1) store acc mc = .ok r ∧
      (act t = false ∨ l.tackMatchesPin.get t = .ok true)) ∨
    (act t = true ∧ l.tackMatchesPin.get t = .ok false ∧ acc.length ≤ 1 ∧
      ∃ fp, fps[t]? = some fp ∧
        addNewPins fps act now l rest (t + 1) (store.SetMinGeneration fp tack.MinGeneration)
          (acc ++ [⟨now, 0, fp⟩]) true = .ok r) := by
  unfold addNewPins at h
  by_cases hact : act t = true
  · rw [if_pos hact] at h
    split at h
    · cases h
    · rename_i matched hmatched
      cases matched with
      | true =>
        simp only [Bool.not_true, Bool.false_eq_true, if_false] at h
        exact Or.inl ⟨h, Or.inr hmatched⟩
      | false =>
        simp only [Bool.not_false, if_true] at h
        split at h
        · cases h
        · rename_i fp hfp
          by_cases hlen : acc.length > 1
          · rw [if_pos hlen] at h; cases h
          · rw [if_neg hlen] at h
            exact Or.inr ⟨hact, hmatched, by omega, fp, hfp, h⟩
  · rw [if_neg hact] at h
    exact Or.inl ⟨h, Or.inl (by simpa using hact)⟩

/-- The loop that adds pending pins keeps the pins already collected, never collects
more than two, and touches neither the stored pin pairs nor the activation flag. -/
theorem addNewPins_acc (fps : List String) (act : Nat → Bool) (now : Nat) (l : Locals) :
    ∀ (tacks : List Tack) (t : Nat) (store : PinStore) (acc : List Pin) (mc : Bool)
      (store1 : PinStore) (np : List Pin) (mc1 : Bool),
      addNewPins fps act now l tacks t store acc mc = .ok (store1, np, mc1) →
      (∀ x ∈ acc, x ∈ np) ∧ (acc.length ≤ 2 → np.length ≤ 2) ∧
      (mc1 = false → mc = false ∧ np = acc) ∧
      store1.pinPairs = store.pinPairs ∧ store1.pinActivation = store.pinActivation := by
  intro tacks
  induction tacks with
  | nil =>
    intro t store acc mc store1 np mc1 h
    simp only [addNewPins, Except.ok.injEq, Prod.mk.injEq] at h
    obtain ⟨rfl, rfl, rfl⟩ := h
    simp
  | cons tack rest ih =>
    intro t store acc mc store1 np mc1 h
    rcases addNewPins_cons _ _ _ _ _ _ _ _ _ _ _ h with ⟨h, _⟩ | ⟨_, _, hlen, fp, _, h⟩
    · exact ih _ _ _ _ _ _ _ h
    · obtain ⟨i1, i2, i3, i4, i5⟩ := ih _ _ _ _ _ _ _ h
      refine ⟨fun x hx => i1 x (List.mem_append_left _ hx), fun _ => i2 (by simp; omega),
        fun hmc => ?_, i4, i5⟩
      have := (i3 hmc).1
      cases this

/-- With a fingerprint for every tack, the first loop does not panic. -/
theorem checkGenerations_ok (fps : List String) :
    ∀ (tacks : List Tack) (t : Nat) (store : PinStore), t + tacks.length ≤ fps.length →
      ∃ store1 r, checkGenerations fps tacks t store = .ok (store1, r) := by
  intro tacks
  induction tacks with
  | nil => intro t store _; exact ⟨store, false, rfl⟩
  | cons tack rest ih =>
    intro t store hf
    simp only [List.length_cons] at hf
    unfold checkGenerations
    rw [List.getElem?_eq_getElem (by omega : t < fps.length)]
    simp only []
    cases store.GetMinGeneration fps[t] with
    | none => exact ih _ _ (by omega)
    | some m =>
      simp only []
      split_ifs
      · exact ⟨store, true, rfl⟩
      · exact ih _ _ (by omega)
      · exact ih _ _ (by omega)

/-- With a fingerprint for every tack, a first loop that finds no revoked tack runs to
its end. -/
theorem checkGenerations_of_not_revoked (store : PinStore) (tackExt : TackExtension)
    (halign : tackExt.GetKeyFingerprints.length = tackExt.Tacks.length)
    (hrev : revokedInPhase1 store tackExt = false) :
    ∃ store1, checkGenerations tackExt.GetKeyFingerprints tackExt.Tacks 0 store
        = .ok (store1, false) ∧
      store1.pinPairs = store.pinPairs ∧ store1.pinActivation = store.pinActivation := by
  obtain ⟨store1, r, h⟩ := checkGenerations_ok tackExt.GetKeyFingerprints tackExt.Tacks 0 store
    (by omega)
  cases r with
  | true => simp [revokedInPhase1, h] at hrev
  | false => exact ⟨store1, h, checkGenerations_frame _ _ _ _ _ _ h⟩

/-- The three ways `ProcessStore` returns. -/
theorem ProcessStore_cases (store : PinStore) (tackExt : TackExtension) (name : String)
    (now : Nat) (st : Status) (err : Option Error) (store2 : PinStore)
    (h : ProcessStore store tackExt name now = .ok (st, err, store2)) :
    ∃ store1 r, checkGenerations tackExt.GetKeyFingerprints tackExt.Tacks 0 store
        = .ok (store1, r) ∧
      ((r = true ∧ st = .UNPINNED ∧ err = some .RevokedError ∧ store2 = store1) ∨
       (r = false ∧ st = .REJECTED ∧ err = none ∧ store2 = store1 ∧
          determineStatus tackExt.GetKeyFingerprints tackExt.IsActive tackExt.Tacks now
            (store1.GetPinPair name) 0 Locals.init = .ok none) ∨
       (r = false ∧ err = none ∧ ∃ l,
          determineStatus tackExt.GetKeyFingerprints tackExt.IsActive tackExt.Tacks now
            (store1.GetPinPair name) 0 Locals.init = .ok (some l) ∧
          activatePins store1 tackExt name now l = .ok store2 ∧ st = l.status)) := by
  unfold ProcessStore at h
  split at h
  · cases h
  · rename_i store1 hcg
    simp only [Except.ok.injEq, Prod.mk.injEq] at h
    exact ⟨store1, true, hcg, Or.inl ⟨rfl, h.1.symm, h.2.1.symm, h.2.2.symm⟩⟩
  · rename_i store1 hcg
    refine ⟨store1, false, hcg, Or.inr ?_⟩
    split at h
    · cases h
    · rename_i hds
      simp only [Except.ok.injEq, Prod.mk.injEq] at h
      exact Or.inl ⟨rfl, h.1.symm, h.2.1.symm, h.2.2.symm, hds⟩
    · rename_i l hds
      split at h
      · cases h
      · rename_i store3 hap
        simp only [Except.ok.injEq, Prod.mk.injEq] at h
        refine Or.inr ⟨rfl, h.2.1.symm, l, hds, ?_, h.1.symm⟩
        rw [hap, h.2.2]

/-- What pin activation does to the store when it does not panic. -/
theorem activatePins_spec (store : PinStore) (tackExt : TackExtension) (name : String)
    (now : Nat) (l : Locals) (store2 : PinStore)
    (h : activatePins store tackExt name now l = .ok store2) :
    (store.GetPinActivation = false → store2 = store) ∧
    store2.pinActivation = store.pinActivation ∧
    (∀ k, k ≠ name → store2.GetPinPair k = store.GetPinPair k) ∧
    (store2.GetPinPair name = store.GetPinPair name ∨ (store2.GetPinPair name).length ≤ 2) ∧
    (store.GetPinActivation = true → ∀ i pin b, (store.GetPinPair name)[i]? = some pin →
      l.pinMatchesTack.get i = .ok true → l.pinMatchesActiveTack.get i = .ok b →
      (⟨pin.initialTime, newEndTime now pin b, pin.fingerprint⟩ : Pin)
        ∈ store2.GetPinPair name) := by
  unfold activatePins at h
  by_cases hact : store.GetPinActivation = true
  · rw [if_pos hact] at h
    split at h
    · cases h
    · rename_i np mc hrb
      split at h
      · cases h
      · rename_i store1 np1 mc1 han
        obtain ⟨a1, a2, a3⟩ := rebuildPins_acc _ _ _ _ _ _ _ _ hrb
        obtain ⟨b1, b2, b3, b4, b5⟩ := addNewPins_acc _ _ _ _ _ _ _ _ _ _ _ _ han
        have hmem : ∀ i pin b, (store.GetPinPair name)[i]? = some pin →
            l.pinMatchesTack.get i = .ok true → l.pinMatchesActiveTack.get i = .ok b →
            (⟨pin.initialTime, newEndTime now pin b, pin.fingerprint⟩ : Pin) ∈ np1 :=
          fun i pin b hi hm hb =>
            b1 _ (rebuildPins_mem _ _ _ _ _ _ _ _ hrb i pin b hi (by simpa using hm)
              (by simpa using hb))
        cases mc1 with
        | true =>
          simp only [if_true, Except.ok.injEq] at h
          subst h
          refine ⟨fun hf => (by rw [hf] at hact; cases hact), b5, fun k hk => ?_, Or.inr ?_,
            fun _ => ?_⟩
          · simp [PinStore.GetPinPair, PinStore.SetPinPair, hk, b4]
          · simpa [PinStore.GetPinPair, PinStore.SetPinPair] using b2 (a2 (by simp))
          · simpa [PinStore.GetPinPair, PinStore.SetPinPair] using hmem
        | false =>
          simp only [Bool.false_eq_true, if_false, Except.ok.injEq] at h
          subst h
          obtain ⟨c1, c2⟩ := b3 rfl
          subst c1
          obtain ⟨_, c3⟩ := a3 rfl
          rw [c2, c3, List.nil_append] at hmem
          refine ⟨fun hf => (by rw [hf] at hact; cases hact), b5, fun k _ => ?_, Or.inl ?_,
            fun _ => ?_⟩
          · simp [PinStore.GetPinPair, b4]
          · simp [PinStore.GetPinPair, b4]
          · intro i pin b hi hm hb
            have := hmem i pin b hi hm hb
            simpa [PinStore.GetPinPair, b4] using this
  · rw [if_neg hact] at h
    simp only [Except.ok.injEq] at h
    subst h
    exact ⟨fun _ => rfl, rfl, fun _ _ => rfl, Or.inl rfl,
      fun ht => absurd ht hact⟩

/-- The end time of an extended pin when no `uint32` operation wraps around. -/
theorem newEndTime_extended (now : Nat) (pin : Pin) (hgt : now > pin.initialTime)
    (hwrap : 2 * now + 43200 < 2 ^ 32) :
    newEndTime now pin true = min (now + (now - pin.initialTime) - 1) (now + 43200) := by
  have h1 : sub32 now pin.initialTime = now - pin.initialTime := by
    unfold sub32; omega
  have h2 : add32 now (now - pin.initialTime) = now + (now - pin.initialTime) := by
    unfold add32; omega
  have h3 : sub32 (now + (now - pin.initialTime)) 1 = now + (now - pin.initialTime) - 1 := by
    unfold sub32; omega
  have h4 : add32 now (30 * 24 * 60) = now + 43200 := by
    unfold add32; omega
  simp only [newEndTime, Bool.true_and, decide_eq_true_eq, hgt, if_true, h1, h2, h3, h4]
  split_ifs <;> omega

/-- When the fingerprint list is as long as the tack list, a fingerprint is that of a
presented tack exactly when it is in the list. -/
theorem presented_iff_mem (fps : List String) (tacks : List Tack)
    (halign : fps.length = tacks.length) (x : String) :
    (∃ i, i < tacks.length ∧ fps[i]? = some x) ↔ x ∈ fps := by
  rw [List.mem_iff_getElem?]
  constructor
  · rintro ⟨i, _, h⟩; exact ⟨i, h⟩
  · rintro ⟨i, h⟩
    refine ⟨i, ?_, h⟩
    have := (List.getElem?_eq_some_iff.mp h).1
    omega

theorem ProcessStore_of_rejected (store store1 : PinStore) (tackExt : TackExtension)
    (name : String) (now : Nat)
    (hcg : checkGenerations tackExt.GetKeyFingerprints tackExt.Tacks 0 store = .ok (store1, false))
    (hds : determineStatus tackExt.GetKeyFingerprints tackExt.IsActive tackExt.Tacks now
      (store1.GetPinPair name) 0 Locals.init = .ok none) :
    ProcessStore store tackExt name now = .ok (.REJECTED, none, store1) := by
  unfold ProcessStore
  rw [hcg]
  simp only []
  rw [hds]

theorem ProcessStore_of_completed (store store1 store2 : PinStore) (tackExt : TackExtension)
    (name : String) (now : Nat) (l : Locals)
    (hcg : checkGenerations tackExt.GetKeyFingerprints tackExt.Tacks 0 store = .ok (store1, false))
    (hds : determineStatus tackExt.GetKeyFingerprints tackExt.IsActive tackExt.Tacks now
      (store1.GetPinPair name) 0 Locals.init = .ok (some l))
    (hap : activatePins store1 tackExt name now l = .ok store2) :
    ProcessStore store tackExt name now = .ok (l.status, none, store2) := by
  unfold ProcessStore
  rw [hcg]
  simp only []
  rw [hds]
  simp only []
  rw [hap]

/-- A call of `ProcessStore` that returns leaves every pin pair as it was or with at most
2 entries. -/
theorem ProcessStore_pair_size (store : PinStore) (tackExt : TackExtension) (name : String)
    (now : Nat) (st : Status) (err : Option Error) (store2 : PinStore)
    (h : ProcessStore store tackExt name now = .ok (st, err, store2)) (k : String) :
    store2.GetPinPair k = store.GetPinPair k ∨ (store2.GetPinPair k).length ≤ 2 := by
  obtain ⟨store1, r, hcg, hc⟩ := ProcessStore_cases _ _ _ _ _ _ _ h
  have hpp := (checkGenerations_frame _ _ _ _ _ _ hcg).1
  have hpair : ∀ k, store1.GetPinPair k = store.GetPinPair k := fun k => by
    simp [PinStore.GetPinPair, hpp]
  rcases hc with hc | hc | hc
  · rw [hc.2.2.2]; exact Or.inl (hpair k)
  · rw [hc.2.2.2.1]; exact Or.inl (hpair k)
  · obtain ⟨_, _, l, _, hap, _⟩ := hc
    obtain ⟨_, _, a3, a4, _⟩ := activatePins_spec _ _ _ _ _ _ hap
    by_cases hk : k = name
    · subst hk
      rcases a4 with e | e
      · exact Or.inl (e.trans (hpair k))
      · exact Or.inr e
    · exact Or.inl ((a3 k hk).trans (hpair k))

/-- The matching loop marks every tack that carries the fingerprint of the pin, and
keeps the marks already made. -/
theorem matchTacks_tack_flag (fps : List String) (act : Nat → Bool) (pin : Pin) (p : Nat) :
    ∀ (tacks : List Tack) (t : Nat) (l l1 : Locals),
      matchTacks fps act pin p tacks t l = .ok l1 →
      (∀ j, l.tackMatchesPin.get j = .ok true → l1.tackMatchesPin.get j = .ok true) ∧
      ∀ i, i < tacks.length → fps[t + i]? = some pin.fingerprint →
        l1.tackMatchesPin.get (t + i) = .ok true := by
  intro tacks
  induction tacks with
  | nil =>
    intro t l l1 h
    simp only [matchTacks, Except.ok.injEq] at h
    subst h
    exact ⟨fun _ hj => hj, fun i hi => by simp at hi⟩
  | cons x rest ih =>
    intro t l l1 h
    obtain ⟨fp, hfp, h | ⟨hm, pmt, pmat, tmp, _, _, h3, h⟩⟩ :=
      matchTacks_cons _ _ _ _ _ _ _ _ _ h
    · obtain ⟨i1, i2⟩ := ih _ _ _ h.2
      refine ⟨i1, fun i hi hfi => ?_⟩
      cases i with
      | zero =>
        rw [Nat.add_zero, hfp] at hfi
        simp only [Option.some.injEq] at hfi
        exact absurd hfi.symm h.1
      | succ k =>
        rw [show t + (k + 1) = t + 1 + k by omega] at hfi ⊢
        exact i2 k (by simpa using hi) hfi
    · obtain ⟨i1, i2⟩ := ih _ _ _ h
      have hkeep : ∀ j, l.tackMatchesPin.get j = .ok true → tmp.get j = .ok true := by
        intro j hj
        by_cases hjt : j = t
        · subst hjt; exact Flags.get_set_same h3
        · rw [Flags.get_set_other h3 hjt]; exact hj
      refine ⟨fun j hj => i1 j (hkeep j hj), fun i hi hfi => ?_⟩
      cases i with
      | zero => exact i1 _ (Flags.get_set_same h3)
      | succ k =>
        rw [show t + (k + 1) = t + 1 + k by omega] at hfi ⊢
        exact i2 k (by simpa using hi) hfi

/-- After the status loop, every tack that carries the fingerprint of a stored pin is
marked as matching a pin. -/
theorem determineStatus_tack_flag (fps : List String) (act : Nat → Bool) (tacks : List Tack)
    (now : Nat) :
    ∀ (pins : List Pin) (p : Nat) (l l1 : Locals),
      determineStatus fps act tacks now pins p l = .ok (some l1) →
      (∀ j, l.tackMatchesPin.get j = .ok true → l1.tackMatchesPin.get j = .ok true) ∧
      ∀ pin ∈ pins, ∀ j, j < tacks.length → fps[j]? = some pin.fingerprint →
        l1.tackMatchesPin.get j = .ok true := by
  intro pins
  induction pins with
  | nil =>
    intro p l l1 h
    simp only [determineStatus, Except.ok.injEq, Option.some.injEq] at h
    subst h
    exact ⟨fun _ hj => hj, fun pin hp => by simp at hp⟩
  | cons pin0 rest ih =>
    intro p l l1 h
    obtain ⟨pia, l2, active, _, _, hm, _, hc⟩ := determineStatus_cons _ _ _ _ _ _ _ _ _ h
    obtain ⟨m1, m2⟩ := matchTacks_tack_flag _ _ _ _ _ _ _ _ hm
    have hrest : ∃ l3, determineStatus fps act tacks now rest (p + 1) l3 = .ok (some l1) ∧
        l3.tackMatchesPin = l2.tackMatchesPin := by
      rcases hc with hc | hc | hc
      · cases hc.2.2
      · exact ⟨_, hc.2.2, rfl⟩
      · exact ⟨_, hc.2, rfl⟩
    obtain ⟨l3, hd3, e3⟩ := hrest
    obtain ⟨i1, i2⟩ := ih _ _ _ hd3
    rw [e3] at i1
    refine ⟨fun j hj => i1 j (m1 j hj), fun pin hp j hj hfj => ?_⟩
    rcases List.mem_cons.mp hp with rfl | hp
    · have := m2 j hj (by simpa using hfj)
      rw [Nat.zero_add] at this
      exact i1 j this
    · exact i2 pin hp j hj hfj

/-- With the indices in range and no more pins collected than pins visited, the
rebuilding loop does not panic. -/
theorem rebuildPins_ok (now : Nat) (l : Locals) :
    ∀ (pins : List Pin) (p : Nat) (acc : List Pin) (mc : Bool),
      p + pins.length ≤ 2 → acc.length ≤ p →
      ∃ np mc1, rebuildPins now l pins p acc mc = .ok (np, mc1) := by
  intro pins
  induction pins with
  | nil => intro p acc mc _ _; exact ⟨acc, mc, rfl⟩
  | cons pin rest ih =>
    intro p acc mc hp hacc
    simp only [List.length_cons] at hp
    have hp2 : p < 2 := by omega
    obtain ⟨m, hm⟩ := Flags.get_ok l.pinMatchesTack hp2
    obtain ⟨a, ha⟩ := Flags.get_ok l.pinMatchesActiveTack hp2
    unfold rebuildPins
    rw [hm]
    simp only []
    cases m with
    | false =>
      simp only [Bool.not_false, if_true]
      exact ih _ _ _ (by omega) (by omega)
    | true =>
      simp only [Bool.not_true, Bool.false_eq_true, if_false]
      rw [ha]
      simp only []
      rw [if_neg (by omega)]
      exact ih _ _ _ (by omega) (by simp; omega)

theorem list_le_two {α : Type} (l : List α) (h : l.length ≤ 2) :
    l = [] ∨ (∃ a, l = [a]) ∨ ∃ a b, l = [a, b] := by
  match l, h with
  | [], _ => exact Or.inl rfl
  | [a], _ => exact Or.inr (Or.inl ⟨a, rfl⟩)
  | [a, b], _ => exact Or.inr (Or.inr ⟨a, b, rfl⟩)
  | _ :: _ :: _ :: _, h => simp at h

/-- How many pins the rebuilding loop collects: at most one per stored pin, one more
only at a matched pin, and one per stored pin only when all are matched. -/
theorem rebuildPins_length (now : Nat) (l : Locals) :
    ∀ (pins : List Pin) (p : Nat) (acc : List Pin) (mc : Bool) (np : List Pin) (mc1 : Bool),
      rebuildPins now l pins p acc mc = .ok (np, mc1) →
      np.length ≤ acc.length + pins.length ∧
      (acc.length < np.length →
        ∃ i pin, pins[i]? = some pin ∧ l.pinMatchesTack.get (p + i) = .ok true) ∧
      (np.length = acc.length + pins.length →
        ∀ i pin, pins[i]? = some pin → l.pinMatchesTack.get (p + i) = .ok true) := by
  intro pins
  induction pins with
  | nil =>
    intro p acc mc np mc1 h
    simp only [rebuildPins, Except.ok.injEq, Prod.mk.injEq] at h
    obtain ⟨rfl, rfl⟩ := h
    simp
  | cons pin rest ih =>
    intro p acc mc np mc1 h
    rcases rebuildPins_cons _ _ _ _ _ _ _ _ h with ⟨_, h⟩ | ⟨hm, pmat, _, _, h⟩
    · obtain ⟨i1, i2, i3⟩ := ih _ _ _ _ _ h
      refine ⟨by simp; omega, fun hlt => ?_, fun heq => ?_⟩
      · obtain ⟨i, q, hi, hq⟩ := i2 hlt
        exact ⟨i + 1, q, by simpa using hi, by rwa [show p + (i + 1) = p + 1 + i by omega]⟩
      · simp only [List.length_cons] at heq
        omega
    · obtain ⟨i1, i2, i3⟩ := ih _ _ _ _ _ h
      simp only [List.length_append, List.length_singleton] at i1 i2 i3
      refine ⟨by simp; omega, fun _ => ⟨0, pin, by simp, by simpa using hm⟩, fun heq => ?_⟩
      simp only [List.length_cons] at heq
      intro i q hi
      cases i with
      | zero =>
        simp only [List.getElem?_cons_zero, Option.some.injEq] at hi
        subst hi
        simpa using hm
      | succ k =>
        simp only [List.getElem?_cons_succ] at hi
        rw [show p + (k + 1) = p + 1 + k by omega]
        exact i3 (by omega) k q hi

/-- With at most two tacks, the loop that adds pending pins does not panic when the
pins already collected leave room: none collected; one collected and some tack marked
as matching a pin; or two collected and every tack marked. -/
theorem addNewPins_small (fps : List String) (act : Nat → Bool) (now : Nat) (l : Locals)
    (tacks : List Tack) (store : PinStore) (acc : List Pin) (mc : Bool)
    (htacks : tacks.length ≤ 2) (halign : fps.length = tacks.length) (h2 : acc.length ≤ 2)
    (hone : acc.length = 1 → ∃ j, j < tacks.length ∧ l.tackMatchesPin.get j = .ok true)
    (hfull : acc.length = 2 → ∀ j, j < tacks.length → l.tackMatchesPin.get j = .ok true)
    (e : Panic) :
    addNewPins fps act now l tacks 0 store acc mc ≠ .error e := by
  obtain ⟨t0, ht0⟩ := Flags.get_ok l.tackMatchesPin (by omega : 0 < 2)
  obtain ⟨t1, ht1⟩ := Flags.get_ok l.tackMatchesPin (by omega : 1 < 2)
  rcases list_le_two tacks htacks with rfl | ⟨x, rfl⟩ | ⟨x, y, rfl⟩
  · simp [addNewPins]
  · obtain ⟨f, rfl⟩ : ∃ f, fps = [f] := by
      match fps, halign with
      | [f], _ => exact ⟨f, rfl⟩
    have hfull0 := fun h => hfull h 0 (by simp)
    rw [ht0] at hfull0
    cases t0 <;> cases h0 : act 0 <;> simp [addNewPins, ht0, h0]
    split_ifs with hlen
    · have := hfull0 (by omega)
      simp at this
    · simp
  · obtain ⟨f, g, rfl⟩ : ∃ f g, fps = [f, g] := by
      match fps, halign with
      | [f, g], _ => exact ⟨f, g, rfl⟩
    have hfull0 := fun h => hfull h 0 (by simp)
    have hfull1 := fun h => hfull h 1 (by simp)
    have hone1 : acc.length = 1 → t0 = true ∨ t1 = true := by
      intro h
      obtain ⟨j, hj, hjt⟩ := hone h
      match j, hj, hjt with
      | 0, _, hjt => rw [ht0] at hjt; simp at hjt; exact Or.inl hjt
      | 1, _, hjt => rw [ht1] at hjt; simp at hjt; exact Or.inr hjt
    rw [ht0] at hfull0
    rw [ht1] at hfull1
    simp only [Except.ok.injEq] at hfull0 hfull1
    have hcases : acc.length = 0 ∨ acc.length = 1 ∨ acc.length = 2 := by omega
    rcases hcases with hl | hl | hl <;> simp only [hl] at hone1 hfull0 hfull1 <;>
      cases t0 <;> cases t1 <;> cases h0 : act 0 <;> cases h1 : act 1 <;>
      simp [addNewPins, ht0, ht1, h0, h1, hl] <;> simp_all

/-- With at most two stored pins of distinct fingerprints and at most two tacks, pin
activation does not panic: the assertion on the size of the pair is not reached. -/
theorem activatePins_ok_small (store : PinStore) (tackExt : TackExtension) (name : String)
    (now : Nat) (l : Locals)
    (hpins : (store.GetPinPair name).length ≤ 2) (htacks : tackExt.Tacks.length ≤ 2)
    (halign : tackExt.GetKeyFingerprints.length = tackExt.Tacks.length)
    (hnodup : ((store.GetPinPair name).map Pin.fingerprint).Nodup)
    (hds : determineStatus tackExt.GetKeyFingerprints tackExt.IsActive tackExt.Tacks now
      (store.GetPinPair name) 0 Locals.init = .ok (some l)) :
    ∃ store2, activatePins store tackExt name now l = .ok store2 := by
  have F1 := determineStatus_flags _ _ _ _ _ _ _ _ FreshFrom_init hds
  have F2 := (determineStatus_tack_flag _ _ _ _ _ _ _ _ hds).2
  have G : ∀ i pin, (store.GetPinPair name)[i]? = some pin →
      l.pinMatchesTack.get i = .ok true →
      ∃ j, j < tackExt.Tacks.length ∧ tackExt.GetKeyFingerprints[j]? = some pin.fingerprint ∧
        l.tackMatchesPin.get j = .ok true := by
    intro i pin hi hm
    obtain ⟨j, hj, hfj⟩ := (F1 i pin hi).1.mp (by simpa using hm)
    exact ⟨j, hj, hfj, F2 pin (List.mem_iff_getElem?.mpr ⟨i, hi⟩) j hj hfj⟩
  unfold activatePins
  by_cases hact : store.GetPinActivation = true
  · rw [if_pos hact]
    obtain ⟨np, mc, hrb⟩ := rebuildPins_ok now l (store.GetPinPair name) 0 [] false
      (by omega) (by simp)
    obtain ⟨L1, L2, L3⟩ := rebuildPins_length _ _ _ _ _ _ _ _ hrb
    simp only [List.length_nil, Nat.zero_add] at L1 L2 L3
    rw [hrb]
    simp only []
    have hone : np.length = 1 →
        ∃ j, j < tackExt.Tacks.length ∧ l.tackMatchesPin.get j = .ok true := by
      intro h1
      obtain ⟨i, pin, hi, hm⟩ := L2 (by omega)
      obtain ⟨j, hj, _, ht⟩ := G i pin hi hm
      exact ⟨j, hj, ht⟩
    have hfull : np.length = 2 →
        ∀ j, j < tackExt.Tacks.length → l.tackMatchesPin.get j = .ok true := by
      intro h2 j hj
      have hall := L3 (by omega)
      have hall := L3 (by omega)
      obtain ⟨a, b, hab⟩ : ∃ a b, store.GetPinPair name = [a, b] := by
        rcases list_le_two _ hpins with h | ⟨a, h⟩ | ⟨a, b, h⟩
        · rw [h] at L1; simp only [List.length_nil] at L1; omega
        · rw [h] at L1; simp only [List.length_singleton] at L1; omega
        · exact ⟨a, b, h⟩
      rw [hab] at hall G hnodup
      obtain ⟨j0, hj0, hf0, ht0⟩ := G 0 a rfl (hall 0 a rfl)
      obtain ⟨j1, hj1, hf1, ht1⟩ := G 1 b rfl (hall 1 b rfl)
      have hne : j0 ≠ j1 := by
        intro heq
        rw [heq, hf1] at hf0
        simp only [Option.some.injEq] at hf0
        simp [hf0] at hnodup
      have hj01 : j = j0 ∨ j = j1 := by omega
      rcases hj01 with rfl | rfl
      · exact ht0
      · exact ht1
    have hne := addNewPins_small tackExt.GetKeyFingerprints tackExt.IsActive now l tackExt.Tacks
      store np mc htacks halign (by omega) hone hfull
    cases hres : addNewPins tackExt.GetKeyFingerprints tackExt.IsActive now l tackExt.Tacks 0
        store np mc with
    | error e => exact absurd hres (hne e)
    | ok r =>
      obtain ⟨s, np1, mc1⟩ := r
      simp only []
      split_ifs
      · exact ⟨_, rfl⟩
      · exact ⟨_, rfl⟩
  · rw [if_neg hact]
    exact ⟨_, rfl⟩

/-- With pin activation off, pin activation returns the store as it is. -/
theorem activatePins_off (store : PinStore) (tackExt : TackExtension) (name : String)
    (now : Nat) (l : Locals) (hact : store.GetPinActivation = false) :
    activatePins store tackExt name now l = .ok store := by
  simp [activatePins, hact]

/-- With at most two stored pins, at most two tacks, a fingerprint for every tack and
no revoked tack, `ProcessStore` returns when pin activation is off or the stored pins
have pairwise distinct fingerprints. -/
theorem ProcessStore_returns (store : PinStore) (tackExt : TackExtension) (name : String)
    (now : Nat)
    (hpins : (store.GetPinPair name).length ≤ 2) (htacks : tackExt.Tacks.length ≤ 2)
    (halign : tackExt.GetKeyFingerprints.length = tackExt.Tacks.length)
    (hrev : revokedInPhase1 store tackExt = false)
    (hsafe : store.GetPinActivation = false ∨
      ((store.GetPinPair name).map Pin.fingerprint).Nodup) :
    ∃ st store2, ProcessStore store tackExt name now = .ok (st, none, store2) := by
  obtain ⟨store1, hcg, hpp, hpa⟩ := checkGenerations_of_not_revoked store tackExt halign hrev
  have hpair : store1.GetPinPair name = store.GetPinPair name := by
    simp [PinStore.GetPinPair, hpp]
  obtain ⟨r, hds⟩ := determineStatus_ok tackExt.GetKeyFingerprints tackExt.IsActive
    tackExt.Tacks now htacks (by omega) (store1.GetPinPair name) 0 Locals.init
    (by rw [hpair]; omega)
  cases r with
  | none => exact ⟨_, _, ProcessStore_of_rejected _ _ _ _ _ hcg hds⟩
  | some l =>
    have hap : ∃ store2, activatePins store1 tackExt name now l = .ok store2 := by
      rcases hsafe with hoff | hnd
      · exact ⟨_, activatePins_off _ _ _ _ _ (by simpa [PinStore.GetPinActivation, hpa] using hoff)⟩
      · exact activatePins_ok_small _ _ _ _ _ (by rw [hpair]; exact hpins) htacks halign
          (by rw [hpair]; exact hnd) hds
    obtain ⟨store2, hap⟩ := hap
    exact ⟨_, _, ProcessStore_of_completed _ _ _ _ _ _ _ hcg hds hap⟩

/-! ## Theorems: a single pin and a single tack -/

/-- The first loop leaves a fingerprint without recorded minimum generation without
one. -/
theorem checkGenerations_none (fps : List String) :
    ∀ (tacks : List Tack) (t : Nat) (store store1 : PinStore) (r : Bool),
      checkGenerations fps tacks t store = .ok (store1, r) →
      ∀ fp, store.GetMinGeneration fp = none → store1.GetMinGeneration fp = none := by
  intro tacks
  induction tacks with
  | nil =>
    intro t store store1 r h fp hn
    simp only [checkGenerations, Except.ok.injEq, Prod.mk.injEq] at h
    rw [← h.1]; exact hn
  | cons tack rest ih =>
    intro t store store1 r h fp hn
    unfold checkGenerations at h
    split at h
    · cases h
    · rename_i fp0 hfp0
      split at h
      · rename_i m0 hm0
        split_ifs at h with h1 h2
        · simp only [Except.ok.injEq, Prod.mk.injEq] at h
          rw [← h.1]; exact hn
        · refine ih _ _ _ _ h fp ?_
          have hk : fp ≠ fp0 := by
            intro e
            rw [e, hm0] at hn
            cases hn
          simp [hk, hn]
        · exact ih _ _ _ _ h fp hn
      · exact ih _ _ _ _ h fp hn

/-- The status loop on a single pin and a single tack with the same fingerprint. -/
theorem determineStatus_one_match (act : Nat → Bool) (tack : Tack) (now : Nat) (pin : Pin) :
    determineStatus [pin.fingerprint] act [tack] now [pin] 0 Locals.init
      = .ok (some
          { status := if pin.endTime > now then .ACCEPTED else .UNPINNED
            tackMatchesPin := ⟨true, false⟩
            pinIsActive := ⟨decide (pin.endTime > now), false⟩
            pinMatchesTack := ⟨true, false⟩
            pinMatchesActiveTack := ⟨act 0, false⟩ }) := by
  by_cases h : pin.endTime > now <;>
    simp [determineStatus, matchTacks, Flags.set, Flags.get, Locals.init, Flags.zero, h]

/-- The status loop on no pin. -/
theorem determineStatus_no_pin (fps : List String) (act : Nat → Bool) (tacks : List Tack)
    (now : Nat) :
    determineStatus fps act tacks now [] 0 Locals.init = .ok (some Locals.init) := rfl

/-- Pin activation on a single stored pin matched by the single presented tack, that
tack being active: the pair becomes the pin with the end time `newEndTime` gives it. -/
theorem activatePins_one_match (store : PinStore) (tackExt : TackExtension) (name : String)
    (now : Nat) (pin : Pin) (tack : Tack) (st : Status) (pia : Flags)
    (hpins : store.GetPinPair name = [pin])
    (hact : store.GetPinActivation = true)
    (htacks : tackExt.Tacks = [tack])
    (hfps : tackExt.GetKeyFingerprints = [pin.fingerprint])
    (hactive : tackExt.IsActive 0 = true) :
    ∃ store2, activatePins store tackExt name now
        { status := st, tackMatchesPin := ⟨true, false⟩, pinIsActive := pia,
          pinMatchesTack := ⟨true, false⟩, pinMatchesActiveTack := ⟨tackExt.IsActive 0, false⟩ }
        = .ok store2 ∧
      store2.GetPinPair name = [⟨pin.initialTime, newEndTime now pin true, pin.fingerprint⟩] := by
  by_cases hch : newEndTime now pin true = pin.endTime
  · refine ⟨store, ?_, ?_⟩
    · simp [activatePins, hact, hpins, rebuildPins, htacks, hfps, addNewPins, hactive,
        Flags.get, hch]
    · rw [hpins, hch]
  · refine ⟨store.SetPinPair name [⟨pin.initialTime, newEndTime now pin true, pin.fingerprint⟩],
      ?_, ?_⟩
    · by_cases hgt : now > pin.initialTime
      · simp [activatePins, hact, hpins, rebuildPins, htacks, hfps, addNewPins, hactive,
          Flags.get, hch, hgt]
      · exfalso
        apply hch
        simp [newEndTime, hgt]
    · simp [PinStore.GetPinPair, PinStore.SetPinPair]

/-! ## Theorems: what the first loop leaves in the store -/

theorem ProcessStore_of_revoked (store store1 : PinStore) (tackExt : TackExtension)
    (name : String) (now : Nat)
    (hcg : checkGenerations tackExt.GetKeyFingerprints tackExt.Tacks 0 store = .ok (store1, true)) :
    ProcessStore store tackExt name now = .ok (.UNPINNED, some .RevokedError, store1) := by
  unfold ProcessStore
  rw [hcg]
  rfl

/-- With at most two stored pins, at most two tacks, a fingerprint for every tack and
pin activation off, `ProcessStore` returns. -/
theorem ProcessStore_returns_off (store : PinStore) (tackExt : TackExtension) (name : String)
    (now : Nat)
    (hpins : (store.GetPinPair name).length ≤ 2) (htacks : tackExt.Tacks.length ≤ 2)
    (halign : tackExt.GetKeyFingerprints.length = tackExt.Tacks.length)
    (hoff : store.GetPinActivation = false) :
    ∃ st err store1, ProcessStore store tackExt name now = .ok (st, err, store1) := by
  obtain ⟨store1, r, hcg⟩ := checkGenerations_ok tackExt.GetKeyFingerprints tackExt.Tacks 0
    store (by omega)
  cases r with
  | true => exact ⟨_, _, _, ProcessStore_of_revoked _ _ _ _ _ hcg⟩
  | false =>
    obtain ⟨st, store2, h⟩ := ProcessStore_returns store tackExt name now hpins htacks halign
      (by simp [revokedInPhase1, hcg]) (Or.inl hoff)
    exact ⟨st, none, store2, h⟩

/-- The recorded minimum generation the first loop leaves for a fingerprint that had
one: the largest of the recorded value and the `MinGeneration` of the tacks presented with
that fingerprint. -/
theorem checkGenerations_floor (fps : List String) :
    ∀ (tacks : List Tack) (t : Nat) (store store1 : PinStore),
      checkGenerations fps tacks t store = .ok (store1, false) →
      ∀ fp m, store.GetMinGeneration fp = some m →
        store1.GetMinGeneration fp = some (List.foldl max m
          (((tacks.zip (fps.drop t)).filter (fun x => decide (x.2 = fp))).map
            (fun x => x.1.MinGeneration))) := by
  intro tacks
  induction tacks with
  | nil =>
    intro t store store1 h fp m hm
    simp only [checkGenerations, Except.ok.injEq, Prod.mk.injEq] at h
    rw [← h.1]
    simpa using hm
  | cons tack rest ih =>
    intro t store store1 h fp m hm
    unfold checkGenerations at h
    split at h
    · cases h
    · rename_i fp0 hfp0
      have hdrop : fps.drop t = fp0 :: fps.drop (t + 1) := by
        obtain ⟨hlt, he⟩ := List.getElem?_eq_some_iff.mp hfp0
        rw [List.drop_eq_getElem_cons hlt, he]
      rw [hdrop, List.zip_cons_cons]
      by_cases hk : fp0 = fp
      · subst hk
        simp only [List.filter_cons, decide_True, if_true, List.map_cons, List.foldl_cons]
        rw [hm] at h
        simp only [] at h
        split_ifs at h with h1 h2
        · simp at h
        · rw [show max m tack.MinGeneration = tack.MinGeneration by omega]
          exact ih _ _ _ h fp0 tack.MinGeneration (by simp)
        · rw [show max m tack.MinGeneration = m by omega]
          exact ih _ _ _ h fp0 m hm
      · have hk1 : fp ≠ fp0 := fun e => hk e.symm
        simp only [List.filter_cons, hk, decide_False, Bool.false_eq_true, if_false]
        split at h
        · split_ifs at h with h1 h2
          · simp at h
          · exact ih _ _ _ h fp m (by simp [hk1, hm])
          · exact ih _ _ _ h fp m hm
        · exact ih _ _ _ h fp m hm

/-! ## Theorems: the shape of the rebuilt pair -/

/-- The pins the rebuilding loop collects: the pins already collected, followed by the
matched stored pins, in order, each with the end time `newEndTime` gives it. -/
theorem rebuildPins_shape (now : Nat) (l : Locals) :
    ∀ (pins : List Pin) (p : Nat) (acc : List Pin) (mc : Bool) (np : List Pin) (mc1 : Bool),
      rebuildPins now l pins p acc mc = .ok (np, mc1) →
      ∃ K, np = acc ++ K ∧ (K.map Pin.fingerprint).Sublist (pins.map Pin.fingerprint) ∧
        ∀ q ∈ K, ∃ i pin b, pins[i]? = some pin ∧ l.pinMatchesTack.get (p + i) = .ok true ∧
          l.pinMatchesActiveTack.get (p + i) = .ok b ∧
          q = ⟨pin.initialTime, newEndTime now pin b, pin.fingerprint⟩ := by
  intro pins
  induction pins with
  | nil =>
    intro p acc mc np mc1 h
    simp only [rebuildPins, Except.ok.injEq, Prod.mk.injEq] at h
    exact ⟨[], by simp [h.1], by simp, by simp⟩
  | cons pin rest ih =>
    intro p acc mc np mc1 h
    rcases rebuildPins_cons _ _ _ _ _ _ _ _ h with ⟨_, h⟩ | ⟨hm, pmat, hb, _, h⟩
    · obtain ⟨K, e, hs, hk⟩ := ih _ _ _ _ _ h
      refine ⟨K, e, ?_, fun q hq => ?_⟩
      · simp only [List.map_cons]
        exact List.Sublist.cons _ hs
      · obtain ⟨i, pin1, b, hi, h1, h2, h3⟩ := hk q hq
        exact ⟨i + 1, pin1, b, by simpa using hi,
          by rwa [show p + (i + 1) = p + 1 + i by omega],
          by rwa [show p + (i + 1) = p + 1 + i by omega], h3⟩
    · obtain ⟨K, e, hs, hk⟩ := ih _ _ _ _ _ h
      refine ⟨⟨pin.initialTime, newEndTime now pin pmat, pin.fingerprint⟩ :: K,
        by simp [e], ?_, fun q hq => ?_⟩
      · simp only [List.map_cons]
        exact List.Sublist.cons₂ _ hs
      · rcases List.mem_cons.mp hq with rfl | hq
        · exact ⟨0, pin, pmat, by simp, by simpa using hm, by simpa using hb, rfl⟩
        · obtain ⟨i, pin1, b, hi, h1, h2, h3⟩ := hk q hq
          exact ⟨i + 1, pin1, b, by simpa using hi,
            by rwa [show p + (i + 1) = p + 1 + i by omega],
            by rwa [show p + (i + 1) = p + 1 + i by omega], h3⟩

/-- The pins the loop that adds pending pins collects: the pins already collected,
followed by one pending pin for every active tack not marked as matching a pin, in
order. -/
theorem addNewPins_shape (fps : List String) (act : Nat → Bool) (now : Nat) (l : Locals) :
    ∀ (tacks : List Tack) (t : Nat) (store : PinStore) (acc : List Pin) (mc : Bool)
      (store1 : PinStore) (np : List Pin) (mc1 : Bool),
      addNewPins fps act now l tacks t store acc mc = .ok (store1, np, mc1) →
      ∃ L, np = acc ++ L ∧ (L.map Pin.fingerprint).Sublist (fps.drop t) ∧
        ∀ q ∈ L, ∃ i, i < tacks.length ∧ act (t + i) = true ∧
          l.tackMatchesPin.get (t + i) = .ok false ∧ fps[t + i]? = some q.fingerprint ∧
          q = ⟨now, 0, q.fingerprint⟩ := by
  intro tacks
  induction tacks with
  | nil =>
    intro t store acc mc store1 np mc1 h
    simp only [addNewPins, Except.ok.injEq, Prod.mk.injEq] at h
    exact ⟨[], by simp [h.2.1], by simp, by simp⟩
  | cons tack rest ih =>
    intro t store acc mc store1 np mc1 h
    have hshift : ∀ L : List Pin, (L.map Pin.fingerprint).Sublist (fps.drop (t + 1)) →
        (L.map Pin.fingerprint).Sublist (fps.drop t) := by
      intro L hs
      refine hs.trans ?_
      rw [← List.drop_drop]
      exact List.drop_sublist _ _
    rcases addNewPins_cons _ _ _ _ _ _ _ _ _ _ _ h with ⟨h, _⟩ | ⟨ha, hm, _, fp, hfp, h⟩
    · obtain ⟨L, e, hs, hk⟩ := ih _ _ _ _ _ _ _ h
      refine ⟨L, e, hshift L hs, fun q hq => ?_⟩
      obtain ⟨i, hi, h1, h2, h3, h4⟩ := hk q hq
      exact ⟨i + 1, by simpa using hi, by rwa [show t + (i + 1) = t + 1 + i by omega],
        by rwa [show t + (i + 1) = t + 1 + i by omega],
        by rwa [show t + (i + 1) = t + 1 + i by omega], h4⟩
    · obtain ⟨L, e, hs, hk⟩ := ih _ _ _ _ _ _ _ h
      refine ⟨⟨now, 0, fp⟩ :: L, by simp [e], ?_, fun q hq => ?_⟩
      · obtain ⟨hlt, he⟩ := List.getElem?_eq_some_iff.mp hfp
        rw [List.drop_eq_getElem_cons hlt, he]
        simp only [List.map_cons]
        exact List.Sublist.cons₂ _ hs
      · rcases List.mem_cons.mp hq with rfl | hq
        · exact ⟨0, by simp, by simpa using ha, by simpa using hm, by simpa using hfp, rfl⟩
        · obtain ⟨i, hi, h1, h2, h3, h4⟩ := hk q hq
          exact ⟨i + 1, by simpa using hi, by rwa [show t + (i + 1) = t + 1 + i by omega],
            by rwa [show t + (i + 1) = t + 1 + i by omega],
            by rwa [show t + (i + 1) = t + 1 + i by omega], h4⟩

/-- When the stored pins have pairwise distinct fingerprints and so have the presented
tacks, the pair pin activation leaves has pairwise distinct fingerprints. -/
theorem activatePins_nodup (store : PinStore) (tackExt : TackExtension) (name : String)
    (now : Nat) (l : Locals) (store2 : PinStore)
    (hnodup : ((store.GetPinPair name).map Pin.fingerprint).Nodup)
    (hnd : tackExt.GetKeyFingerprints.Nodup)
    (hds : determineStatus tackExt.GetKeyFingerprints tackExt.IsActive tackExt.Tacks now
      (store.GetPinPair name) 0 Locals.init = .ok (some l))
    (h : activatePins store tackExt name now l = .ok store2) :
    ((store2.GetPinPair name).map Pin.fingerprint).Nodup := by
  have F2 := (determineStatus_tack_flag _ _ _ _ _ _ _ _ hds).2
  unfold activatePins at h
  by_cases hact : store.GetPinActivation = true
  · rw [if_pos hact] at h
    split at h
    · cases h
    · rename_i np mc hrb
      split at h
      · cases h
      · rename_i store1 np1 mc1 han
        obtain ⟨K, hK, hKs, _⟩ := rebuildPins_shape _ _ _ _ _ _ _ _ hrb
        obtain ⟨L, hL, hLs, hLk⟩ := addNewPins_shape _ _ _ _ _ _ _ _ _ _ _ _ han
        obtain ⟨_, _, _, b4, _⟩ := addNewPins_acc _ _ _ _ _ _ _ _ _ _ _ _ han
        rw [List.nil_append] at hK
        subst hK
        cases mc1 with
        | false =>
          simp only [Bool.false_eq_true, if_false, Except.ok.injEq] at h
          subst h
          simpa [PinStore.GetPinPair, b4] using hnodup
        | true =>
          simp only [if_true, Except.ok.injEq] at h
          subst h
          simp only [PinStore.GetPinPair, PinStore.SetPinPair, if_true, hL, List.map_append]
          rw [List.nodup_append]
          refine ⟨hKs.nodup hnodup, (hLs.trans (List.drop_sublist _ _)).nodup hnd, ?_⟩
          intro x hxK hxL
          obtain ⟨q, hq, rfl⟩ := List.mem_map.mp hxL
          obtain ⟨i, hi, _, hfalse, hfp, _⟩ := hLk q hq
          obtain ⟨pin, hpin, hpfp⟩ := List.mem_map.mp (hKs.subset hxK)
          rw [Nat.zero_add] at hfalse hfp
          have := F2 pin hpin i hi (by rw [hfp, hpfp])
          rw [this] at hfalse
          cases hfalse
  · rw [if_neg hact] at h
    simp only [Except.ok.injEq] at h
    subst h
    exact hnodup

/-- With at most two stored pins of pairwise distinct fingerprints and at most two tacks
of pairwise distinct fingerprints, a call of `ProcessStore` returns, and the pair it
leaves has again at most two pins of pairwise distinct fingerprints. -/
theorem ProcessStore_wf (store : PinStore) (tackExt : TackExtension) (name : String)
    (now : Nat)
    (hpins : (store.GetPinPair name).length ≤ 2)
    (hnodup : ((store.GetPinPair name).map Pin.fingerprint).Nodup)
    (htacks : tackExt.Tacks.length ≤ 2)
    (halign : tackExt.GetKeyFingerprints.length = tackExt.Tacks.length)
    (hnd : tackExt.GetKeyFingerprints.Nodup) :
    ∃ st err store1, ProcessStore store tackExt name now = .ok (st, err, store1) ∧
      (store1.GetPinPair name).length ≤ 2 ∧
      ((store1.GetPinPair name).map Pin.fingerprint).Nodup := by
  obtain ⟨s1, r, hcg⟩ := checkGenerations_ok tackExt.GetKeyFingerprints tackExt.Tacks 0
    store (by omega)
  have hpair : s1.GetPinPair name = store.GetPinPair name := by
    simp [PinStore.GetPinPair, (checkGenerations_frame _ _ _ _ _ _ hcg).1]
  cases r with
  | true =>
    exact ⟨_, _, _, ProcessStore_of_revoked _ _ _ _ _ hcg, by rw [hpair]; exact hpins,
      by rw [hpair]; exact hnodup⟩
  | false =>
    obtain ⟨r2, hds⟩ := determineStatus_ok tackExt.GetKeyFingerprints tackExt.IsActive
      tackExt.Tacks now htacks (by omega) (s1.GetPinPair name) 0 Locals.init
      (by rw [hpair]; omega)
    cases r2 with
    | none =>
      exact ⟨_, _, _, ProcessStore_of_rejected _ _ _ _ _ hcg hds, by rw [hpair]; exact hpins,
        by rw [hpair]; exact hnodup⟩
    | some l =>
      obtain ⟨store2, hap⟩ := activatePins_ok_small s1 tackExt name now l
        (by rw [hpair]; exact hpins) htacks halign (by rw [hpair]; exact hnodup) hds
      refine ⟨_, _, _, ProcessStore_of_completed _ _ _ _ _ _ _ hcg hds hap, ?_,
        activatePins_nodup _ _ _ _ _ _ (by rw [hpair]; exact hnodup) hnd hds hap⟩
      rcases (activatePins_spec _ _ _ _ _ _ hap).2.2.2.1 with e | e
      · rw [e, hpair]; exact hpins
      · exact e

/-! ## Theorems: repeating a call -/

/-- When every presented tack whose fingerprint has a recorded minimum generation has a
`MinGeneration` not above it, the first loop writes nothing. -/
theorem checkGenerations_saturated (fps : List String) :
    ∀ (tacks : List Tack) (t : Nat) (s : PinStore), t + tacks.length ≤ fps.length →
      (∀ i tack fp m, tacks[i]? = some tack → fps[t + i]? = some fp →
        s.GetMinGeneration fp = some m → tack.MinGeneration ≤ m) →
      ∃ r, checkGenerations fps tacks t s = .ok (s, r) := by
  intro tacks
  induction tacks with
  | nil => intro t s _ _; exact ⟨false, rfl⟩
  | cons tack rest ih =>
    intro t s hf hsat
    simp only [List.length_cons] at hf
    have hrest := ih (t + 1) s (by omega) (fun i tk fp m hi hfp hm =>
      hsat (i + 1) tk fp m (by simpa using hi)
        (by rwa [show t + (i + 1) = t + 1 + i by omega]) hm)
    unfold checkGenerations
    rw [List.getElem?_eq_getElem (by omega : t < fps.length)]
    simp only []
    cases hm : s.GetMinGeneration fps[t] with
    | none => exact hrest
    | some m =>
      simp only []
      have hle := hsat 0 tack fps[t] m (by simp)
        (by rw [Nat.add_zero, List.getElem?_eq_getElem]) hm
      split_ifs with h1 h2
      · exact ⟨true, rfl⟩
      · omega
      · exact hrest

/-- After a first loop that ran to its end, every presented tack whose fingerprint has
a recorded minimum generation has a `MinGeneration` not above it. -/
theorem checkGenerations_saturates (fps : List String) :
    ∀ (tacks : List Tack) (t : Nat) (store s1 : PinStore),
      checkGenerations fps tacks t store = .ok (s1, false) →
      ∀ i tack fp m, tacks[i]? = some tack → fps[t + i]? = some fp →
        s1.GetMinGeneration fp = some m → tack.MinGeneration ≤ m := by
  intro tacks
  induction tacks with
  | nil => intro t store s1 _ i tack fp m hi; simp at hi
  | cons tack0 rest ih =>
    intro t store s1 h i tack fp m hi hfp hm
    unfold checkGenerations at h
    split at h
    · cases h
    · rename_i fp0 hfp0
      have key : ∃ s0, checkGenerations fps rest (t + 1) s0 = .ok (s1, false) ∧
          (∀ m0, s1.GetMinGeneration fp0 = some m0 → tack0.MinGeneration ≤ m0) := by
        split at h
        · rename_i m0 hm0
          split_ifs at h with h1 h2
          · simp at h
          · refine ⟨_, h, fun m1 hm1 => ?_⟩
            obtain ⟨m2, e2, hle⟩ := checkGenerations_mono _ _ _ _ _ _ h fp0
              tack0.MinGeneration (by simp)
            rw [hm1] at e2
            simp only [Option.some.injEq] at e2
            omega
          · refine ⟨_, h, fun m1 hm1 => ?_⟩
            obtain ⟨m2, e2, hle⟩ := checkGenerations_mono _ _ _ _ _ _ h fp0 m0 hm0
            rw [hm1] at e2
            simp only [Option.some.injEq] at e2
            omega
        · rename_i hnone
          refine ⟨_, h, fun m1 hm1 => ?_⟩
          rw [checkGenerations_none _ _ _ _ _ _ h fp0 hnone] at hm1
          cases hm1
      obtain ⟨s0, hrest, hhead⟩ := key
      cases i with
      | zero =>
        simp only [List.getElem?_cons_zero, Option.some.injEq] at hi
        subst hi
        rw [Nat.add_zero, hfp0] at hfp
        simp only [Option.some.injEq] at hfp
        subst hfp
        exact hhead m hm
      | succ k =>
        simp only [List.getElem?_cons_succ] at hi
        exact ih _ _ _ hrest k tack fp m hi
          (by rwa [show t + 1 + k = t + (k + 1) by omega]) hm

/-- A first loop that left through the revocation return does so again on the store
it left, and leaves that store as it is. -/
theorem checkGenerations_revoked_again (fps : List String) :
    ∀ (tacks : List Tack) (t : Nat) (store s1 : PinStore),
      checkGenerations fps tacks t store = .ok (s1, true) →
      checkGenerations fps tacks t s1 = .ok (s1, true) := by
  intro tacks
  induction tacks with
  | nil => intro t store s1 h; simp [checkGenerations] at h
  | cons tack rest ih =>
    intro t store s1 h
    have h0 := h
    unfold checkGenerations at h
    split at h
    · cases h
    · rename_i fp0 hfp0
      have key : (s1 = store ∧ ∃ m0, store.GetMinGeneration fp0 = some m0 ∧
            tack.Generation < m0) ∨
          (∃ s0, checkGenerations fps rest (t + 1) s0 = .ok (s1, true) ∧
            ∀ m1, s1.GetMinGeneration fp0 = some m1 → tack.MinGeneration ≤ m1) := by
        split at h
        · rename_i m0 hm0
          split_ifs at h with h1 h2
          · simp only [Except.ok.injEq, Prod.mk.injEq, and_true] at h
            exact Or.inl ⟨h.symm, m0, hm0, h1⟩
          · refine Or.inr ⟨_, h, fun m1 hm1 => ?_⟩
            obtain ⟨m2, e2, hle⟩ := checkGenerations_mono _ _ _ _ _ _ h fp0
              tack.MinGeneration (by simp)
            rw [hm1] at e2
            simp only [Option.some.injEq] at e2
            omega
          · refine Or.inr ⟨_, h, fun m1 hm1 => ?_⟩
            obtain ⟨m2, e2, hle⟩ := checkGenerations_mono _ _ _ _ _ _ h fp0 m0 hm0
            rw [hm1] at e2
            simp only [Option.some.injEq] at e2
            omega
        · rename_i hnone
          refine Or.inr ⟨_, h, fun m1 hm1 => ?_⟩
          rw [checkGenerations_none _ _ _ _ _ _ h fp0 hnone] at hm1
          cases hm1
      rcases key with ⟨e, _⟩ | ⟨s0, hrest, hhead⟩
      · rw [e]; rw [e] at h0; exact h0
      · have hih := ih _ _ _ hrest
        unfold checkGenerations
        rw [hfp0]
        simp only []
        cases hm1 : s1.GetMinGeneration fp0 with
        | none => exact hih
        | some m1 =>
          simp only []
          have := hhead m1 hm1
          split_ifs with h1 h2
          · rfl
          · omega
          · exact hih

/-- A mark the matching loop leaves on a tack was there before, or the tack carries the
fingerprint of the pin. -/
theorem matchTacks_tack_flag_inv (fps : List String) (act : Nat → Bool) (pin : Pin) (p : Nat) :
    ∀ (tacks : List Tack) (t : Nat) (l l1 : Locals),
      matchTacks fps act pin p tacks t l = .ok l1 →
      ∀ j, l1.tackMatchesPin.get j = .ok true →
        l.tackMatchesPin.get j = .ok true ∨
          (t ≤ j ∧ j < t + tacks.length ∧ fps[j]? = some pin.fingerprint) := by
  intro tacks
  induction tacks with
  | nil =>
    intro t l l1 h j hj
    simp only [matchTacks, Except.ok.injEq] at h
    subst h; exact Or.inl hj
  | cons x rest ih =>
    intro t l l1 h j hj
    obtain ⟨fp, hfp, h | ⟨hm, pmt, pmat, tmp, _, _, h3, h⟩⟩ :=
      matchTacks_cons _ _ _ _ _ _ _ _ _ h
    · rcases ih _ _ _ h.2 j hj with e | ⟨e1, e2, e3⟩
      · exact Or.inl e
      · exact Or.inr ⟨by omega, by simp; omega, e3⟩
    · rcases ih _ _ _ h j hj with e | ⟨e1, e2, e3⟩
      · by_cases hjt : j = t
        · subst hjt
          exact Or.inr ⟨le_refl _, by simp, by rw [hfp, hm]⟩
        · simp only [] at e
          rw [Flags.get_set_other h3 hjt] at e
          exact Or.inl e
      · exact Or.inr ⟨by omega, by simp; omega, e3⟩

/-- A mark the status loop leaves on a tack was there before, or the tack carries the
fingerprint of a stored pin. -/
theorem determineStatus_tack_flag_inv (fps : List String) (act : Nat → Bool)
    (tacks : List Tack) (now : Nat) :
    ∀ (pins : List Pin) (p : Nat) (l l1 : Locals),
      determineStatus fps act tacks now pins p l = .ok (some l1) →
      ∀ j, l1.tackMatchesPin.get j = .ok true →
        l.tackMatchesPin.get j = .ok true ∨
          ∃ pin ∈ pins, j < tacks.length ∧ fps[j]? = some pin.fingerprint := by
  intro pins
  induction pins with
  | nil =>
    intro p l l1 h j hj
    simp only [determineStatus, Except.ok.injEq, Option.some.injEq] at h
    subst h; exact Or.inl hj
  | cons pin0 rest ih =>
    intro p l l1 h j hj
    obtain ⟨pia, l2, active, _, _, hm, _, hc⟩ := determineStatus_cons _ _ _ _ _ _ _ _ _ h
    have hrest : ∃ l3, determineStatus fps act tacks now rest (p + 1) l3 = .ok (some l1) ∧
        l3.tackMatchesPin = l2.tackMatchesPin := by
      rcases hc with hc | hc | hc
      · cases hc.2.2
      · exact ⟨_, hc.2.2, rfl⟩
      · exact ⟨_, hc.2, rfl⟩
    obtain ⟨l3, hd3, e3⟩ := hrest
    rcases ih _ _ _ hd3 j hj with e | ⟨pin, hp, h1, h2⟩
    · rw [e3] at e
      rcases matchTacks_tack_flag_inv _ _ _ _ _ _ _ _ hm j e with e0 | ⟨_, e1, e2⟩
      · exact Or.inl e0
      · exact Or.inr ⟨pin0, List.mem_cons_self _ _, by omega, e2⟩
    · exact Or.inr ⟨pin, List.mem_cons_of_mem _ hp, h1, h2⟩

/-- Computing the end time again on the rebuilt pin gives the same end time. -/
theorem newEndTime_again (now : Nat) (pin : Pin) (b : Bool) :
    newEndTime now ⟨pin.initialTime, newEndTime now pin b, pin.fingerprint⟩ b
      = newEndTime now pin b := by
  by_cases h : (b && decide (now > pin.initialTime)) = true
  · simp only [newEndTime, h, if_true]
  · simp only [newEndTime, h, if_false]
    rfl

/-- When every stored pin is recorded as matched and already has the end time
`newEndTime` gives it, the rebuilding loop collects the stored pins as they are and
records no change. -/
theorem rebuildPins_noop (now : Nat) (l : Locals) :
    ∀ (pins : List Pin) (p : Nat) (acc : List Pin),
      acc.length + pins.length ≤ 2 →
      (∀ i pin, pins[i]? = some pin → l.pinMatchesTack.get (p + i) = .ok true ∧
        ∃ b, l.pinMatchesActiveTack.get (p + i) = .ok b ∧
          newEndTime now pin b = pin.endTime) →
      rebuildPins now l pins p acc false = .ok (acc ++ pins, false) := by
  intro pins
  induction pins with
  | nil => intro p acc _ _; simp [rebuildPins]
  | cons pin rest ih =>
    intro p acc hlen hall
    simp only [List.length_cons] at hlen
    obtain ⟨hm, b, hb, he⟩ := hall 0 pin (by simp)
    rw [Nat.add_zero] at hm hb
    unfold rebuildPins
    rw [hm]
    simp only [Bool.not_true, Bool.false_eq_true, if_false]
    rw [hb]
    simp only [he, ne_eq, not_true_eq_false, decide_False, Bool.and_false, Bool.false_eq_true,
      if_false]
    rw [if_neg (by omega)]
    have := ih (p + 1) (acc ++ [pin]) (by simp; omega) (fun i q hi => by
      have := hall (i + 1) q (by simpa using hi)
      rwa [show p + (i + 1) = p + 1 + i by omega] at this)
    rw [this]
    simp

/-- When every active tack is marked as matching a pin, the loop that adds pending pins
adds none and writes nothing. -/
theorem addNewPins_noop (fps : List String) (act : Nat → Bool) (now : Nat) (l : Locals) :
    ∀ (tacks : List Tack) (t : Nat) (store : PinStore) (acc : List Pin) (mc : Bool),
      (∀ i, i < tacks.length → act (t + i) = true → l.tackMatchesPin.get (t + i) = .ok true) →
      addNewPins fps act now l tacks t store acc mc = .ok (store, acc, mc) := by
  intro tacks
  induction tacks with
  | nil => intro t store acc mc _; rfl
  | cons tack rest ih =>
    intro t store acc mc hall
    have hrest := ih (t + 1) store acc mc (fun i hi ha => by
      have := hall (i + 1) (by simpa using hi) (by rwa [show t + (i + 1) = t + 1 + i by omega])
      rwa [show t + (i + 1) = t + 1 + i by omega] at this)
    unfold addNewPins
    by_cases ha : act t = true
    · have := hall 0 (by simp) (by simpa using ha)
      rw [Nat.add_zero] at this
      rw [if_pos ha, this]
      simp only [Bool.not_true, Bool.false_eq_true, if_false]
      exact hrest
    · rw [if_neg ha]
      exact hrest

/-- A recorded minimum generation after the loop that adds pending pins is the one
before the loop or the `MinGeneration` of a presented tack with that fingerprint. -/
theorem addNewPins_floors (fps : List String) (act : Nat → Bool) (now : Nat) (l : Locals) :
    ∀ (tacks : List Tack) (t : Nat) (store : PinStore) (acc : List Pin) (mc : Bool)
      (store1 : PinStore) (np : List Pin) (mc1 : Bool),
      addNewPins fps act now l tacks t store acc mc = .ok (store1, np, mc1) →
      ∀ k, store1.GetMinGeneration k = store.GetMinGeneration k ∨
        ∃ i tack, tacks[i]? = some tack ∧ fps[t + i]? = some k ∧
          store1.GetMinGeneration k = some tack.MinGeneration := by
  intro tacks
  induction tacks with
  | nil =>
    intro t store acc mc store1 np mc1 h k
    simp only [addNewPins, Except.ok.injEq, Prod.mk.injEq] at h
    rw [h.1]; exact Or.inl rfl
  | cons tack rest ih =>
    intro t store acc mc store1 np mc1 h k
    have hshift : (∃ i tk, rest[i]? = some tk ∧ fps[t + 1 + i]? = some k ∧
          store1.GetMinGeneration k = some tk.MinGeneration) →
        ∃ i tk, (tack :: rest)[i]? = some tk ∧ fps[t + i]? = some k ∧
          store1.GetMinGeneration k = some tk.MinGeneration := by
      rintro ⟨i, tk, h1, h2, h3⟩
      exact ⟨i + 1, tk, by simpa using h1, by rwa [show t + (i + 1) = t + 1 + i by omega], h3⟩
    rcases addNewPins_cons _ _ _ _ _ _ _ _ _ _ _ h with ⟨h, _⟩ | ⟨_, _, _, fp, hfp, h⟩
    · rcases ih _ _ _ _ _ _ _ h k with e | e
      · exact Or.inl e
      · exact Or.inr (hshift e)
    · rcases ih _ _ _ _ _ _ _ h k with e | e
      · by_cases hk : k = fp
        · subst hk
          exact Or.inr ⟨0, tack, by simp, by simpa using hfp, by rw [e]; simp⟩
        · exact Or.inl (by rw [e]; simp [hk])
      · exact Or.inr (hshift e)

/-- In a list without duplicates an entry stands at one position only. -/
theorem nodup_index_unique (fps : List String) (hnd : fps.Nodup) (j k : Nat) (x : String)
    (hj : fps[j]? = some x) (hk : fps[k]? = some x) : j = k := by
  have hlt := (List.getElem?_eq_some_iff.mp hj).1
  exact List.getElem?_inj hlt hnd (hj.trans hk.symm)

/-- An active tack not marked as matching a pin gets its pending pin. -/
theorem addNewPins_mem (fps : List String) (act : Nat → Bool) (now : Nat) (l : Locals) :
    ∀ (tacks : List Tack) (t : Nat) (store : PinStore) (acc : List Pin) (mc : Bool)
      (store1 : PinStore) (np : List Pin) (mc1 : Bool),
      addNewPins fps act now l tacks t store acc mc = .ok (store1, np, mc1) →
      ∀ i fp, i < tacks.length → act (t + i) = true →
        l.tackMatchesPin.get (t + i) = .ok false → fps[t + i]? = some fp →
        (⟨now, 0, fp⟩ : Pin) ∈ np := by
  intro tacks
  induction tacks with
  | nil => intro t store acc mc store1 np mc1 _ i fp hi; simp at hi
  | cons tack rest ih =>
    intro t store acc mc store1 np mc1 h i fp hi ha hm hfp
    cases i with
    | zero =>
      rw [Nat.add_zero] at ha hm hfp
      rcases addNewPins_cons _ _ _ _ _ _ _ _ _ _ _ h with ⟨_, h0 | h0⟩ | ⟨_, _, _, fp1, hfp1, h⟩
      · rw [ha] at h0; cases h0
      · rw [hm] at h0; cases h0
      · rw [hfp] at hfp1
        simp only [Option.some.injEq] at hfp1
        subst hfp1
        exact (addNewPins_acc _ _ _ _ _ _ _ _ _ _ _ _ h).1 _ (by simp)
    | succ k =>
      rw [show t + (k + 1) = t + 1 + k by omega] at ha hm hfp
      rcases addNewPins_cons _ _ _ _ _ _ _ _ _ _ _ h with ⟨h, _⟩ | ⟨_, _, _, _, _, h⟩
      · exact ih _ _ _ _ _ _ _ h k fp (by simpa using hi) ha hm hfp
      · exact ih _ _ _ _ _ _ _ h k fp (by simpa using hi) ha hm hfp

/-- A recorded minimum generation after pin activation is the one before it or the
`MinGeneration` of a presented tack with that fingerprint. -/
theorem activatePins_floors (store : PinStore) (tackExt : TackExtension) (name : String)
    (now : Nat) (l : Locals) (store2 : PinStore)
    (h : activatePins store tackExt name now l = .ok store2) (k : String) :
    store2.GetMinGeneration k = store.GetMinGeneration k ∨
      ∃ (i : Nat) (tack : Tack), tackExt.Tacks[i]? = some tack ∧
        tackExt.GetKeyFingerprints[i]? = some k ∧
        store2.GetMinGeneration k = some tack.MinGeneration := by
  unfold activatePins at h
  by_cases hact : store.GetPinActivation = true
  · rw [if_pos hact] at h
    split at h
    · cases h
    · rename_i np mc hrb
      split at h
      · cases h
      · rename_i store1 np1 mc1 han
        have hfl := addNewPins_floors _ _ _ _ _ _ _ _ _ _ _ _ han k
        simp only [Nat.zero_add] at hfl
        have hsame : store2.GetMinGeneration k = store1.GetMinGeneration k := by
          split_ifs at h
          · simp only [Except.ok.injEq] at h
            rw [← h]; rfl
          · simp only [Except.ok.injEq] at h
            rw [← h]
        rw [hsame]
        exact hfl
  · rw [if_neg hact] at h
    simp only [Except.ok.injEq] at h
    subst h
    exact Or.inl rfl

/-- Pin activation run again on the store it left, with the locals the status loop
computes on that store, changes nothing: every pin of the new pair is matched and has
the end time the rule gives it, and every active tack has its pin. -/
theorem activatePins_again (s1 : PinStore) (tackExt : TackExtension) (name : String)
    (now : Nat) (l : Locals) (store1 : PinStore)
    (htacks : tackExt.Tacks.length ≤ 2)
    (halign : tackExt.GetKeyFingerprints.length = tackExt.Tacks.length)
    (hnd : tackExt.GetKeyFingerprints.Nodup)
    (hds : determineStatus tackExt.GetKeyFingerprints tackExt.IsActive tackExt.Tacks now
      (s1.GetPinPair name) 0 Locals.init = .ok (some l))
    (hap : activatePins s1 tackExt name now l = .ok store1) :
    ∃ l2, determineStatus tackExt.GetKeyFingerprints tackExt.IsActive tackExt.Tacks now
        (store1.GetPinPair name) 0 Locals.init = .ok (some l2) ∧
      activatePins store1 tackExt name now l2 = .ok store1 := by
  by_cases hact : s1.GetPinActivation = true
  swap
  · have hoff : s1.GetPinActivation = false := by simpa using hact
    have e := (activatePins_spec _ _ _ _ _ _ hap).1 hoff
    subst e
    exact ⟨l, hds, activatePins_off _ _ _ _ _ hoff⟩
  have hact1 : store1.GetPinActivation = true := by
    have := (activatePins_spec _ _ _ _ _ _ hap).2.1
    simpa [PinStore.GetPinActivation, this] using hact
  have F1 := determineStatus_flags _ _ _ _ _ _ _ _ FreshFrom_init hds
  have F2inv := determineStatus_tack_flag_inv _ _ _ _ _ _ _ _ hds
  have hap0 := hap
  unfold activatePins at hap
  rw [if_pos hact] at hap
  split at hap
  · cases hap
  rename_i np mc hrb
  split at hap
  · cases hap
  rename_i s2 np1 mc1 han
  obtain ⟨a1, a2, a3⟩ := rebuildPins_acc _ _ _ _ _ _ _ _ hrb
  obtain ⟨b1, b2, b3, b4, _⟩ := addNewPins_acc _ _ _ _ _ _ _ _ _ _ _ _ han
  obtain ⟨K, hK, _, hKk⟩ := rebuildPins_shape _ _ _ _ _ _ _ _ hrb
  obtain ⟨L, hL, _, hLk⟩ := addNewPins_shape _ _ _ _ _ _ _ _ _ _ _ _ han
  rw [List.nil_append] at hK
  -- the pair after the first call is the list the two loops collected
  have hpair : store1.GetPinPair name = np1 := by
    cases mc1 with
    | true =>
      simp only [if_true, Except.ok.injEq] at hap
      rw [← hap]
      simp [PinStore.GetPinPair, PinStore.SetPinPair]
    | false =>
      simp only [Bool.false_eq_true, if_false, Except.ok.injEq] at hap
      rw [← hap]
      obtain ⟨c1, c2⟩ := b3 rfl
      obtain ⟨_, c3⟩ := a3 c1
      rw [c2, c3, List.nil_append]
      simp [PinStore.GetPinPair, b4]
  have hlen : np1.length ≤ 2 := b2 (a2 (by simp))
  -- every pin of the new pair is matched, and has the end time the rule gives it
  have hq : ∀ q ∈ np1, (∃ j, j < tackExt.Tacks.length ∧
        tackExt.GetKeyFingerprints[j]? = some q.fingerprint) ∧
      ∀ j, j < tackExt.Tacks.length → tackExt.GetKeyFingerprints[j]? = some q.fingerprint →
        newEndTime now q (tackExt.IsActive j) = q.endTime := by
    intro q hqm
    rw [hL, List.mem_append] at hqm
    rcases hqm with hqm | hqm
    · rw [hK] at hqm
      obtain ⟨i, pin, b, hi, hm, hb, rfl⟩ := hKk q hqm
      rw [Nat.zero_add] at hm hb
      obtain ⟨f1, f2⟩ := F1 i pin hi
      rw [Nat.zero_add] at f1 f2
      refine ⟨f1.mp hm, fun j hj hfj => ?_⟩
      have hbj := f2 j hj hfj (fun k _ hk => nodup_index_unique _ hnd k j _ hk hfj)
      rw [hb] at hbj
      simp only [Except.ok.injEq] at hbj
      rw [← hbj]
      exact newEndTime_again now pin b
    · obtain ⟨i, hi, _, _, hfp, hqe⟩ := hLk q hqm
      rw [Nat.zero_add] at hfp
      refine ⟨⟨i, hi, hfp⟩, fun j _ _ => ?_⟩
      have e1 : q.initialTime = now := congrArg Pin.initialTime hqe
      have e2 : q.endTime = 0 := congrArg Pin.endTime hqe
      simp [newEndTime, e1, e2]
  -- every active tack has its pin in the new pair
  have hc : ∀ j, j < tackExt.Tacks.length → tackExt.IsActive j = true →
      ∃ q ∈ np1, tackExt.GetKeyFingerprints[j]? = some q.fingerprint := by
    intro j hj haj
    obtain ⟨v, hv⟩ := Flags.get_ok l.tackMatchesPin (by omega : j < 2)
    have hfj : ∃ fp, tackExt.GetKeyFingerprints[j]? = some fp :=
      ⟨_, List.getElem?_eq_getElem (by omega)⟩
    obtain ⟨fp, hfj⟩ := hfj
    cases v with
    | true =>
      rcases F2inv j hv with h0 | ⟨pin, hpin, _, hfp⟩
      · simp [Locals.init, Flags.zero] at h0
        match j, h0 with
        | 0, h0 => simp [Flags.get] at h0
        | 1, h0 => simp [Flags.get] at h0
        | _ + 2, h0 => simp [Flags.get] at h0
      · obtain ⟨i, hi⟩ := List.mem_iff_getElem?.mp hpin
        obtain ⟨f1, _⟩ := F1 i pin hi
        rw [Nat.zero_add] at f1
        have hm := f1.mpr ⟨j, hj, hfp⟩
        obtain ⟨b, hb⟩ := Flags.get_ok l.pinMatchesActiveTack (Flags.lt_of_get hm)
        have hmem := rebuildPins_mem _ _ _ _ _ _ _ _ hrb i pin b hi (by simpa using hm)
          (by simpa using hb)
        exact ⟨_, b1 _ hmem, hfp⟩
    | false =>
      have hmem := addNewPins_mem _ _ _ _ _ _ _ _ _ _ _ _ han j fp hj (by simpa using haj)
        (by simpa using hv) (by simpa using hfj)
      exact ⟨_, hmem, hfj⟩
  -- the status loop on the new pair runs to its end
  obtain ⟨r2, hds2⟩ := determineStatus_ok tackExt.GetKeyFingerprints tackExt.IsActive
    tackExt.Tacks now htacks (by omega) np1 0 Locals.init (by omega)
  cases r2 with
  | none =>
    obtain ⟨q, hqm, _, hno⟩ := determineStatus_rejected _ _ _ _ _ _ _ FreshFrom_init hds2
    exact absurd (hq q hqm).1 hno
  | some l2 =>
    have G1 := determineStatus_flags _ _ _ _ _ _ _ _ FreshFrom_init hds2
    have G2 := (determineStatus_tack_flag _ _ _ _ _ _ _ _ hds2).2
    have hrb2 : rebuildPins now l2 np1 0 [] false = .ok (np1, false) := by
      have := rebuildPins_noop now l2 np1 0 [] (by simpa using hlen) (fun i q hi => by
        obtain ⟨g1, g2⟩ := G1 i q hi
        obtain ⟨⟨j, hj, hfj⟩, hend⟩ := hq q (List.mem_iff_getElem?.mpr ⟨i, hi⟩)
        exact ⟨g1.mpr ⟨j, hj, hfj⟩, tackExt.IsActive j,
          g2 j hj hfj (fun k _ hk => nodup_index_unique _ hnd k j _ hk hfj), hend j hj hfj⟩)
      simpa using this
    have han2 : addNewPins tackExt.GetKeyFingerprints tackExt.IsActive now l2 tackExt.Tacks 0
        store1 np1 false = .ok (store1, np1, false) :=
      addNewPins_noop _ _ _ _ _ _ _ _ _ (fun i hi ha => by
        rw [Nat.zero_add] at ha ⊢
        obtain ⟨q, hqm, hfq⟩ := hc i hi ha
        exact G2 q hqm i hi hfq)
    refine ⟨l2, by rw [hpair]; exact hds2, ?_⟩
    unfold activatePins
    rw [if_pos hact1, hpair, hrb2]
    simp only []
    rw [han2]
    simp

/-- A call of `ProcessStore` that returned, made again with the same arguments on the
store it left, returns and leaves that store as it is. -/
theorem ProcessStore_again (store : PinStore) (tackExt : TackExtension) (name : String)
    (now : Nat) (st : Status) (err : Option Error) (store1 : PinStore)
    (htacks : tackExt.Tacks.length ≤ 2)
    (halign : tackExt.GetKeyFingerprints.length = tackExt.Tacks.length)
    (hnd : tackExt.GetKeyFingerprints.Nodup)
    (h : ProcessStore store tackExt name now = .ok (st, err, store1)) :
    ∃ st2 err2, ProcessStore store1 tackExt name now = .ok (st2, err2, store1) := by
  obtain ⟨s1, r, hcg, hc⟩ := ProcessStore_cases _ _ _ _ _ _ _ h
  rcases hc with hc | hc | hc
  · obtain ⟨hr, _, _, hs⟩ := hc
    subst hr
    subst hs
    exact ⟨_, _, ProcessStore_of_revoked _ _ _ _ _ (checkGenerations_revoked_again _ _ _ _ _ hcg)⟩
  · obtain ⟨hr, _, _, hs, hds⟩ := hc
    subst hr
    subst hs
    obtain ⟨r2, hcg2⟩ := checkGenerations_saturated tackExt.GetKeyFingerprints tackExt.Tacks 0
      store1 (by omega) (checkGenerations_saturates _ _ _ _ _ hcg)
    cases r2 with
    | true => exact ⟨_, _, ProcessStore_of_revoked _ _ _ _ _ hcg2⟩
    | false => exact ⟨_, _, ProcessStore_of_rejected _ _ _ _ _ hcg2 hds⟩
  · obtain ⟨hr, _, l, hds, hap, _⟩ := hc
    subst hr
    have hsat1 := checkGenerations_saturates _ _ _ _ _ hcg
    have hsat : ∀ i tack fp m, tackExt.Tacks[i]? = some tack →
        tackExt.GetKeyFingerprints[0 + i]? = some fp →
        store1.GetMinGeneration fp = some m → tack.MinGeneration ≤ m := by
      intro i tack fp m hi hfp hm
      rcases activatePins_floors _ _ _ _ _ _ hap fp with e | ⟨k, tk, hk, hfk, e⟩
      · rw [e] at hm
        exact hsat1 i tack fp m hi hfp hm
      · rw [Nat.zero_add] at hfp
        have hik := nodup_index_unique _ hnd i k fp hfp hfk
        subst hik
        rw [hi] at hk
        simp only [Option.some.injEq] at hk
        subst hk
        rw [e] at hm
        simp only [Option.some.injEq] at hm
        omega
    obtain ⟨r2, hcg2⟩ := checkGenerations_saturated tackExt.GetKeyFingerprints tackExt.Tacks 0
      store1 (by omega) hsat
    cases r2 with
    | true => exact ⟨_, _, ProcessStore_of_revoked _ _ _ _ _ hcg2⟩
    | false =>
      obtain ⟨l2, hds2, hap2⟩ := activatePins_again s1 tackExt name now l store1 htacks halign
        hnd hds hap
      exact ⟨_, _, ProcessStore_of_completed _ _ _ _ _ _ _ hcg2 hds2 hap2⟩

/-! ## Theorems: the claims -/

/-- Claim C1 (rejection precedence). For a store whose pin pair for the hostname has at
most 2 pins and a tack set of at most 2 tacks with one fingerprint per tack, in which the
first loop finds no revoked tack, `ProcessStore` returns `(REJECTED, nil)` if and only if
some stored pin has `endTime > currentTime` and a fingerprint that no presented tack
carries. Nothing is assumed about the other pin of the pair, the activation flag or
`IsActive`. -/
theorem rejection_precedence (store : PinStore) (tackExt : TackExtension) (name : String)
    (currentTime : Nat)
    (hpins : (store.GetPinPair name).length ≤ 2) (htacks : tackExt.Tacks.length ≤ 2)
    (halign : tackExt.GetKeyFingerprints.length = tackExt.Tacks.length)
    (hrev : revokedInPhase1 store tackExt = false) :
    (∃ store1, ProcessStore store tackExt name currentTime = .ok (Status.REJECTED, none, store1))
      ↔ ∃ pin ∈ store.GetPinPair name,
          pin.endTime > currentTime ∧ pin.fingerprint ∉ tackExt.GetKeyFingerprints := by
  obtain ⟨store1, hcg, hpp, _⟩ := checkGenerations_of_not_revoked store tackExt halign hrev
  have hpair : store1.GetPinPair name = store.GetPinPair name := by
    simp [PinStore.GetPinPair, hpp]
  constructor
  · rintro ⟨store2, h⟩
    obtain ⟨s1, r, hcg1, hc | hc | hc⟩ := ProcessStore_cases _ _ _ _ _ _ _ h
    · cases hc.2.1
    · rw [hcg] at hcg1
      simp only [Except.ok.injEq, Prod.mk.injEq] at hcg1
      rw [← hcg1.1, hpair] at hc
      obtain ⟨pin, hmem, hgt, hno⟩ := determineStatus_rejected _ _ _ _ _ _ _ FreshFrom_init
        hc.2.2.2.2
      exact ⟨pin, hmem, hgt, fun hin => hno ((presented_iff_mem _ _ halign _).mpr hin)⟩
    · obtain ⟨_, _, l, hds, _, hst⟩ := hc
      rcases determineStatus_status _ _ _ _ _ _ _ _ hds with e | e
      · rw [e] at hst; cases hst
      · rw [e] at hst; cases hst
  · rintro ⟨pin, hmem, hgt, hno⟩
    obtain ⟨r, hds⟩ := determineStatus_ok tackExt.GetKeyFingerprints tackExt.IsActive
      tackExt.Tacks currentTime htacks (by omega) (store1.GetPinPair name) 0 Locals.init
      (by rw [hpair]; omega)
    cases r with
    | none => exact ⟨store1, ProcessStore_of_rejected _ _ _ _ _ hcg hds⟩
    | some l =>
      rw [hpair] at hds
      have := (determineStatus_completed _ _ _ _ _ _ _ _ FreshFrom_init hds).1 pin hmem hgt
      exact absurd ((presented_iff_mem _ _ halign _).mp this) hno

/-- Claim C1 at a pair whose first pin is active and matched and whose second pin is
active and unmatched. -/
theorem rejection_precedence_witness :
    (∃ store1, ProcessStore ⟨fun _ => none, fun _ => [⟨0, 50, "F"⟩, ⟨0, 60, "G"⟩], true⟩
        ⟨[mkTack 1 0], ["F"], fun _ => true⟩ "h" 10 = .ok (Status.REJECTED, none, store1))
      ↔ ∃ pin ∈ ([⟨0, 50, "F"⟩, ⟨0, 60, "G"⟩] : List Pin),
          pin.endTime > 10 ∧ pin.fingerprint ∉ ["F"] :=
  rejection_precedence ⟨fun _ => none, fun _ => [⟨0, 50, "F"⟩, ⟨0, 60, "G"⟩], true⟩
    ⟨[mkTack 1 0], ["F"], fun _ => true⟩ "h" 10 (by decide) (by decide) rfl rfl

/-- Claim C2 fails as stated. Two active pins with the same fingerprint `"F"`, the tacks
`"F"` and `"G"` both active, pin activation on: every hypothesis of the claim holds and
every active pin is matched, yet the call stops at
`panic("ASSERT: only 2 pins allowed in pair")` and does not return `ACCEPTED`. -/
theorem acceptance_counterexample :
    ((storeWithPins [⟨0, 50, "F"⟩, ⟨5, 60, "F"⟩]).GetPinPair "h").length ≤ 2 ∧
    tacksFG.Tacks.length ≤ 2 ∧
    tacksFG.GetKeyFingerprints.length = tacksFG.Tacks.length ∧
    revokedInPhase1 (storeWithPins [⟨0, 50, "F"⟩, ⟨5, 60, "F"⟩]) tacksFG = false ∧
    (∃ pin ∈ (storeWithPins [⟨0, 50, "F"⟩, ⟨5, 60, "F"⟩]).GetPinPair "h", pin.endTime > 10) ∧
    (∀ pin ∈ (storeWithPins [⟨0, 50, "F"⟩, ⟨5, 60, "F"⟩]).GetPinPair "h", pin.endTime > 10 →
      pin.fingerprint ∈ tacksFG.GetKeyFingerprints) ∧
    ProcessStore (storeWithPins [⟨0, 50, "F"⟩, ⟨5, 60, "F"⟩]) tacksFG "h" 10
      = .error Panic.assertTwoPins ∧
    ¬ ∃ store1, ProcessStore (storeWithPins [⟨0, 50, "F"⟩, ⟨5, 60, "F"⟩]) tacksFG "h" 10
      = .ok (Status.ACCEPTED, none, store1) := by
  have h : ProcessStore (storeWithPins [⟨0, 50, "F"⟩, ⟨5, 60, "F"⟩]) tacksFG "h" 10
      = .error Panic.assertTwoPins := rfl
  refine ⟨by decide, by decide, rfl, rfl, by decide, by decide, h, ?_⟩
  rintro ⟨store1, h1⟩
  rw [h] at h1
  cases h1

/-- Claim C2, amended. Under the hypotheses of the claim, `ProcessStore` returns
`(ACCEPTED, nil)` if and only if some stored pin has `endTime > currentTime`, every such
pin has the fingerprint of a presented tack, and the call returns at all; when no stored
pin has `endTime > currentTime` and the call returns, it returns `(UNPINNED, nil)`; and
the call does return when pin activation is off or the stored pins have pairwise distinct
fingerprints. -/
theorem acceptance_when_returning (store : PinStore) (tackExt : TackExtension) (name : String)
    (currentTime : Nat)
    (hpins : (store.GetPinPair name).length ≤ 2) (htacks : tackExt.Tacks.length ≤ 2)
    (halign : tackExt.GetKeyFingerprints.length = tackExt.Tacks.length)
    (hrev : revokedInPhase1 store tackExt = false) :
    ((∃ store1, ProcessStore store tackExt name currentTime
        = .ok (Status.ACCEPTED, none, store1)) ↔
      ((∃ pin ∈ store.GetPinPair name, pin.endTime > currentTime) ∧
       (∀ pin ∈ store.GetPinPair name, pin.endTime > currentTime →
          pin.fingerprint ∈ tackExt.GetKeyFingerprints) ∧
       ∃ st store1, ProcessStore store tackExt name currentTime = .ok (st, none, store1))) ∧
    ((¬ ∃ pin ∈ store.GetPinPair name, pin.endTime > currentTime) →
      (∃ st store1, ProcessStore store tackExt name currentTime = .ok (st, none, store1)) →
      ∃ store1, ProcessStore store tackExt name currentTime
        = .ok (Status.UNPINNED, none, store1)) ∧
    ((store.GetPinActivation = false ∨ ((store.GetPinPair name).map Pin.fingerprint).Nodup) →
      ∃ st store1, ProcessStore store tackExt name currentTime = .ok (st, none, store1)) := by
  have key : ∀ st store2, ProcessStore store tackExt name currentTime = .ok (st, none, store2) →
      (st = Status.REJECTED ∧ ∃ pin ∈ store.GetPinPair name, pin.endTime > currentTime ∧
        pin.fingerprint ∉ tackExt.GetKeyFingerprints) ∨
      ((∀ pin ∈ store.GetPinPair name, pin.endTime > currentTime →
          pin.fingerprint ∈ tackExt.GetKeyFingerprints) ∧
       ((∃ pin ∈ store.GetPinPair name, pin.endTime > currentTime) → st = Status.ACCEPTED) ∧
       ((¬ ∃ pin ∈ store.GetPinPair name, pin.endTime > currentTime) →
          st = Status.UNPINNED)) := by
    intro st store2 h
    obtain ⟨s1, r, hcg, hc⟩ := ProcessStore_cases _ _ _ _ _ _ _ h
    have hpair : s1.GetPinPair name = store.GetPinPair name := by
      simp [PinStore.GetPinPair, (checkGenerations_frame _ _ _ _ _ _ hcg).1]
    rcases hc with hc | hc | hc
    · cases hc.2.2.1
    · rw [hpair] at hc
      obtain ⟨pin, hmem, hgt, hno⟩ := determineStatus_rejected _ _ _ _ _ _ _ FreshFrom_init
        hc.2.2.2.2
      exact Or.inl ⟨hc.2.1, pin, hmem, hgt,
        fun hin => hno ((presented_iff_mem _ _ halign _).mpr hin)⟩
    · obtain ⟨_, _, l, hds, _, hst⟩ := hc
      rw [hpair] at hds
      obtain ⟨c1, c2, c3⟩ := determineStatus_completed _ _ _ _ _ _ _ _ FreshFrom_init hds
      refine Or.inr ⟨fun pin hmem hgt => (presented_iff_mem _ _ halign _).mp (c1 pin hmem hgt),
        fun hex => hst.trans (c2 hex), fun hno => hst.trans (c3 ?_)⟩
      intro pin hmem hgt
      exact hno ⟨pin, hmem, hgt⟩
  refine ⟨⟨?_, ?_⟩, ?_, ?_⟩
  · rintro ⟨store1, h⟩
    rcases key _ _ h with ⟨hst, _⟩ | ⟨k1, _, k3⟩
    · cases hst
    · refine ⟨?_, k1, _, _, h⟩
      by_contra hno
      cases k3 hno
  · rintro ⟨hex, hall, st, store1, h⟩
    rcases key _ _ h with ⟨_, pin, hmem, hgt, hno⟩ | ⟨_, k2, _⟩
    · exact absurd (hall pin hmem hgt) hno
    · rw [k2 hex] at h
      exact ⟨store1, h⟩
  · rintro hno ⟨st, store1, h⟩
    rcases key _ _ h with ⟨_, pin, hmem, hgt, _⟩ | ⟨_, _, k3⟩
    · exact absurd ⟨pin, hmem, hgt⟩ hno
    · rw [k3 hno] at h
      exact ⟨store1, h⟩
  · intro hsafe
    exact ProcessStore_returns store tackExt name currentTime hpins htacks halign hrev hsafe

/-- Claim C2, amended, at two active pins `"F"` and `"G"` matched by the tacks `"F"` and
`"G"`. -/
theorem acceptance_when_returning_witness :
    ((∃ store1, ProcessStore (storeWithPins [⟨0, 50, "F"⟩, ⟨5, 60, "G"⟩]) tacksFG "h" 10
        = .ok (Status.ACCEPTED, none, store1)) ↔
      ((∃ pin ∈ (storeWithPins [⟨0, 50, "F"⟩, ⟨5, 60, "G"⟩]).GetPinPair "h", pin.endTime > 10) ∧
       (∀ pin ∈ (storeWithPins [⟨0, 50, "F"⟩, ⟨5, 60, "G"⟩]).GetPinPair "h", pin.endTime > 10 →
          pin.fingerprint ∈ tacksFG.GetKeyFingerprints) ∧
       ∃ st store1, ProcessStore (storeWithPins [⟨0, 50, "F"⟩, ⟨5, 60, "G"⟩]) tacksFG "h" 10
        = .ok (st, none, store1))) ∧
    (∃ st store1, ProcessStore (storeWithPins [⟨0, 50, "F"⟩, ⟨5, 60, "G"⟩]) tacksFG "h" 10
        = .ok (st, none, store1)) :=
  ⟨(acceptance_when_returning (storeWithPins [⟨0, 50, "F"⟩, ⟨5, 60, "G"⟩]) tacksFG "h" 10
      (by decide) (by decide) rfl rfl).1,
   (acceptance_when_returning (storeWithPins [⟨0, 50, "F"⟩, ⟨5, 60, "G"⟩]) tacksFG "h" 10
      (by decide) (by decide) rfl rfl).2.2 (Or.inr (by decide))⟩

/-- Claim C3 (revocation). If at the start of the call the store records a minimum
generation `m` for the fingerprint of the tack at some position `i` and that tack has
`Generation < m`, then `ProcessStore` returns `RevokedError` with status `UNPINNED`,
whatever the other tacks are and wherever the tack stands. -/
theorem revoked_tack_returns_RevokedError (store : PinStore) (tackExt : TackExtension)
    (name : String) (currentTime : Nat) (i : Nat) (tack : Tack) (fp : String) (m : Nat)
    (hi : tackExt.Tacks[i]? = some tack) (hfp : tackExt.GetKeyFingerprints[i]? = some fp)
    (hm : store.GetMinGeneration fp = some m) (hlt : tack.Generation < m) :
    ∃ store1, ProcessStore store tackExt name currentTime
      = .ok (Status.UNPINNED, some Error.RevokedError, store1) := by
  obtain ⟨store1, h⟩ := checkGenerations_revoked tackExt.GetKeyFingerprints tackExt.Tacks 0
    store i tack fp m hi (by simpa using hfp) hm hlt
  refine ⟨store1, ?_⟩
  unfold ProcessStore
  rw [h]
  rfl

/-- Claim C3 at the example of the specification: recorded floor 5 for `"F"`, and a tack
of generation 4 with fingerprint `"F"` presented after another tack. -/
theorem revoked_witness :
    ∃ store1, ProcessStore ⟨fun k => if k = "F" then some 5 else none, fun _ => [], true⟩
      ⟨[mkTack 9 9, mkTack 4 0], ["G", "F"], fun _ => true⟩ "h" 10
      = .ok (Status.UNPINNED, some Error.RevokedError, store1) :=
  revoked_tack_returns_RevokedError _ _ "h" 10 1 (mkTack 4 0) "F" 5 rfl rfl rfl (by decide)

/-- Claim C4 fails on the code. The store records minimum generation 5 for `"F"` and has
no pin for the hostname; an active tack with fingerprint `"F"`, generation 7 and
`MinGeneration` 3 passes the generation check, matches no pin, and the loop that adds
pending pins calls `SetMinGeneration("F", 3)` without comparing: after the call the
recorded minimum generation of `"F"` is 3. -/
theorem floor_lowered :
    PinStore.GetMinGeneration ⟨fun k => if k = "F" then some 5 else none, fun _ => [], true⟩ "F"
      = some 5 ∧
    ∃ store1, ProcessStore ⟨fun k => if k = "F" then some 5 else none, fun _ => [], true⟩
      ⟨[mkTack 7 3], ["F"], fun _ => true⟩ "h" 10 = .ok (Status.UNPINNED, none, store1)
      ∧ store1.GetMinGeneration "F" = some 3 :=
  ⟨rfl, _, rfl, rfl⟩

/-- Claim C5 (round trip). For every buffer `b` of exactly 166 bytes,
`NewTackFromBytes b` succeeds and `Serialize` of the resulting tack is `b`. -/
theorem serialize_parse_roundtrip (b : List Nat) (hlen : b.length = 166) (hb : IsBytes b) :
    ∃ t, NewTackFromBytes b = .ok t ∧ t.Serialize = b := by
  refine ⟨_, NewTackFromBytes_ok b hlen, ?_⟩
  simp only [Tack.Serialize, Tack.serializePreSig]
  rw [expiration_eq_sum _ _ _ _ (byteAt_lt b hb 66) (byteAt_lt b hb 67) (byteAt_lt b hb 68)
    (byteAt_lt b hb 69),
    bigEndian32_sum _ _ _ _ (byteAt_lt b hb 66) (byteAt_lt b hb 67) (byteAt_lt b hb 68)
    (byteAt_lt b hb 69)]
  exact buffer_split b hlen

/-- Claim C5 at the buffer of 166 bytes equal to 7. -/
theorem serialize_parse_roundtrip_witness :
    ∃ t, NewTackFromBytes (List.replicate 166 7) = .ok t ∧ t.Serialize = List.replicate 166 7 :=
  serialize_parse_roundtrip (List.replicate 166 7) (by simp) (by
    intro x hx
    rw [List.eq_of_mem_replicate hx]
    decide)

/-- Claim C6 (size law). `NewTackFromBytes b` returns an error exactly when the length of
`b` is not 166, and a tack exactly when it is 166, whatever the content of `b`. -/
theorem parse_fails_iff_wrong_size (b : List Nat) :
    ((∃ e, NewTackFromBytes b = .error e) ↔ b.length ≠ 166) ∧
    ((∃ t, NewTackFromBytes b = .ok t) ↔ b.length = 166) := by
  by_cases h : b.length = 166
  · simp [NewTackFromBytes_ok b h, h]
  · simp [NewTackFromBytes, TACK_LENGTH, h]

/-- Claim C7 (wire layout). For every buffer `b` of 166 bytes the tack
`NewTackFromBytes b` returns has `PublicKey = b[0:64]`, `MinGeneration = b[64]`,
`Generation = b[65]`, `Expiration = b[66]*2^24 + b[67]*2^16 + b[68]*2^8 + b[69]`,
`TargetHash = b[70:102]` and `Signature = b[102:166]`. -/
theorem parse_wire_layout (b : List Nat) (hlen : b.length = 166) (hb : IsBytes b) :
    ∃ t, NewTackFromBytes b = .ok t ∧
      t.PublicKey = b.take 64 ∧
      b[64]? = some t.MinGeneration ∧
      b[65]? = some t.Generation ∧
      (∃ e0 e1 e2 e3, b[66]? = some e0 ∧ b[67]? = some e1 ∧ b[68]? = some e2 ∧
        b[69]? = some e3 ∧ t.Expiration = e0 * 2 ^ 24 + e1 * 2 ^ 16 + e2 * 2 ^ 8 + e3) ∧
      t.TargetHash = (b.drop 70).take 32 ∧
      t.Signature = (b.drop 102).take 64 := by
  refine ⟨_, NewTackFromBytes_ok b hlen, ?_, ?_, ?_, ?_, ?_, ?_⟩
  · simp [slice, PUBKEY_LENGTH]
  · simp only []
    rw [byteAt_eq b 64 (by omega), List.getElem?_eq_getElem]
  · simp only []
    rw [byteAt_eq b 65 (by omega), List.getElem?_eq_getElem]
  · refine ⟨byteAt b 66, byteAt b 67, byteAt b 68, byteAt b 69, ?_, ?_, ?_, ?_, ?_⟩
    · rw [byteAt_eq b 66 (by omega), List.getElem?_eq_getElem]
    · rw [byteAt_eq b 67 (by omega), List.getElem?_eq_getElem]
    · rw [byteAt_eq b 68 (by omega), List.getElem?_eq_getElem]
    · rw [byteAt_eq b 69 (by omega), List.getElem?_eq_getElem]
    · exact expiration_eq_sum _ _ _ _ (byteAt_lt b hb 66) (byteAt_lt b hb 67)
        (byteAt_lt b hb 68) (byteAt_lt b hb 69)
  · simp [slice, HASH_LENGTH, List.drop_take]
  · simp [slice, SIG_LENGTH, List.drop_take]

/-- Claim C7 at the buffer `0, 1, ..., 165`. -/
theorem parse_wire_layout_witness :
    ∃ t, NewTackFromBytes (List.range 166) = .ok t ∧
      t.PublicKey = (List.range 166).take 64 ∧
      (List.range 166)[64]? = some t.MinGeneration ∧
      (List.range 166)[65]? = some t.Generation ∧
      (∃ e0 e1 e2 e3, (List.range 166)[66]? = some e0 ∧ (List.range 166)[67]? = some e1 ∧
        (List.range 166)[68]? = some e2 ∧ (List.range 166)[69]? = some e3 ∧
        t.Expiration = e0 * 2 ^ 24 + e1 * 2 ^ 16 + e2 * 2 ^ 8 + e3) ∧
      t.TargetHash = ((List.range 166).drop 70).take 32 ∧
      t.Signature = ((List.range 166).drop 102).take 64 :=
  parse_wire_layout (List.range 166) (by simp) (by
    intro x hx
    have := List.mem_range.mp hx
    omega)

/-- Claim C8 (pair cardinality). After a call of `ProcessStore` that returns, the pin
pair of every hostname is the one it was before the call or has at most 2 entries; hence
from a store in which every hostname holds at most 2 pins, every sequence of calls that
return leaves a store in which every hostname holds at most 2 pins. -/
theorem pin_pair_cardinality :
    (∀ (store : PinStore) (tackExt : TackExtension) (name : String) (currentTime : Nat)
        (st : Status) (err : Option Error) (store1 : PinStore),
        ProcessStore store tackExt name currentTime = .ok (st, err, store1) →
        ∀ k, store1.GetPinPair k = store.GetPinPair k ∨ (store1.GetPinPair k).length ≤ 2) ∧
    (∀ (calls : List Call) (store store1 : PinStore),
        (∀ k, (store.GetPinPair k).length ≤ 2) → runCalls store calls = .ok store1 →
        ∀ k, (store1.GetPinPair k).length ≤ 2) := by
  refine ⟨fun store tackExt name now st err store1 h k =>
    ProcessStore_pair_size store tackExt name now st err store1 h k, ?_⟩
  intro calls
  induction calls with
  | nil =>
    intro store store1 hinv h
    simp only [runCalls, Except.ok.injEq] at h
    subst h; exact hinv
  | cons c rest ih =>
    intro store store1 hinv h
    unfold runCalls at h
    split at h
    · cases h
    · rename_i st err store2 hps
      refine ih store2 store1 (fun k => ?_) h
      rcases ProcessStore_pair_size _ _ _ _ _ _ _ hps k with e | e
      · rw [e]; exact hinv k
      · exact e

/-- Claim C8 at one call on a stored pin, and at two calls from the empty store. -/
theorem pin_pair_cardinality_witness :
    (∃ store1, ProcessStore ⟨fun _ => none, fun _ => [⟨0, 50, "F"⟩], true⟩
        ⟨[mkTack 1 0, mkTack 1 0], ["F", "G"], fun _ => true⟩ "h" 10
          = .ok (Status.ACCEPTED, none, store1) ∧
        ((store1.GetPinPair "h" = [⟨0, 50, "F"⟩]) ∨ (store1.GetPinPair "h").length ≤ 2)) ∧
    (∃ store1, runCalls ⟨fun _ => none, fun _ => [], true⟩
        [⟨true, ⟨[mkTack 1 0, mkTack 1 0], ["F", "G"], fun _ => true⟩, "h", 10⟩,
         ⟨true, ⟨[mkTack 1 0, mkTack 1 0], ["F", "H"], fun _ => true⟩, "h", 20⟩] = .ok store1 ∧
        (store1.GetPinPair "h").length ≤ 2) :=
  ⟨⟨_, rfl, pin_pair_cardinality.1 ⟨fun _ => none, fun _ => [⟨0, 50, "F"⟩], true⟩
      ⟨[mkTack 1 0, mkTack 1 0], ["F", "G"], fun _ => true⟩ "h" 10 _ _ _ rfl "h"⟩,
   ⟨_, rfl, pin_pair_cardinality.2
      [⟨true, ⟨[mkTack 1 0, mkTack 1 0], ["F", "G"], fun _ => true⟩, "h", 10⟩,
       ⟨true, ⟨[mkTack 1 0, mkTack 1 0], ["F", "H"], fun _ => true⟩, "h", 20⟩]
      ⟨fun _ => none, fun _ => [], true⟩ _ (fun _ => Nat.zero_le 2) rfl "h"⟩⟩

/-- Claim C9 (trust-window extension with cap). In a call with pin activation on that
returns without `RevokedError` and without `REJECTED`, a stored pin whose fingerprint is
that of exactly one presented tack, that tack being active, with
`currentTime > initialTime` and `2 * currentTime + 43200 < 2^32`, is held after the call
with the same `initialTime` and fingerprint and with
`endTime = min (currentTime + (currentTime - initialTime) - 1) (currentTime + 43200)`. -/
theorem trust_window_extension (store : PinStore) (tackExt : TackExtension) (name : String)
    (currentTime : Nat) (st : Status) (store1 : PinStore) (pin : Pin) (t : Nat)
    (hact : store.GetPinActivation = true)
    (hret : ProcessStore store tackExt name currentTime = .ok (st, none, store1))
    (hst : st ≠ Status.REJECTED)
    (hpin : pin ∈ store.GetPinPair name)
    (ht : t < tackExt.Tacks.length)
    (hfp : tackExt.GetKeyFingerprints[t]? = some pin.fingerprint)
    (huniq : ∀ k, k < tackExt.Tacks.length →
      tackExt.GetKeyFingerprints[k]? = some pin.fingerprint → k = t)
    (hactive : tackExt.IsActive t = true)
    (hgt : currentTime > pin.initialTime)
    (hwrap : 2 * currentTime + 43200 < 2 ^ 32) :
    (⟨pin.initialTime,
      min (currentTime + (currentTime - pin.initialTime) - 1) (currentTime + 43200),
      pin.fingerprint⟩ : Pin) ∈ store1.GetPinPair name := by
  obtain ⟨s1, r, hcg, hc⟩ := ProcessStore_cases _ _ _ _ _ _ _ hret
  obtain ⟨hpp, hpa⟩ := checkGenerations_frame _ _ _ _ _ _ hcg
  have hpair : s1.GetPinPair name = store.GetPinPair name := by
    simp [PinStore.GetPinPair, hpp]
  rcases hc with hc | hc | hc
  · cases hc.2.2.1
  · exact absurd hc.2.1 hst
  · obtain ⟨_, _, l, hds, hap, _⟩ := hc
    obtain ⟨i, hi⟩ := List.mem_iff_getElem?.mp hpin
    rw [← hpair] at hi
    obtain ⟨f1, f2⟩ := determineStatus_flags _ _ _ _ _ _ _ _ FreshFrom_init hds i pin hi
    rw [Nat.zero_add] at f1 f2
    have hm := f1.mpr ⟨t, ht, hfp⟩
    have ha := f2 t ht hfp huniq
    rw [hactive] at ha
    have := (activatePins_spec _ _ _ _ _ _ hap).2.2.2.2
      (by simpa [PinStore.GetPinActivation, hpa] using hact) i pin true hi hm ha
    rwa [newEndTime_extended _ _ hgt hwrap] at this

/-- Claim C9 at the example of the specification: `initialTime = 0` and
`currentTime = 57600` give `endTime = 100800`. -/
theorem trust_window_extension_witness :
    ∃ store1, ProcessStore ⟨fun _ => none, fun _ => [⟨0, 20, "F"⟩], true⟩
        ⟨[mkTack 1 0], ["F"], fun _ => true⟩ "h" 57600 = .ok (Status.UNPINNED, none, store1) ∧
      (⟨0, 100800, "F"⟩ : Pin) ∈ store1.GetPinPair "h" :=
  ⟨_, rfl, trust_window_extension ⟨fun _ => none, fun _ => [⟨0, 20, "F"⟩], true⟩
    ⟨[mkTack 1 0], ["F"], fun _ => true⟩ "h" 57600 Status.UNPINNED _ ⟨0, 20, "F"⟩ 0 rfl rfl
    (by decide) (by decide) (by decide) rfl
    (fun k hk _ => by
      have : k < 1 := hk
      omega)
    rfl (by decide) (by decide)⟩

/-- Claim C10 fails as stated. Two pending pins with the same fingerprint `"F"`, the
tacks `"F"` and `"G"` both active and not revoked, pin activation on, `currentTime = 0`:
the call stops at `panic("ASSERT: only 2 pins allowed in pair")` and returns no status. -/
theorem pending_pins_counterexample :
    (∀ pin ∈ (storeWithPins [⟨5, 0, "F"⟩, ⟨7, 0, "F"⟩]).GetPinPair "h", pin.endTime = 0) ∧
    ((storeWithPins [⟨5, 0, "F"⟩, ⟨7, 0, "F"⟩]).GetPinPair "h").length ≤ 2 ∧
    revokedInPhase1 (storeWithPins [⟨5, 0, "F"⟩, ⟨7, 0, "F"⟩]) tacksFG = false ∧
    ProcessStore (storeWithPins [⟨5, 0, "F"⟩, ⟨7, 0, "F"⟩]) tacksFG "h" 0
      = .error Panic.assertTwoPins ∧
    ¬ ∃ err store1, ProcessStore (storeWithPins [⟨5, 0, "F"⟩, ⟨7, 0, "F"⟩]) tacksFG "h" 0
      = .ok (Status.UNPINNED, err, store1) := by
  have h : ProcessStore (storeWithPins [⟨5, 0, "F"⟩, ⟨7, 0, "F"⟩]) tacksFG "h" 0
      = .error Panic.assertTwoPins := rfl
  refine ⟨by decide, by decide, rfl, h, ?_⟩
  rintro ⟨err, store1, h1⟩
  rw [h] at h1
  cases h1

/-- Claim C10, amended. When every pin stored for the hostname has `endTime = 0`, every
call of `ProcessStore` that returns has status `UNPINNED`, for every `currentTime` and
every tack set; and with at most 2 pins, at most 2 tacks with one fingerprint each and no
revoked tack, the call does return `(UNPINNED, nil)` when pin activation is off or the
stored pins have pairwise distinct fingerprints. -/
theorem pending_pins_never_active (store : PinStore) (tackExt : TackExtension) (name : String)
    (currentTime : Nat)
    (hpend : ∀ pin ∈ store.GetPinPair name, pin.endTime = 0) :
    (∀ st err store1, ProcessStore store tackExt name currentTime = .ok (st, err, store1) →
      st = Status.UNPINNED) ∧
    ((store.GetPinPair name).length ≤ 2 → tackExt.Tacks.length ≤ 2 →
      tackExt.GetKeyFingerprints.length = tackExt.Tacks.length →
      revokedInPhase1 store tackExt = false →
      (store.GetPinActivation = false ∨ ((store.GetPinPair name).map Pin.fingerprint).Nodup) →
      ∃ store1, ProcessStore store tackExt name currentTime
        = .ok (Status.UNPINNED, none, store1)) := by
  have hno : ∀ pin ∈ store.GetPinPair name, ¬ pin.endTime > currentTime := by
    intro pin hmem hgt
    rw [hpend pin hmem] at hgt
    exact Nat.not_lt_zero _ hgt
  have key : ∀ st err store1, ProcessStore store tackExt name currentTime
      = .ok (st, err, store1) → st = Status.UNPINNED := by
    intro st err store1 h
    obtain ⟨s1, r, hcg, hc⟩ := ProcessStore_cases _ _ _ _ _ _ _ h
    have hpair : s1.GetPinPair name = store.GetPinPair name := by
      simp [PinStore.GetPinPair, (checkGenerations_frame _ _ _ _ _ _ hcg).1]
    rcases hc with hc | hc | hc
    · exact hc.2.1
    · rw [hpair] at hc
      obtain ⟨pin, hmem, hgt, _⟩ := determineStatus_rejected _ _ _ _ _ _ _ FreshFrom_init
        hc.2.2.2.2
      exact absurd hgt (hno pin hmem)
    · obtain ⟨_, _, l, hds, _, hst⟩ := hc
      rw [hpair] at hds
      exact hst.trans ((determineStatus_completed _ _ _ _ _ _ _ _ FreshFrom_init hds).2.2 hno)
  refine ⟨key, fun hpins htacks halign hrev hsafe => ?_⟩
  obtain ⟨st, store1, h⟩ := ProcessStore_returns store tackExt name currentTime hpins htacks
    halign hrev hsafe
  rw [key _ _ _ h] at h
  exact ⟨store1, h⟩

/-- Claim C10, amended, at two pending pins `"F"` and `"H"` and the tacks `"F"` and
`"G"`. -/
theorem pending_pins_never_active_witness :
    ∃ store1, ProcessStore (storeWithPins [⟨5, 0, "F"⟩, ⟨7, 0, "H"⟩]) tacksFG "h" 0
      = .ok (Status.UNPINNED, none, store1) :=
  (pending_pins_never_active (storeWithPins [⟨5, 0, "F"⟩, ⟨7, 0, "H"⟩]) tacksFG "h" 0
    (by decide)).2 (by decide) (by decide) rfl rfl (Or.inr (by decide))

/-- Claim C11 (first contact). From a store with no pin for the hostname and no recorded
minimum generation for the fingerprint of the tack, with pin activation on and a tack set
made of that single tack, reported active, `ProcessStore` returns `(UNPINNED, nil)`; after
the call the pin pair of the hostname is the single pending pin
`(currentTime, 0, fingerprint)` and the recorded minimum generation of the fingerprint is
the `MinGeneration` of the tack. -/
theorem first_contact (store : PinStore) (tackExt : TackExtension) (name : String)
    (currentTime : Nat) (tack : Tack) (fp : String)
    (hpins : store.GetPinPair name = [])
    (hfloor : store.GetMinGeneration fp = none)
    (hact : store.GetPinActivation = true)
    (htacks : tackExt.Tacks = [tack])
    (hfps : tackExt.GetKeyFingerprints = [fp])
    (hactive : tackExt.IsActive 0 = true) :
    ∃ store1, ProcessStore store tackExt name currentTime = .ok (Status.UNPINNED, none, store1) ∧
      store1.GetPinPair name = [⟨currentTime, 0, fp⟩] ∧
      store1.GetMinGeneration fp = some tack.MinGeneration := by
  have hcg : checkGenerations tackExt.GetKeyFingerprints tackExt.Tacks 0 store
      = .ok (store, false) := by
    rw [htacks, hfps]
    simp [checkGenerations, hfloor]
  have hds := determineStatus_no_pin tackExt.GetKeyFingerprints tackExt.IsActive tackExt.Tacks
    currentTime
  rw [← hpins] at hds
  have hap : activatePins store tackExt name currentTime Locals.init
      = .ok ((store.SetMinGeneration fp tack.MinGeneration).SetPinPair name
          [⟨currentTime, 0, fp⟩]) := by
    simp [activatePins, hact, hpins, rebuildPins, htacks, hfps, addNewPins, hactive,
      Locals.init, Flags.zero, Flags.get]
  refine ⟨_, ProcessStore_of_completed _ _ _ _ _ _ _ hcg hds hap, ?_, ?_⟩
  · simp [PinStore.GetPinPair, PinStore.SetPinPair]
  · simp [PinStore.GetMinGeneration, PinStore.SetPinPair, PinStore.SetMinGeneration]

/-- Claim C11 at the empty store and one active tack with fingerprint `"F"` and
`MinGeneration` 3. -/
theorem first_contact_witness :
    ∃ store1, ProcessStore ⟨fun _ => none, fun _ => [], true⟩
        ⟨[mkTack 7 3], ["F"], fun _ => true⟩ "h" 10 = .ok (Status.UNPINNED, none, store1) ∧
      store1.GetPinPair "h" = [⟨10, 0, "F"⟩] ∧
      store1.GetMinGeneration "F" = some (mkTack 7 3).MinGeneration :=
  first_contact ⟨fun _ => none, fun _ => [], true⟩ ⟨[mkTack 7 3], ["F"], fun _ => true⟩ "h" 10
    (mkTack 7 3) "F" rfl rfl rfl rfl rfl rfl

/-- Claim C12 fails as stated. The store holds one active pin for `"F1"`, pin activation
is on and the only tack presented is for `"F2"`: the call returns `REJECTED`, and after it
the pin for `"F1"` is still stored for the hostname. -/
theorem key_change_counterexample :
    ∃ store1, ProcessStore (storeWithPins [⟨0, 50, "F1"⟩]) ⟨[mkTack 1 0], ["F2"], fun _ => true⟩
        "h" 10 = .ok (Status.REJECTED, none, store1) ∧
      store1.GetPinPair "h" = [⟨0, 50, "F1"⟩] ∧
      ∃ pin ∈ store1.GetPinPair "h", pin.fingerprint = "F1" :=
  ⟨_, rfl, rfl, ⟨0, 50, "F1"⟩, by decide, rfl⟩

/-- Claim C12, amended. When the store holds for the hostname a single pin with
`endTime > currentTime` and fingerprint `F1`, and the only tack presented has a different
fingerprint `F2` and is not revoked, `ProcessStore` returns `(REJECTED, nil)` at once:
the pin pair of every hostname is as before the call, so the pin for `F1` is kept,
whatever the activation flag. -/
theorem key_change_rejected (store : PinStore) (tackExt : TackExtension) (name : String)
    (currentTime : Nat) (pin : Pin) (tack : Tack) (fp2 : String)
    (hpins : store.GetPinPair name = [pin])
    (hgt : pin.endTime > currentTime)
    (htacks : tackExt.Tacks = [tack])
    (hfps : tackExt.GetKeyFingerprints = [fp2])
    (hne : pin.fingerprint ≠ fp2)
    (hrev : revokedInPhase1 store tackExt = false) :
    ∃ store1, ProcessStore store tackExt name currentTime = .ok (Status.REJECTED, none, store1) ∧
      (∀ k, store1.GetPinPair k = store.GetPinPair k) ∧
      store1.GetPinPair name = [pin] := by
  obtain ⟨store1, hcg, hpp, _⟩ := checkGenerations_of_not_revoked store tackExt
    (by rw [htacks, hfps]; rfl) hrev
  have hpair : ∀ k, store1.GetPinPair k = store.GetPinPair k := fun k => by
    simp [PinStore.GetPinPair, hpp]
  have hds : determineStatus tackExt.GetKeyFingerprints tackExt.IsActive tackExt.Tacks
      currentTime (store1.GetPinPair name) 0 Locals.init = .ok none := by
    rw [hpair, hpins, htacks, hfps]
    simp [determineStatus, matchTacks, Flags.set, Flags.get, Locals.init, Flags.zero, hgt, hne]
  exact ⟨store1, ProcessStore_of_rejected _ _ _ _ _ hcg hds, hpair, by rw [hpair, hpins]⟩

/-- Claim C12, amended, at a pin for `"F1"` and a tack for `"F2"`. -/
theorem key_change_rejected_witness :
    ∃ store1, ProcessStore (storeWithPins [⟨0, 50, "F1"⟩]) ⟨[mkTack 1 0], ["F2"], fun _ => true⟩
        "h" 10 = .ok (Status.REJECTED, none, store1) ∧
      (∀ k, store1.GetPinPair k = (storeWithPins [⟨0, 50, "F1"⟩]).GetPinPair k) ∧
      store1.GetPinPair "h" = [⟨0, 50, "F1"⟩] :=
  key_change_rejected (storeWithPins [⟨0, 50, "F1"⟩]) ⟨[mkTack 1 0], ["F2"], fun _ => true⟩
    "h" 10 ⟨0, 50, "F1"⟩ (mkTack 1 0) "F2" rfl (by decide) rfl rfl (by decide) rfl

/-- Claim C13 fails as stated. The stored pin `(0, 1000, "F")` is active at
`currentTime = 10` and matches the sole, active tack: the call returns `ACCEPTED` and
stores the end time `10 + (10 - 0) - 1 = 19`, which is below the end time 1000 the pin
had before the call. -/
theorem reobservation_counterexample :
    ∃ store1, ProcessStore (storeWithPins [⟨0, 1000, "F"⟩]) ⟨[mkTack 1 0], ["F"], fun _ => true⟩
        "h" 10 = .ok (Status.ACCEPTED, none, store1) ∧
      store1.GetPinPair "h" = [⟨0, 19, "F"⟩] ∧ 19 < 1000 :=
  ⟨_, rfl, rfl, by decide⟩

/-- Claim C13, amended. When the store holds for the hostname a single pin with
`endTime > currentTime` whose fingerprint is that of the sole presented tack, that tack
being active and not revoked, with pin activation on, `currentTime > initialTime` and
`2 * currentTime + 43200 < 2^32`, `ProcessStore` returns `(ACCEPTED, nil)` and the pin is
stored with `endTime = min (currentTime + (currentTime - initialTime) - 1)
(currentTime + 43200)`, whatever its end time was; this is at least the end time before
the call when that one was computed by the same rule at a time `t` with
`initialTime < t ≤ currentTime`. -/
theorem reobservation_extends (store : PinStore) (tackExt : TackExtension) (name : String)
    (currentTime : Nat) (pin : Pin) (tack : Tack)
    (hpins : store.GetPinPair name = [pin])
    (hgt : pin.endTime > currentTime)
    (htacks : tackExt.Tacks = [tack])
    (hfps : tackExt.GetKeyFingerprints = [pin.fingerprint])
    (hactive : tackExt.IsActive 0 = true)
    (hrev : revokedInPhase1 store tackExt = false)
    (hact : store.GetPinActivation = true)
    (hinit : currentTime > pin.initialTime)
    (hwrap : 2 * currentTime + 43200 < 2 ^ 32) :
    (∃ store1, ProcessStore store tackExt name currentTime
        = .ok (Status.ACCEPTED, none, store1) ∧
      store1.GetPinPair name = [⟨pin.initialTime,
        min (currentTime + (currentTime - pin.initialTime) - 1) (currentTime + 43200),
        pin.fingerprint⟩]) ∧
    ∀ t, pin.initialTime < t → t ≤ currentTime →
      pin.endTime = min (t + (t - pin.initialTime) - 1) (t + 43200) →
      pin.endTime ≤
        min (currentTime + (currentTime - pin.initialTime) - 1) (currentTime + 43200) := by
  constructor
  · obtain ⟨store1, hcg, hpp, hpa⟩ := checkGenerations_of_not_revoked store tackExt
      (by rw [htacks, hfps]; rfl) hrev
    have hpair : store1.GetPinPair name = [pin] := by
      simp [PinStore.GetPinPair, hpp]
      exact hpins
    have hds := determineStatus_one_match tackExt.IsActive tack currentTime pin
    rw [← hfps, ← htacks, ← hpair] at hds
    obtain ⟨store2, hap, hres⟩ := activatePins_one_match store1 tackExt name currentTime pin tack
      (if pin.endTime > currentTime then .ACCEPTED else .UNPINNED)
      ⟨decide (pin.endTime > currentTime), false⟩ hpair
      (by simpa [PinStore.GetPinActivation, hpa] using hact) htacks hfps hactive
    have hps := ProcessStore_of_completed _ _ _ _ _ _ _ hcg hds hap
    simp only [hgt, if_true] at hps
    rw [newEndTime_extended _ _ hinit hwrap] at hres
    exact ⟨store2, hps, hres⟩
  · intro t h1 h2 he
    rw [he]
    omega

/-- Claim C13, amended, at a pin created at time 0 and last extended at time 500
(end time 999), observed again at time 600. -/
theorem reobservation_extends_witness :
    (∃ store1, ProcessStore (storeWithPins [⟨0, 999, "F"⟩]) ⟨[mkTack 1 0], ["F"], fun _ => true⟩
        "h" 600 = .ok (Status.ACCEPTED, none, store1) ∧
      store1.GetPinPair "h" = [⟨0, 1199, "F"⟩]) ∧
    (999 : Nat) ≤ 1199 :=
  ⟨(reobservation_extends (storeWithPins [⟨0, 999, "F"⟩]) ⟨[mkTack 1 0], ["F"], fun _ => true⟩
      "h" 600 ⟨0, 999, "F"⟩ (mkTack 1 0) rfl (by decide) rfl rfl rfl rfl rfl (by decide)
      (by decide)).1,
   (reobservation_extends (storeWithPins [⟨0, 999, "F"⟩]) ⟨[mkTack 1 0], ["F"], fun _ => true⟩
      "h" 600 ⟨0, 999, "F"⟩ (mkTack 1 0) rfl (by decide) rfl rfl rfl rfl rfl (by decide)
      (by decide)).2 500 (by decide) (by decide) (by decide)⟩

/-- Claim C14 (activation gate). With `GetPinActivation()` false, every call of
`ProcessStore` that returns leaves the pin pair of every hostname as it was before the
call, whatever the status; and the call does return when the hostname has at most 2 pins
and the tack set at most 2 tacks with one fingerprint each. -/
theorem activation_gate (store : PinStore) (tackExt : TackExtension) (name : String)
    (currentTime : Nat) (hoff : store.GetPinActivation = false) :
    (∀ st err store1, ProcessStore store tackExt name currentTime = .ok (st, err, store1) →
      ∀ k, store1.GetPinPair k = store.GetPinPair k) ∧
    ((store.GetPinPair name).length ≤ 2 → tackExt.Tacks.length ≤ 2 →
      tackExt.GetKeyFingerprints.length = tackExt.Tacks.length →
      ∃ st err store1, ProcessStore store tackExt name currentTime = .ok (st, err, store1)) := by
  refine ⟨fun st err store1 h k => ?_, fun hpins htacks halign =>
    ProcessStore_returns_off store tackExt name currentTime hpins htacks halign hoff⟩
  obtain ⟨s1, r, hcg, hc⟩ := ProcessStore_cases _ _ _ _ _ _ _ h
  obtain ⟨hpp, hpa⟩ := checkGenerations_frame _ _ _ _ _ _ hcg
  have hpair : s1.GetPinPair k = store.GetPinPair k := by
    simp [PinStore.GetPinPair, hpp]
  rcases hc with hc | hc | hc
  · rw [hc.2.2.2]; exact hpair
  · rw [hc.2.2.2.1]; exact hpair
  · obtain ⟨_, _, l, _, hap, _⟩ := hc
    have := (activatePins_spec _ _ _ _ _ _ hap).1
      (by simpa [PinStore.GetPinActivation, hpa] using hoff)
    rw [this]; exact hpair

/-- Claim C14 at a store with pin activation off, one stored pin that no tack matches and
one active tack that matches no pin. -/
theorem activation_gate_witness :
    (∀ st err store1, ProcessStore ⟨fun _ => none, fun _ => [⟨0, 5, "F"⟩], false⟩
        ⟨[mkTack 1 0], ["G"], fun _ => true⟩ "h" 10 = .ok (st, err, store1) →
      ∀ k, store1.GetPinPair k
        = PinStore.GetPinPair ⟨fun _ => none, fun _ => [⟨0, 5, "F"⟩], false⟩ k) ∧
    ∃ st err store1, ProcessStore ⟨fun _ => none, fun _ => [⟨0, 5, "F"⟩], false⟩
        ⟨[mkTack 1 0], ["G"], fun _ => true⟩ "h" 10 = .ok (st, err, store1) :=
  ⟨(activation_gate ⟨fun _ => none, fun _ => [⟨0, 5, "F"⟩], false⟩
      ⟨[mkTack 1 0], ["G"], fun _ => true⟩ "h" 10 rfl).1,
   (activation_gate ⟨fun _ => none, fun _ => [⟨0, 5, "F"⟩], false⟩
      ⟨[mkTack 1 0], ["G"], fun _ => true⟩ "h" 10 rfl).2 (by decide) (by decide) rfl⟩

/-- Claim C15 (revocation aborts without touching pins). Whenever `ProcessStore` returns
`RevokedError`, the pin pair of every hostname is as before the call, a fingerprint
without recorded minimum generation before the call has none after it, and every recorded
minimum generation is at least its value before the call. -/
theorem revocation_leaves_pins (store : PinStore) (tackExt : TackExtension) (name : String)
    (currentTime : Nat) (st : Status) (store1 : PinStore)
    (hret : ProcessStore store tackExt name currentTime
      = .ok (st, some Error.RevokedError, store1)) :
    (∀ k, store1.GetPinPair k = store.GetPinPair k) ∧
    (∀ fp, store.GetMinGeneration fp = none → store1.GetMinGeneration fp = none) ∧
    (∀ fp m, store.GetMinGeneration fp = some m →
      ∃ m1, store1.GetMinGeneration fp = some m1 ∧ m ≤ m1) := by
  obtain ⟨s1, r, hcg, hc⟩ := ProcessStore_cases _ _ _ _ _ _ _ hret
  rcases hc with hc | hc | hc
  · rw [hc.2.2.2]
    refine ⟨fun k => ?_, checkGenerations_none _ _ _ _ _ _ hcg,
      checkGenerations_mono _ _ _ _ _ _ hcg⟩
    simp [PinStore.GetPinPair, (checkGenerations_frame _ _ _ _ _ _ hcg).1]
  · cases hc.2.2.1
  · cases hc.2.1

/-- Claim C15 at a call whose first tack raises the floor of `"G"` from 1 to 2 and whose
second tack is revoked. -/
theorem revocation_leaves_pins_witness :
    ∃ store1, ProcessStore
        ⟨fun k => if k = "F" then some 5 else if k = "G" then some 1 else none,
          fun _ => [⟨0, 50, "F"⟩], true⟩
        ⟨[mkTack 9 2, mkTack 4 0], ["G", "F"], fun _ => true⟩ "h" 10
        = .ok (Status.UNPINNED, some Error.RevokedError, store1) ∧
      store1.GetPinPair "h" = [⟨0, 50, "F"⟩] ∧
      store1.GetMinGeneration "H" = none ∧
      ∃ m1, store1.GetMinGeneration "G" = some m1 ∧ 1 ≤ m1 :=
  ⟨_, rfl,
    (revocation_leaves_pins
      ⟨fun k => if k = "F" then some 5 else if k = "G" then some 1 else none,
        fun _ => [⟨0, 50, "F"⟩], true⟩
      ⟨[mkTack 9 2, mkTack 4 0], ["G", "F"], fun _ => true⟩ "h" 10 Status.UNPINNED _ rfl).1 "h",
    (revocation_leaves_pins
      ⟨fun k => if k = "F" then some 5 else if k = "G" then some 1 else none,
        fun _ => [⟨0, 50, "F"⟩], true⟩
      ⟨[mkTack 9 2, mkTack 4 0], ["G", "F"], fun _ => true⟩ "h" 10 Status.UNPINNED _ rfl).2.1
      "H" rfl,
    (revocation_leaves_pins
      ⟨fun k => if k = "F" then some 5 else if k = "G" then some 1 else none,
        fun _ => [⟨0, 50, "F"⟩], true⟩
      ⟨[mkTack 9 2, mkTack 4 0], ["G", "F"], fun _ => true⟩ "h" 10 Status.UNPINNED _ rfl).2.2
      "G" 1 rfl⟩

/-- Claim C16 fails on the code. The tack has key and signature buffers of 64 bytes
`0xff`; the key is the P-256 key with private scalar 379, whose `X` has 31 significant
bytes: `Sign` copies the 31 bytes of `X` to `PublicKey[1:32]` and leaves `PublicKey[0]`
as it was, `0xff`, where the 32-byte encoding of `X` left-padded with zero bytes has 0.
The signer is taken to return the signature of nonce 7; the hash is arbitrary. -/
theorem sign_keeps_stale_pad_byte (sha256 : List Nat → List Nat) :
    (bigIntBytes p256X379).length = 31 ∧
    ∃ t, Tack.Sign sha256
        (fun _ => some
          (64375483017717711348634889601793836329966447963510648681625681211348943876771,
           114871417518514932624486576733854440984677732891218563981808723285187912904772))
        p256X379 p256Y379 staleTack = .signed t ∧
      t.PublicKey = 255 :: (bigIntBytes p256X379 ++ bigIntBytes p256Y379) ∧
      t.PublicKey[0]? = some 255 ∧
      (List.replicate (32 - (bigIntBytes p256X379).length) 0 ++ bigIntBytes p256X379)[0]?
        = some 0 :=
  ⟨by decide, _, rfl, by decide, rfl, by decide⟩

/-- Claim C17 (floor raising in the first loop). In a call with pin activation off that
returns without `RevokedError`, a fingerprint with recorded minimum generation `m` before
the call has after it the largest of `m` and the `MinGeneration` of the presented tacks
with that fingerprint, and a fingerprint without recorded minimum generation still has
none. -/
theorem phase1_floor_raising (store : PinStore) (tackExt : TackExtension) (name : String)
    (currentTime : Nat) (st : Status) (store1 : PinStore)
    (hoff : store.GetPinActivation = false)
    (hret : ProcessStore store tackExt name currentTime = .ok (st, none, store1)) :
    (∀ fp m, store.GetMinGeneration fp = some m →
      store1.GetMinGeneration fp = some (List.foldl max m
        (((tackExt.Tacks.zip tackExt.GetKeyFingerprints).filter
            (fun x => decide (x.2 = fp))).map (fun x => x.1.MinGeneration)))) ∧
    (∀ fp, store.GetMinGeneration fp = none → store1.GetMinGeneration fp = none) := by
  obtain ⟨s1, r, hcg, hc⟩ := ProcessStore_cases _ _ _ _ _ _ _ hret
  have hs : r = false ∧ store1 = s1 := by
    rcases hc with hc | hc | hc
    · cases hc.2.2.1
    · exact ⟨hc.1, hc.2.2.2.1⟩
    · obtain ⟨hr, _, l, _, hap, _⟩ := hc
      refine ⟨hr, ?_⟩
      exact (activatePins_spec _ _ _ _ _ _ hap).1
        (by simpa [PinStore.GetPinActivation, (checkGenerations_frame _ _ _ _ _ _ hcg).2]
          using hoff)
  obtain ⟨hr, hs1⟩ := hs
  subst hr
  subst hs1
  refine ⟨fun fp m hm => ?_, checkGenerations_none _ _ _ _ _ _ hcg⟩
  have := checkGenerations_floor _ _ _ _ _ hcg fp m hm
  simpa using this

/-- Claim C17 at recorded floors 5 for `"F"` and none for `"G"`, with tacks for `"F"`
(`MinGeneration` 8) and `"G"` (`MinGeneration` 2): the floor of `"F"` becomes 8. -/
theorem phase1_floor_raising_witness :
    ∃ store1, ProcessStore ⟨fun k => if k = "F" then some 5 else none, fun _ => [], false⟩
        ⟨[mkTack 9 8, mkTack 3 2], ["F", "G"], fun _ => true⟩ "h" 10
        = .ok (Status.UNPINNED, none, store1) ∧
      store1.GetMinGeneration "F" = some 8 ∧ store1.GetMinGeneration "G" = none :=
  ⟨_, rfl,
    (phase1_floor_raising ⟨fun k => if k = "F" then some 5 else none, fun _ => [], false⟩
      ⟨[mkTack 9 8, mkTack 3 2], ["F", "G"], fun _ => true⟩ "h" 10 Status.UNPINNED _ rfl rfl).1
      "F" 5 rfl,
    (phase1_floor_raising ⟨fun k => if k = "F" then some 5 else none, fun _ => [], false⟩
      ⟨[mkTack 9 8, mkTack 3 2], ["F", "G"], fun _ => true⟩ "h" 10 Status.UNPINNED _ rfl rfl).2
      "G" rfl⟩

/-- Claim C18 fails on the code. The stored pin `(0, 20, "F")` matches two presented
tacks with fingerprint `"F"`, the first active and the second not, at `currentTime = 100`
with pin activation on: the matching loop overwrites `pinMatchesActiveTack[0]` with
`IsActive(1) = false`, the pin is not extended, and its end time after the call is still
20, not `min (100 + (100 - 0) - 1) (100 + 43200) = 199`. -/
theorem extension_missed_after_inactive_duplicate :
    ∃ store1, ProcessStore (storeWithPins [⟨0, 20, "F"⟩])
        ⟨[mkTack 1 0, mkTack 1 0], ["F", "F"], fun t => decide (t = 0)⟩ "h" 100
        = .ok (Status.UNPINNED, none, store1) ∧
      store1.GetPinPair "h" = [⟨0, 20, "F"⟩] ∧
      min (100 + (100 - 0) - 1) (100 + 43200) = 199 :=
  ⟨_, rfl, rfl, by decide⟩

/-- Claim C19 (the invariant guard is unreachable on well-formed input). When the pin
pair of the hostname has at most 2 pins with pairwise distinct fingerprints, a call of
`ProcessStore` for that hostname with at most 2 tacks, one fingerprint per tack, pairwise
distinct, returns: it reaches neither `panic("ASSERT: only 2 pins allowed in pair")` nor
an index outside the flag arrays, and it leaves a pin pair of at most 2 pins with pairwise
distinct fingerprints. Hence every sequence of such calls for the hostname runs to its end
without panic and leaves such a pair. -/
theorem guard_unreachable (name : String) :
    (∀ (store : PinStore) (tackExt : TackExtension) (currentTime : Nat),
      (store.GetPinPair name).length ≤ 2 →
      ((store.GetPinPair name).map Pin.fingerprint).Nodup →
      tackExt.Tacks.length ≤ 2 →
      tackExt.GetKeyFingerprints.length = tackExt.Tacks.length →
      tackExt.GetKeyFingerprints.Nodup →
      ∃ st err store1, ProcessStore store tackExt name currentTime = .ok (st, err, store1) ∧
        (store1.GetPinPair name).length ≤ 2 ∧
        ((store1.GetPinPair name).map Pin.fingerprint).Nodup) ∧
    (∀ (calls : List Call) (store : PinStore),
      (store.GetPinPair name).length ≤ 2 →
      ((store.GetPinPair name).map Pin.fingerprint).Nodup →
      (∀ c ∈ calls, c.name = name ∧ c.tackExt.Tacks.length ≤ 2 ∧
        c.tackExt.GetKeyFingerprints.length = c.tackExt.Tacks.length ∧
        c.tackExt.GetKeyFingerprints.Nodup) →
      ∃ store1, runCalls store calls = .ok store1 ∧
        (store1.GetPinPair name).length ≤ 2 ∧
        ((store1.GetPinPair name).map Pin.fingerprint).Nodup) := by
  refine ⟨fun store tackExt now h1 h2 h3 h4 h5 =>
    ProcessStore_wf store tackExt name now h1 h2 h3 h4 h5, ?_⟩
  intro calls
  induction calls with
  | nil => intro store h1 h2 _; exact ⟨store, rfl, h1, h2⟩
  | cons c rest ih =>
    intro store h1 h2 hc
    obtain ⟨hn, c1, c2, c3⟩ := hc c (List.mem_cons_self _ _)
    obtain ⟨st, err, store1, hps, w1, w2⟩ := ProcessStore_wf
      { store with pinActivation := c.activation } c.tackExt name c.currentTime h1 h2 c1 c2 c3
    obtain ⟨store2, hrun, w3, w4⟩ := ih store1 w1 w2
      (fun d hd => hc d (List.mem_cons_of_mem _ hd))
    refine ⟨store2, ?_, w3, w4⟩
    unfold runCalls
    rw [hn, hps]
    exact hrun

/-- Claim C19 at one call that drops a pin and adds a pending one, and at a sequence of
three calls from the empty store. -/
theorem guard_unreachable_witness :
    (∃ st err store1, ProcessStore (storeWithPins [⟨0, 5, "F"⟩, ⟨0, 6, "H"⟩]) tacksFG "h" 10
        = .ok (st, err, store1) ∧
      (store1.GetPinPair "h").length ≤ 2 ∧
      ((store1.GetPinPair "h").map Pin.fingerprint).Nodup) ∧
    (∃ store1, runCalls (storeWithPins [])
        [⟨true, tacksFG, "h", 10⟩, ⟨true, ⟨[mkTack 1 0, mkTack 1 0], ["F", "H"], fun _ => true⟩,
          "h", 20⟩, ⟨false, tacksFG, "h", 30⟩] = .ok store1 ∧
      (store1.GetPinPair "h").length ≤ 2 ∧
      ((store1.GetPinPair "h").map Pin.fingerprint).Nodup) :=
  ⟨(guard_unreachable "h").1 (storeWithPins [⟨0, 5, "F"⟩, ⟨0, 6, "H"⟩]) tacksFG 10
      (by decide) (by decide) (by decide) rfl (by decide),
   (guard_unreachable "h").2
      [⟨true, tacksFG, "h", 10⟩, ⟨true, ⟨[mkTack 1 0, mkTack 1 0], ["F", "H"], fun _ => true⟩,
        "h", 20⟩, ⟨false, tacksFG, "h", 30⟩] (storeWithPins [])
      (by decide) (by decide) (by decide)⟩

/-- Claim C20 (repeating a call does not change the store again). When the pin pair of
the hostname has at most 2 pins with pairwise distinct fingerprints and the tack set at
most 2 tacks, one fingerprint per tack, pairwise distinct, the call of `ProcessStore`
returns, and the same call made again on the store it left returns and leaves that
store, pin pairs and recorded minimum generations alike, as it is. -/
theorem repeated_call_changes_nothing (store : PinStore) (tackExt : TackExtension)
    (name : String) (currentTime : Nat)
    (hpins : (store.GetPinPair name).length ≤ 2)
    (hnodup : ((store.GetPinPair name).map Pin.fingerprint).Nodup)
    (htacks : tackExt.Tacks.length ≤ 2)
    (halign : tackExt.GetKeyFingerprints.length = tackExt.Tacks.length)
    (hnd : tackExt.GetKeyFingerprints.Nodup) :
    ∃ st err store1, ProcessStore store tackExt name currentTime = .ok (st, err, store1) ∧
      ∃ st2 err2, ProcessStore store1 tackExt name currentTime = .ok (st2, err2, store1) := by
  obtain ⟨st, err, store1, h, _, _⟩ := ProcessStore_wf store tackExt name currentTime hpins
    hnodup htacks halign hnd
  exact ⟨st, err, store1, h,
    ProcessStore_again store tackExt name currentTime st err store1 htacks halign hnd h⟩

/-- Claim C20 at a call that extends the pin for `"F"`, drops the pin for `"H"` and adds
a pending pin for `"G"`. -/
theorem repeated_call_changes_nothing_witness :
    ∃ st err store1, ProcessStore (storeWithPins [⟨0, 5, "F"⟩, ⟨0, 6, "H"⟩]) tacksFG "h" 10
        = .ok (st, err, store1) ∧
      ∃ st2 err2, ProcessStore store1 tacksFG "h" 10 = .ok (st2, err2, store1) :=
  repeated_call_changes_nothing (storeWithPins [⟨0, 5, "F"⟩, ⟨0, 6, "H"⟩]) tacksFG "h" 10
    (by decide) (by decide) (by decide) rfl (by decide)

end Tackgo
